import Mathlib

/-!
# Image diffusion library of the surround-view repository

Shallow embedding of `src/include/image_diffuse/` (convolution.h,
convolution_loop.h, kernel.h, half_size.h, double_size.h, fill_region.h,
image_diffuse.h).

Conventions of the embedding:

* a C++ `int` is an `Int` (sizes are far from the overflow range); `/` and `%`
  on `int` truncate toward zero, hence `Int.tdiv` and `Int.tmod`;
* an image `cv::Mat_<cv::Vec<T, NUM_CHANNELS>>` is its size together with its
  pixel contents `px row col channel`;
* a pointer into an image is the pixel position it points at; every read and
  every write through a pointer is checked against the bounds of the image it
  points into, and a function that reads or writes out of bounds (or indexes an
  array past its length) returns `none`;
* the arithmetic of the pixel type is exact: `T` is a commutative ring with a
  division `PixelDiv.pdiv` (truncating division for `Int`, field division for
  `ℚ`, which stands for `double`);
* the image a function reads and the image it writes are distinct objects.
-/

namespace ImageDiffuse

/-! ## Pixel types, images, pointers -/

/-- The operator `/` of the pixel type. -/
class PixelDiv (T : Type) where
  pdiv : T → T → T

instance instPixelDivInt : PixelDiv Int := ⟨Int.tdiv⟩

instance instPixelDivRat : PixelDiv ℚ := ⟨fun a b => a / b⟩

/-- An image: `rows`, `cols` and the pixel contents (row, column, channel). -/
structure Image (T : Type) where
  rows : Int
  cols : Int
  px : Int → Int → Nat → T

/-- A pointer to a pixel of an image: the row and column it points at. -/
structure Ptr where
  r : Int
  c : Int

/-- The position `(r, c)` is a pixel of the image. -/
def Image.inside {T : Type} (img : Image T) (r c : Int) : Prop :=
  0 ≤ r ∧ r < img.rows ∧ 0 ≤ c ∧ c < img.cols

instance Image.instDecidableInside {T : Type} (img : Image T) (r c : Int) :
    Decidable (img.inside r c) := by
  unfold Image.inside; infer_instance

/-- The image with the pixel at `(r, c)` replaced by `p`. -/
def Image.set {T : Type} (img : Image T) (r c : Int) (p : Nat → T) : Image T :=
  { rows := img.rows
    cols := img.cols
    px := fun r1 c1 => if r1 = r ∧ c1 = c then p else img.px r1 c1 }

/-- A checked write of one pixel (all its channels) through a pointer. -/
def Image.write {T : Type} (img : Image T) (p : Ptr) (v : Nat → T) : Option (Image T) :=
  if img.inside p.r p.c then some (img.set p.r p.c v) else none

/-- The integers `0, 1, ..., n - 1`, the values of `for (int i = 0; i < n; ++i)`. -/
def upto (n : Int) : List Int :=
  (List.range n.toNat).map Int.ofNat

/-- The loop `for (int x = x0; x < hi; x += step) body`, threading a state;
`fuel` bounds the number of iterations (running out of it is `none`). -/
def forLoop {σ : Type} (fuel : Nat) (x hi step : Int) (s : σ)
    (body : Int → σ → Option σ) : Option σ :=
  match fuel with
  | 0 => if x < hi then none else some s
  | n + 1 =>
    if x < hi then (body x s).bind (fun s1 => forLoop n (x + step) hi step s1 body)
    else some s

/-! ## kernel.h -/

/-- A convolution kernel: `kWidth`, `kHeight`, the row-major `kData`, `kSum`. -/
structure Kernel (T : Type) where
  kWidth : Int
  kHeight : Int
  kData : List T
  kSum : T

/-- The entry `kData[i]`. -/
def Kernel.at {T : Type} [Zero T] (K : Kernel T) (i : Int) : T :=
  K.kData.getD i.toNat 0

section Kernels

variable {T : Type} [CommRing T]

/-- The kernel `BoxKernel<T, 2, 2>`. -/
def BoxKernel22 : Kernel T :=
  { kWidth := 2, kHeight := 2, kData := [1, 1, 1, 1], kSum := 4 }

/-- The kernel `BiLinearTopLeftKernel<T>`. -/
def BiLinearTopLeftKernel : Kernel T :=
  { kWidth := 2, kHeight := 2, kData := [1, 3, 3, 9], kSum := 16 }

/-- The kernel `BiLinearTopRightKernel<T>`. -/
def BiLinearTopRightKernel : Kernel T :=
  { kWidth := 2, kHeight := 2, kData := [3, 1, 9, 3], kSum := 16 }

/-- The kernel `BiLinearBottomLeftKernel<T>`. -/
def BiLinearBottomLeftKernel : Kernel T :=
  { kWidth := 2, kHeight := 2, kData := [3, 9, 1, 3], kSum := 16 }

/-- The kernel `BiLinearBottomRightKernel<T>`. -/
def BiLinearBottomRightKernel : Kernel T :=
  { kWidth := 2, kHeight := 2, kData := [9, 3, 3, 1], kSum := 16 }

end Kernels

/-- A group of four 2x2 kernels used inside a `kWidth` x `kHeight` window. -/
structure KernelGroup (T : Type) where
  kWidth : Int
  kHeight : Int
  TopLeft : Kernel T
  TopRight : Kernel T
  BottomLeft : Kernel T
  BottomRight : Kernel T

/-- The group `BiLinearKernelGroup<T>`. -/
def BiLinearKernelGroup {T : Type} [CommRing T] : KernelGroup T :=
  { kWidth := 3, kHeight := 3
    TopLeft := BiLinearTopLeftKernel
    TopRight := BiLinearTopRightKernel
    BottomLeft := BiLinearBottomLeftKernel
    BottomRight := BiLinearBottomRightKernel }

/-! ## convolution_loop.h: `InnerLoop` -/

section InnerLoops

variable {T : Type} [CommRing T] [PixelDiv T]

/-- The kernel sizes `InnerLoop` is specialised for. -/
def InnerLoop.supported (kw kh : Int) : Prop :=
  (kw, kh) ∈ [((2 : Int), (2 : Int)), (3, 3), (3, 1), (1, 3), (4, 4), (4, 1), (1, 4),
    (5, 5), (5, 1), (1, 5)]

/-- Every read `row[j][z + NUM_CHANNELS * i]` of `InnerLoop::Call` is inside
the image the row pointers point into. -/
def InnerLoop.readsInside (K : Kernel T) (buf : Image T) (row : Int → Ptr) : Bool :=
  (upto K.kHeight).all (fun j => (upto K.kWidth).all (fun i =>
    decide (buf.inside (row j).r ((row j).c + i))))

/-- The value `InnerLoop::Call` computes for channel `z`: the sum, in row-major
order, of `kData[j * kWidth + i] * row[j][z + NUM_CHANNELS * i]`, over `kSum`. -/
def InnerLoop.value (K : Kernel T) (buf : Image T) (row : Int → Ptr) (z : Nat) : T :=
  PixelDiv.pdiv
    (((upto K.kHeight).map (fun j => ((upto K.kWidth).map (fun i =>
      K.at (j * K.kWidth + i) * buf.px (row j).r ((row j).c + i) z)).sum)).sum)
    K.kSum

/-- The function `InnerLoop<...>::Call(row, res_ptr)`: one output pixel. -/
def InnerLoop.Call (K : Kernel T) (buf : Image T) (row : Int → Ptr)
    (result : Image T) (res_ptr : Ptr) : Option (Image T) :=
  if InnerLoop.readsInside K buf row then
    result.write res_ptr (InnerLoop.value K buf row)
  else none

end InnerLoops

/-! ## convolution.h: `Convolve` -/

section Convolution

variable {T : Type} [CommRing T] [PixelDiv T]

/-- The function `GetPatchClampedToEdge`: the `kw` x `kh` patch around `(x, y)`,
with the clamp-to-edge boundary condition. -/
def GetPatchClampedToEdge (kw kh : Int) (image : Image T) (x y : Int) : Option (Image T) :=
  let kKernelWidthHalf := Int.tdiv (kw - 1) 2
  let kKernelHeightHalf := Int.tdiv (kh - 1) 2
  let max_x := image.cols - 1
  let max_y := image.rows - 1
  let sample_x := fun i : Int => min max_x (max 0 (x - kKernelWidthHalf + i))
  let sample_y := fun j : Int => min max_y (max 0 (y - kKernelHeightHalf + j))
  if (upto kh).all (fun j => (upto kw).all (fun i =>
      decide (image.inside (sample_y j) (sample_x i)))) then
    some { rows := kh, cols := kw
           px := fun j i => image.px (sample_y j) (sample_x i) }
  else none

/-- The function `GetPatchRows`: row pointers into the image itself, clamped at
the top and bottom only. -/
def GetPatchRows (kw kh : Int) (image : Image T) (x y : Int) : Int → Ptr :=
  let kKernelWidthHalf := Int.tdiv (kw - 1) 2
  let kKernelHeightHalf := Int.tdiv (kh - 1) 2
  let height := image.rows
  fun k => ⟨min (height - 1) (max 0 (y - kKernelHeightHalf + k)), x - kKernelWidthHalf⟩

/-- The function `RoundUp`. -/
def RoundUp (value step : Int) : Int :=
  value + Int.tmod (step - Int.tmod value step) step

/-- The function `RoundDown`. -/
def RoundDown (value step : Int) : Int :=
  value - Int.tmod value step

/-- The state of a boundary block of a row: the result and `res_ptr`. -/
structure RowState (T : Type) where
  result : Image T
  res_ptr : Ptr

/-- The state of the middle block of a row: the result, `res_ptr`, `rows`. -/
structure MidState (T : Type) where
  result : Image T
  res_ptr : Ptr
  rows : Int → Ptr

/-- The rows `patch_rows` of `temp_patch`. -/
def patch_rows : Int → Ptr := fun i => ⟨i, 0⟩

/-- A boundary block of `ConvolveNoAlloc` (left or right) for the row `y`. -/
def ConvolveNoAlloc.edgeBlock (K : Kernel T) (STEP_X : Int) (image : Image T) (y : Int)
    (lo hi : Int) (s : RowState T) : Option (RowState T) :=
  forLoop (hi - lo).toNat lo hi STEP_X s (fun x s =>
    (GetPatchClampedToEdge K.kWidth K.kHeight image x y).bind (fun temp_patch =>
    (InnerLoop.Call K temp_patch patch_rows s.result s.res_ptr).bind (fun result =>
    some { result := result, res_ptr := ⟨s.res_ptr.r, s.res_ptr.c + 1⟩ })))

/-- The middle block of `ConvolveNoAlloc` for the row `y`. -/
def ConvolveNoAlloc.middleBlock (K : Kernel T) (STEP_X : Int) (image : Image T) (y : Int)
    (left_boundary right_boundary : Int) (s : RowState T) : Option (RowState T) :=
  if left_boundary < right_boundary then
    (forLoop (right_boundary - left_boundary).toNat left_boundary right_boundary STEP_X
      ({ result := s.result, res_ptr := s.res_ptr
         rows := GetPatchRows K.kWidth K.kHeight image left_boundary y } : MidState T)
      (fun _ s =>
        (InnerLoop.Call K image s.rows s.result s.res_ptr).bind (fun result =>
        some { result := result
               res_ptr := ⟨s.res_ptr.r, s.res_ptr.c + 1⟩
               rows := fun i => ⟨(s.rows i).r, (s.rows i).c + STEP_X⟩ }))).map
      (fun s => { result := s.result, res_ptr := s.res_ptr })
  else some s

/-- The function `ConvolveNoAlloc<PIXEL_TYPE, INNER_LOOP, NUM_CHANNELS, STEP_X, STEP_Y>`. -/
def ConvolveNoAlloc (K : Kernel T) (STEP_X STEP_Y : Int) (image result : Image T) :
    Option (Image T) :=
  let kKernelWidth := K.kWidth
  let width := min (STEP_X * result.cols) image.cols
  let height := min (STEP_Y * result.rows) image.rows
  let kBoundaryWidth := Int.tdiv kKernelWidth 2
  let left_boundary := min width (RoundUp kBoundaryWidth STEP_X)
  let right_boundary := max left_boundary (RoundDown (width - kBoundaryWidth) STEP_X)
  forLoop height.toNat 0 height STEP_Y result (fun y result =>
    let res_ptr : Ptr := ⟨Int.tdiv y STEP_Y, 0⟩
    (ConvolveNoAlloc.edgeBlock K STEP_X image y 0 left_boundary
      { result := result, res_ptr := res_ptr }).bind (fun s1 =>
    (ConvolveNoAlloc.middleBlock K STEP_X image y left_boundary right_boundary s1).bind
      (fun s2 =>
    (ConvolveNoAlloc.edgeBlock K STEP_X image y right_boundary width s2).map
      (fun s3 => s3.result))))

/-- The call `result->create(rows, cols)`: an image of that size whose contents
are whatever the fresh memory holds (`garbage`). -/
def create (rows cols : Int) (garbage : Int → Int → Nat → T) : Image T :=
  { rows := rows, cols := cols, px := garbage }

/-- The function `Convolve<PIXEL_TYPE, INNER_LOOP, NUM_CHANNELS, STEP_X, STEP_Y>`. -/
def Convolve (K : Kernel T) (STEP_X STEP_Y : Int) (image : Image T)
    (garbage : Int → Int → Nat → T) : Option (Image T) :=
  let width_out := Int.tdiv (image.cols + STEP_X - 1) STEP_X
  let height_out := Int.tdiv (image.rows + STEP_Y - 1) STEP_Y
  ConvolveNoAlloc K STEP_X STEP_Y image (create height_out width_out garbage)

end Convolution

/-! ## convolution_loop.h: `InnerLoopWithGroup` and `MaskedInnerLoopWithGroup`

The two structs differ only in the test of the alpha channel, so both are
embedded by the same definitions with a flag: `masked = false` is
`InnerLoopWithGroup<..., 3, 3>`, `masked = true` is
`MaskedInnerLoopWithGroup<..., 3, 3>`. -/

section GroupLoops

variable {T : Type} [CommRing T] [PixelDiv T] [DecidableEq T]

/-- The four reads of a 2x2 kernel placed at rows `j0, j0 + 1` and columns
`i0, i0 + 1` of the 3x3 window are inside the image pointed into. -/
def GroupLoop.readsInside (buf : Image T) (row : Int → Ptr) (j0 i0 : Int) : Prop :=
  buf.inside (row j0).r ((row j0).c + i0) ∧
  buf.inside (row j0).r ((row j0).c + (i0 + 1)) ∧
  buf.inside (row (j0 + 1)).r ((row (j0 + 1)).c + i0) ∧
  buf.inside (row (j0 + 1)).r ((row (j0 + 1)).c + (i0 + 1))

instance GroupLoop.instDecidableReadsInside (buf : Image T) (row : Int → Ptr) (j0 i0 : Int) :
    Decidable (GroupLoop.readsInside buf row j0 i0) := by
  unfold GroupLoop.readsInside; infer_instance

/-- The value written for channel `z` by a 2x2 kernel placed at rows
`j0, j0 + 1` and columns `i0, i0 + 1` of the window. -/
def GroupLoop.value (K : Kernel T) (buf : Image T) (row : Int → Ptr) (j0 i0 : Int)
    (z : Nat) : T :=
  PixelDiv.pdiv
    (K.at 0 * buf.px (row j0).r ((row j0).c + i0) z +
     K.at 1 * buf.px (row j0).r ((row j0).c + (i0 + 1)) z +
     K.at 2 * buf.px (row (j0 + 1)).r ((row (j0 + 1)).c + i0) z +
     K.at 3 * buf.px (row (j0 + 1)).r ((row (j0 + 1)).c + (i0 + 1)) z)
    K.kSum

/-- The body shared by `TopLeft`, `TopRight`, `BottomLeft`, `BottomRight`: the
masked variant first reads `res_ptr[NUM_CHANNELS - 1]` and does nothing when it
is not `0`; then all channels of the pixel at `res_ptr` are written. -/
def GroupLoop.sample (masked : Bool) (NUM_CHANNELS : Nat) (K : Kernel T) (j0 i0 : Int)
    (buf : Image T) (row : Int → Ptr) (result : Image T) (res_ptr : Ptr) :
    Option (Image T) :=
  if masked then
    if result.inside res_ptr.r res_ptr.c then
      if result.px res_ptr.r res_ptr.c (NUM_CHANNELS - 1) = 0 then
        if GroupLoop.readsInside buf row j0 i0 then
          result.write res_ptr (GroupLoop.value K buf row j0 i0)
        else none
      else some result
    else none
  else
    if GroupLoop.readsInside buf row j0 i0 then
      result.write res_ptr (GroupLoop.value K buf row j0 i0)
    else none

/-- The function `TopLeft`: window rows 0, 1 and columns 0, 1. -/
def GroupLoop.TopLeft (masked : Bool) (NUM_CHANNELS : Nat) (G : KernelGroup T)
    (buf : Image T) (row : Int → Ptr) (result : Image T) (res_ptr : Ptr) : Option (Image T) :=
  GroupLoop.sample masked NUM_CHANNELS G.TopLeft 0 0 buf row result res_ptr

/-- The function `TopRight`: window rows 0, 1 and columns 1, 2. -/
def GroupLoop.TopRight (masked : Bool) (NUM_CHANNELS : Nat) (G : KernelGroup T)
    (buf : Image T) (row : Int → Ptr) (result : Image T) (res_ptr : Ptr) : Option (Image T) :=
  GroupLoop.sample masked NUM_CHANNELS G.TopRight 0 1 buf row result res_ptr

/-- The function `BottomLeft`: window rows 1, 2 and columns 0, 1. -/
def GroupLoop.BottomLeft (masked : Bool) (NUM_CHANNELS : Nat) (G : KernelGroup T)
    (buf : Image T) (row : Int → Ptr) (result : Image T) (res_ptr : Ptr) : Option (Image T) :=
  GroupLoop.sample masked NUM_CHANNELS G.BottomLeft 1 0 buf row result res_ptr

/-- The function `BottomRight`: window rows 1, 2 and columns 1, 2. -/
def GroupLoop.BottomRight (masked : Bool) (NUM_CHANNELS : Nat) (G : KernelGroup T)
    (buf : Image T) (row : Int → Ptr) (result : Image T) (res_ptr : Ptr) : Option (Image T) :=
  GroupLoop.sample masked NUM_CHANNELS G.BottomRight 1 1 buf row result res_ptr

/-- The function `Call(rows, row_is_odd, output_two_samples, res_ptr)`, which
outputs one or two consecutive samples. -/
def GroupLoop.Call (masked : Bool) (NUM_CHANNELS : Nat) (G : KernelGroup T)
    (buf : Image T) (rows : Int → Ptr) (row_is_odd output_two_samples : Bool)
    (result : Image T) (res_ptr : Ptr) : Option (Image T) :=
  if row_is_odd then
    (GroupLoop.BottomLeft masked NUM_CHANNELS G buf rows result res_ptr).bind (fun result =>
      if output_two_samples then
        GroupLoop.BottomRight masked NUM_CHANNELS G buf rows result ⟨res_ptr.r, res_ptr.c + 1⟩
      else some result)
  else
    (GroupLoop.TopLeft masked NUM_CHANNELS G buf rows result res_ptr).bind (fun result =>
      if output_two_samples then
        GroupLoop.TopRight masked NUM_CHANNELS G buf rows result ⟨res_ptr.r, res_ptr.c + 1⟩
      else some result)

/-- The function `Call(rows, row_is_odd, res_ptr)`, which outputs two
consecutive samples. -/
def GroupLoop.CallTwo (masked : Bool) (NUM_CHANNELS : Nat) (G : KernelGroup T)
    (buf : Image T) (rows : Int → Ptr) (row_is_odd : Bool)
    (result : Image T) (res_ptr : Ptr) : Option (Image T) :=
  if row_is_odd then
    (GroupLoop.BottomLeft masked NUM_CHANNELS G buf rows result res_ptr).bind (fun result =>
      GroupLoop.BottomRight masked NUM_CHANNELS G buf rows result ⟨res_ptr.r, res_ptr.c + 1⟩)
  else
    (GroupLoop.TopLeft masked NUM_CHANNELS G buf rows result res_ptr).bind (fun result =>
      GroupLoop.TopRight masked NUM_CHANNELS G buf rows result ⟨res_ptr.r, res_ptr.c + 1⟩)

end GroupLoops

/-! ## convolution.h: `DoubleSizeWithConvolution` -/

section DoubleSize

variable {T : Type} [CommRing T] [PixelDiv T] [DecidableEq T]

/-- A boundary block of `DoubleSizeWithConvolutionNoAlloc` for the row `y`. The
left block advances `res_ptr` by two pixels in every iteration
(`advance_by_samples = false`), the right block by as many pixels as it has
output (`advance_by_samples = true`). -/
def DoubleSizeWithConvolutionNoAlloc.edgeBlock (masked : Bool) (NUM_CHANNELS : Nat)
    (G : KernelGroup T) (image : Image T) (y width : Int) (row_is_odd : Bool)
    (advance_by_samples : Bool) (lo hi : Int) (s : RowState T) : Option (RowState T) :=
  forLoop (hi - lo).toNat lo hi 2 s (fun x s =>
    (GetPatchClampedToEdge G.kWidth G.kHeight image (Int.tdiv x 2) (Int.tdiv y 2)).bind
      (fun temp_patch =>
    let output_two_samples : Bool := decide (x < width - 1)
    (GroupLoop.Call masked NUM_CHANNELS G temp_patch patch_rows row_is_odd output_two_samples
      s.result s.res_ptr).bind (fun result =>
    some { result := result
           res_ptr := ⟨s.res_ptr.r,
             s.res_ptr.c + (if advance_by_samples && !output_two_samples then 1 else 2)⟩ })))

/-- The middle block of `DoubleSizeWithConvolutionNoAlloc` for the row `y`. -/
def DoubleSizeWithConvolutionNoAlloc.middleBlock (masked : Bool) (NUM_CHANNELS : Nat)
    (G : KernelGroup T) (image : Image T) (y : Int) (row_is_odd : Bool)
    (left_boundary right_boundary : Int) (s : RowState T) : Option (RowState T) :=
  if left_boundary < right_boundary then
    (forLoop (right_boundary - left_boundary).toNat left_boundary right_boundary 2
      ({ result := s.result, res_ptr := s.res_ptr
         rows := GetPatchRows G.kWidth G.kHeight image (Int.tdiv left_boundary 2)
                   (Int.tdiv y 2) } : MidState T)
      (fun _ s =>
        (GroupLoop.CallTwo masked NUM_CHANNELS G image s.rows row_is_odd
          s.result s.res_ptr).bind (fun result =>
        some { result := result
               res_ptr := ⟨s.res_ptr.r, s.res_ptr.c + 2⟩
               rows := fun i => ⟨(s.rows i).r, (s.rows i).c + 1⟩ }))).map
      (fun s => { result := s.result, res_ptr := s.res_ptr })
  else some s

/-- The function `DoubleSizeWithConvolutionNoAlloc<PIXEL_TYPE, INNER_LOOP, NUM_CHANNELS>`,
for `INNER_LOOP` one of the two group loops. -/
def DoubleSizeWithConvolutionNoAlloc (masked : Bool) (NUM_CHANNELS : Nat)
    (G : KernelGroup T) (image result : Image T) : Option (Image T) :=
  let width := min result.cols ((image.cols + 1) * 2)
  let height := min result.rows ((image.rows + 1) * 2)
  let kKernelWidth := G.kWidth
  let kBoundaryWidth := Int.tdiv kKernelWidth 2 + Int.tmod (Int.tdiv kKernelWidth 2) 2
  let left_boundary := min (width + Int.tmod width 2) kBoundaryWidth
  let right_boundary := max left_boundary (width + Int.tmod width 2 - kBoundaryWidth)
  forLoop height.toNat 0 height 1 result (fun y result =>
    let row_is_odd : Bool := decide (Int.tmod y 2 ≠ 0)
    let res_ptr : Ptr := ⟨y, 0⟩
    (DoubleSizeWithConvolutionNoAlloc.edgeBlock masked NUM_CHANNELS G image y width
      row_is_odd false 0 left_boundary { result := result, res_ptr := res_ptr }).bind
      (fun s1 =>
    (DoubleSizeWithConvolutionNoAlloc.middleBlock masked NUM_CHANNELS G image y row_is_odd
      left_boundary right_boundary s1).bind (fun s2 =>
    (DoubleSizeWithConvolutionNoAlloc.edgeBlock masked NUM_CHANNELS G image y width
      row_is_odd true right_boundary width s2).map (fun s3 => s3.result))))

/-- The function `DoubleSizeWithConvolution<PIXEL_TYPE, INNER_LOOP, NUM_CHANNELS>`;
a failed `CHECK_GT` aborts (`none`). -/
def DoubleSizeWithConvolution (masked : Bool) (NUM_CHANNELS : Nat)
    (G : KernelGroup T) (image : Image T) (garbage : Int → Int → Nat → T) :
    Option (Image T) :=
  if 0 < image.cols ∧ 0 < image.rows then
    DoubleSizeWithConvolutionNoAlloc masked NUM_CHANNELS G image
      (create (image.rows * 2) (image.cols * 2) garbage)
  else none

/-! ## double_size.h -/

/-- The function `BiLinearDoubleSizeNoAlloc`. -/
def BiLinearDoubleSizeNoAlloc (NUM_CHANNELS : Nat) (image result : Image T) :
    Option (Image T) :=
  DoubleSizeWithConvolutionNoAlloc false NUM_CHANNELS BiLinearKernelGroup image result

/-- The function `BiLinearDoubleSize`. -/
def BiLinearDoubleSize (NUM_CHANNELS : Nat) (image : Image T)
    (garbage : Int → Int → Nat → T) : Option (Image T) :=
  DoubleSizeWithConvolution false NUM_CHANNELS BiLinearKernelGroup image garbage

/-- The function `BiLinearDoubleSizeWithMaskNoAlloc`. -/
def BiLinearDoubleSizeWithMaskNoAlloc (NUM_CHANNELS : Nat) (image result : Image T) :
    Option (Image T) :=
  DoubleSizeWithConvolutionNoAlloc true NUM_CHANNELS BiLinearKernelGroup image result

end DoubleSize

/-! ## half_size.h -/

section HalfSize

variable {T : Type} [CommRing T] [PixelDiv T]

/-- The function `BoxHalfSizeNoAlloc`. -/
def BoxHalfSizeNoAlloc (image result : Image T) : Option (Image T) :=
  let kStep : Int := 2
  ConvolveNoAlloc BoxKernel22 kStep kStep image result

/-- The function `BoxHalfSize`. -/
def BoxHalfSize (image : Image T) (garbage : Int → Int → Nat → T) : Option (Image T) :=
  BoxHalfSizeNoAlloc image
    (create (Int.tdiv (image.rows + 1) 2) (Int.tdiv (image.cols + 1) 2) garbage)

end HalfSize

/-! ## fill_region.h -/

section FillRegion

variable {T : Type} [CommRing T] [PixelDiv T] [DecidableEq T]

/-- Auxiliary recursion of `ceilLog2`. -/
def ceilLog2Fuel : Nat → Nat → Nat
  | 0, _ => 0
  | fuel + 1, n => if n ≤ 1 then 0 else ceilLog2Fuel fuel ((n + 1) / 2) + 1

/-- The expression `ceil(logf(n) / logf(2))` in exact arithmetic: the least `k`
with `n ≤ 2 ^ k`, counted as the number of halvings (rounding up) that bring
`n` down to `1`. -/
def ceilLog2 (n : Nat) : Nat :=
  ceilLog2Fuel n n

/-- The first loop of `FillRegionNoAlloc`, run for `num_levels` iterations:
iteration `i` allocates `pyramid[i]` as the box half size of `input` (`i = 0`)
or of `pyramid[i - 1]`. -/
def FillRegionNoAlloc.buildPyramid (garbage : Nat → Int → Int → Nat → T) (input : Image T) :
    Nat → Option (List (Image T))
  | 0 => some []
  | i + 1 =>
    (FillRegionNoAlloc.buildPyramid garbage input i).bind (fun pyramid =>
    (if i = 0 then some input else pyramid[i - 1]?).bind (fun source =>
    (BoxHalfSize source (garbage i)).map (fun level => pyramid ++ [level])))

/-- The second loop of `FillRegionNoAlloc`,
`for (int i = num_levels - 1; i > 0; --i)`, started at `i`: level `i - 1` is
filled in from level `i`. -/
def FillRegionNoAlloc.fillLoop (NUM_CHANNELS : Nat) :
    Nat → List (Image T) → Option (List (Image T))
  | 0, pyramid => some pyramid
  | i + 1, pyramid =>
    (pyramid[i + 1]?).bind (fun upper =>
    (pyramid[i]?).bind (fun lower =>
    (BiLinearDoubleSizeWithMaskNoAlloc NUM_CHANNELS upper lower).bind (fun filled =>
    FillRegionNoAlloc.fillLoop NUM_CHANNELS i (pyramid.set i filled))))

/-- The function `FillRegionNoAlloc`. The result is overwritten by a copy of
the input (`input.copyTo(*result)`), so what it held before plays no role; the
array `pyramid` has `num_levels` entries and reading `pyramid[0]` when there is
none is an out-of-bounds access. -/
def FillRegionNoAlloc (NUM_CHANNELS : Nat) (input : Image T)
    (garbage : Nat → Int → Int → Nat → T) : Option (Image T) :=
  let num_levels_width := ceilLog2 input.cols.toNat
  let num_levels_height := ceilLog2 input.rows.toNat
  let num_levels := max num_levels_width num_levels_height
  (FillRegionNoAlloc.buildPyramid garbage input num_levels).bind (fun pyramid =>
  (FillRegionNoAlloc.fillLoop NUM_CHANNELS (num_levels - 1) pyramid).bind (fun pyramid =>
  let result := input
  (pyramid[0]?).bind (fun level0 =>
  BiLinearDoubleSizeWithMaskNoAlloc NUM_CHANNELS level0 result)))

/-- The function `FillRegion`: it allocates the result and calls
`FillRegionNoAlloc`. -/
def FillRegion (NUM_CHANNELS : Nat) (input : Image T)
    (garbage : Nat → Int → Int → Nat → T) : Option (Image T) :=
  FillRegionNoAlloc NUM_CHANNELS input garbage

end FillRegion

/-! ## image_diffuse.h

`DiffuseFromMaskedRegion` works on `double`, here `ℚ`. The template parameter
`ImageType` enters through `std::numeric_limits<ImageType>::min()`, `max()`
and `static_cast<ImageType>`; the values of `MaskType` and `ImageType` are
numbers, kept as rationals. -/

/-- What `DiffuseFromMaskedRegion` uses of `ImageType`. -/
structure NumericType where
  numeric_limits_min : ℚ
  numeric_limits_max : ℚ
  static_cast : ℚ → ℚ

/-- The value of `static_cast<int>(x)` and of the other integer types:
truncation toward zero. -/
def truncate (x : ℚ) : ℚ :=
  ((Int.tdiv x.num x.den : Int) : ℚ)

/-- The type `unsigned char`. -/
def ucharType : NumericType :=
  { numeric_limits_min := 0, numeric_limits_max := 255, static_cast := truncate }

/-- The type `int` (32 bits). -/
def intType : NumericType :=
  { numeric_limits_min := -2147483648, numeric_limits_max := 2147483647
    static_cast := truncate }

/-- The type `double`: `numeric_limits<double>::min()` is the smallest positive
normalised value `2^-1022`, `max()` is `(2^53 - 1) * 2^971`, and the cast from
`double` is the identity. -/
def doubleType : NumericType :=
  { numeric_limits_min := 1 / 2 ^ 1022
    numeric_limits_max := (2 ^ 53 - 1) * 2 ^ 971
    static_cast := fun x => x }

/-- The image `image_with_alpha` before the call of `FillRegionNoAlloc`: all
zeros where the first mask channel is negative, the image pixel followed by an
alpha of `1` elsewhere. -/
def DiffuseFromMaskedRegion.withAlpha (NumImageChannels : Nat) (mask image : Image ℚ) :
    Image ℚ :=
  { rows := mask.rows
    cols := mask.cols
    px := fun row col c =>
      if mask.px row col 0 < 0 then 0
      else if c < NumImageChannels then image.px row col c
      else if c = NumImageChannels then 1 else 0 }

/-- The function `DiffuseFromMaskedRegion`; the value returned is the image
after the call. The image is read at the pixels the mask does not mark and
written at every pixel of the mask, all through row pointers of the image.
Where `alpha` is `0` the quotient of the doubles is not a number: `0 / 0` is a
NaN and `x / 0` an infinity of the sign of `x`; `std::min(max, q)` is `q` when
`q < max` and `max` otherwise, `std::max(min, q)` is `q` when `min < q` and
`min` otherwise, so a NaN and the positive infinity give
`numeric_limits<ImageType>::max()` and the negative infinity gives `min()`. -/
def DiffuseFromMaskedRegion (ImageType : NumericType) (NumImageChannels : Nat)
    (mask image : Image ℚ) (garbage : Nat → Int → Int → Nat → ℚ) : Option (Image ℚ) :=
  if (upto mask.rows).all (fun row => (upto mask.cols).all (fun col =>
      decide (image.inside row col))) then
    let image_with_alpha := DiffuseFromMaskedRegion.withAlpha NumImageChannels mask image
    (FillRegionNoAlloc (NumImageChannels + 1) image_with_alpha garbage).bind (fun filled =>
    some
      { rows := image.rows
        cols := image.cols
        px := fun row col channel =>
          if 0 ≤ row ∧ row < mask.rows ∧ 0 ≤ col ∧ col < mask.cols ∧
              channel < NumImageChannels then
            let alpha := filled.px row col NumImageChannels
            ImageType.static_cast
              (if alpha = 0 then
                (if filled.px row col channel < 0 then ImageType.numeric_limits_min
                  else ImageType.numeric_limits_max)
              else
                max ImageType.numeric_limits_min
                  (min ImageType.numeric_limits_max (filled.px row col channel / alpha)))
          else image.px row col channel })
  else none

/-! ## kernel.h: Gaussian kernels -/

section GaussianKernels

variable {T : Type} [CommRing T]

/-- The kernel `GaussianKernel<T, 3, 3>`. -/
def GaussianKernel33 : Kernel T :=
  { kWidth := 3, kHeight := 3, kData := [1, 2, 1, 2, 4, 2, 1, 2, 1], kSum := 16 }

/-- The kernel `GaussianKernel<T, 1, 3>`. -/
def GaussianKernel13 : Kernel T :=
  { kWidth := 1, kHeight := 3, kData := [1, 2, 1], kSum := 4 }

/-- The kernel `GaussianKernel<T, 3, 1>`. -/
def GaussianKernel31 : Kernel T :=
  { kWidth := 3, kHeight := 1, kData := [1, 2, 1], kSum := 4 }

/-- The kernel `GaussianKernel<T, 4, 4>`. -/
def GaussianKernel44 : Kernel T :=
  { kWidth := 4, kHeight := 4
    kData := [1, 3, 3, 1, 3, 9, 9, 3, 3, 9, 9, 3, 1, 3, 3, 1], kSum := 64 }

/-- The kernel `GaussianKernel<T, 4, 1>`. -/
def GaussianKernel41 : Kernel T :=
  { kWidth := 4, kHeight := 1, kData := [1, 3, 3, 1], kSum := 8 }

/-- The kernel `GaussianKernel<T, 1, 4>`. -/
def GaussianKernel14 : Kernel T :=
  { kWidth := 1, kHeight := 4, kData := [1, 3, 3, 1], kSum := 8 }

/-- The kernel `GaussianKernel<T, 5, 5>`. -/
def GaussianKernel55 : Kernel T :=
  { kWidth := 5, kHeight := 5
    kData := [1, 4, 6, 4, 1,
              4, 16, 24, 16, 4,
              6, 24, 35, 24, 6,
              4, 16, 24, 16, 4,
              1, 4, 6, 4, 1]
    kSum := 255 }

/-- The kernel `GaussianKernel<T, 5, 1>`. -/
def GaussianKernel51 : Kernel T :=
  { kWidth := 5, kHeight := 1, kData := [1, 4, 6, 4, 1], kSum := 16 }

/-- The kernel `GaussianKernel<T, 1, 5>`. -/
def GaussianKernel15 : Kernel T :=
  { kWidth := 1, kHeight := 5, kData := [1, 4, 6, 4, 1], kSum := 16 }

/-- The template `GaussianKernel<T, KERNEL_WIDTH, KERNEL_HEIGHT>`: only the
specialisations above exist (`none` stands for a size that does not compile). -/
def GaussianKernel (KERNEL_WIDTH KERNEL_HEIGHT : Int) : Option (Kernel T) :=
  if KERNEL_WIDTH = 3 ∧ KERNEL_HEIGHT = 3 then some GaussianKernel33
  else if KERNEL_WIDTH = 1 ∧ KERNEL_HEIGHT = 3 then some GaussianKernel13
  else if KERNEL_WIDTH = 3 ∧ KERNEL_HEIGHT = 1 then some GaussianKernel31
  else if KERNEL_WIDTH = 4 ∧ KERNEL_HEIGHT = 4 then some GaussianKernel44
  else if KERNEL_WIDTH = 4 ∧ KERNEL_HEIGHT = 1 then some GaussianKernel41
  else if KERNEL_WIDTH = 1 ∧ KERNEL_HEIGHT = 4 then some GaussianKernel14
  else if KERNEL_WIDTH = 5 ∧ KERNEL_HEIGHT = 5 then some GaussianKernel55
  else if KERNEL_WIDTH = 5 ∧ KERNEL_HEIGHT = 1 then some GaussianKernel51
  else if KERNEL_WIDTH = 1 ∧ KERNEL_HEIGHT = 5 then some GaussianKernel15
  else none

end GaussianKernels

/-! ## half_size.h: Gaussian half size -/

section GaussianHalfSizes

variable {T : Type} [CommRing T] [PixelDiv T]

/-- The function `GaussianHalfSizeNoAlloc<T, NUM_CHANNELS, KERNEL_SIZE>`; the
image `temp` of the separable branch is allocated with `image.cols / kStep`
columns and holds `garbageTemp` before the first pass. -/
def GaussianHalfSizeNoAlloc (KERNEL_SIZE : Int) (image result : Image T)
    (garbageTemp : Int → Int → Nat → T) : Option (Image T) :=
  let kStep : Int := 2
  if KERNEL_SIZE < 5 then
    (GaussianKernel KERNEL_SIZE KERNEL_SIZE).bind (fun KernelType =>
    ConvolveNoAlloc KernelType kStep kStep image result)
  else
    (GaussianKernel KERNEL_SIZE 1).bind (fun kKernelX =>
    (GaussianKernel 1 KERNEL_SIZE).bind (fun kKernelY =>
    let temp := create image.rows (Int.tdiv image.cols kStep) garbageTemp
    (ConvolveNoAlloc kKernelX kStep 1 image temp).bind (fun temp =>
    ConvolveNoAlloc kKernelY 1 kStep temp result)))

/-- The function `GaussianHalfSize<T, NUM_CHANNELS, KERNEL_SIZE>`. -/
def GaussianHalfSize (KERNEL_SIZE : Int) (image : Image T)
    (garbage garbageTemp : Int → Int → Nat → T) : Option (Image T) :=
  GaussianHalfSizeNoAlloc KERNEL_SIZE image
    (create (Int.tdiv (image.rows + 1) 2) (Int.tdiv (image.cols + 1) 2) garbage) garbageTemp

end GaussianHalfSizes

/-! ## The result pixels visited by `DoubleSizeWithConvolutionNoAlloc`

The same loops as `DoubleSizeWithConvolutionNoAlloc`, keeping only `res_ptr`
and recording, in order, every result pixel at which the inner loop outputs a
sample. -/

/-- The result pixels at which
`Call(rows, row_is_odd, output_two_samples, res_ptr)` outputs a sample:
`res_ptr`, and the next pixel when two samples are output. -/
def GroupLoop.outputs (output_two_samples : Bool) (res_ptr : Ptr) : List Ptr :=
  if output_two_samples then [res_ptr, ⟨res_ptr.r, res_ptr.c + 1⟩] else [res_ptr]

/-- The pixels visited so far and `res_ptr`. -/
structure VisitState where
  visited : List Ptr
  res_ptr : Ptr

/-- The visits of a boundary block of `DoubleSizeWithConvolutionNoAlloc`. -/
def DoubleSizeWithConvolutionNoAlloc.visitsEdge (width : Int) (advance_by_samples : Bool)
    (lo hi : Int) (s : VisitState) : Option VisitState :=
  forLoop (hi - lo).toNat lo hi 2 s (fun x s =>
    let output_two_samples : Bool := decide (x < width - 1)
    some { visited := s.visited ++ GroupLoop.outputs output_two_samples s.res_ptr
           res_ptr := ⟨s.res_ptr.r,
             s.res_ptr.c + (if advance_by_samples && !output_two_samples then 1 else 2)⟩ })

/-- The visits of the middle block of `DoubleSizeWithConvolutionNoAlloc`. -/
def DoubleSizeWithConvolutionNoAlloc.visitsMiddle (left_boundary right_boundary : Int)
    (s : VisitState) : Option VisitState :=
  if left_boundary < right_boundary then
    forLoop (right_boundary - left_boundary).toNat left_boundary right_boundary 2 s
      (fun _ s =>
        some { visited := s.visited ++ GroupLoop.outputs true s.res_ptr
               res_ptr := ⟨s.res_ptr.r, s.res_ptr.c + 2⟩ })
  else some s

/-- The result pixels at which `DoubleSizeWithConvolutionNoAlloc` outputs a
sample, in the order of the loops. -/
def DoubleSizeWithConvolutionNoAlloc.visits {T : Type} (G : KernelGroup T)
    (image result : Image T) : Option (List Ptr) :=
  let width := min result.cols ((image.cols + 1) * 2)
  let height := min result.rows ((image.rows + 1) * 2)
  let kKernelWidth := G.kWidth
  let kBoundaryWidth := Int.tdiv kKernelWidth 2 + Int.tmod (Int.tdiv kKernelWidth 2) 2
  let left_boundary := min (width + Int.tmod width 2) kBoundaryWidth
  let right_boundary := max left_boundary (width + Int.tmod width 2 - kBoundaryWidth)
  forLoop height.toNat 0 height 1 [] (fun y visited =>
    let res_ptr : Ptr := ⟨y, 0⟩
    (DoubleSizeWithConvolutionNoAlloc.visitsEdge width false 0 left_boundary
      { visited := visited, res_ptr := res_ptr }).bind (fun s1 =>
    (DoubleSizeWithConvolutionNoAlloc.visitsMiddle left_boundary right_boundary s1).bind
      (fun s2 =>
    (DoubleSizeWithConvolutionNoAlloc.visitsEdge width true right_boundary width s2).map
      (fun s3 => s3.visited))))

/-! ## Reference definitions

Definitions that follow the wording of the specification; the theorems below
compare them with the embedded code. -/

section Reference

variable {T : Type} [CommRing T] [PixelDiv T]

/-- The value `v` clamped to the interval from `lo` to `hi`. -/
def clamp (v lo hi : Int) : Int :=
  if v < lo then lo else if hi < v then hi else v

/-- The pixel of the image at the position `(r, c)` clamped to the image
(clamp-to-edge). -/
def Image.clamped (image : Image T) (r c : Int) (z : Nat) : T :=
  image.px (clamp r 0 (image.rows - 1)) (clamp c 0 (image.cols - 1)) z

/-- The clamp-to-edge convolution of the image with the kernel at the image
position `(y, x)`, channel `z`: the sum over `j < kHeight`, `i < kWidth` of
`kData[j * kWidth + i]` times the image at row `y - (kHeight - 1) / 2 + j` and
column `x - (kWidth - 1) / 2 + i`, clamped to the image, over `kSum`. -/
def clampedConvolution (K : Kernel T) (image : Image T) (y x : Int) (z : Nat) : T :=
  PixelDiv.pdiv
    (∑ j in Finset.range K.kHeight.toNat, ∑ i in Finset.range K.kWidth.toNat,
      K.at ((j : Int) * K.kWidth + (i : Int)) *
        image.clamped (y - (K.kHeight - 1) / 2 + (j : Int))
          (x - (K.kWidth - 1) / 2 + (i : Int)) z)
    K.kSum

/-- The 2x2 box average of the image at the result position `(r, c)`: the sum
of the four pixels at rows `2r, 2r + 1` and columns `2c, 2c + 1`, clamped to
the image, over 4. -/
def boxAverage (image : Image T) (r c : Int) (z : Nat) : T :=
  PixelDiv.pdiv
    (image.clamped (2 * r) (2 * c) z + image.clamped (2 * r) (2 * c + 1) z +
      image.clamped (2 * r + 1) (2 * c) z + image.clamped (2 * r + 1) (2 * c + 1) z)
    4

/-- The bilinear double-size value at the result position `(y, x)`: with
`i = y / 2`, `j = x / 2`, `di = -1` for even `y` and `+1` for odd `y`, `dj`
likewise for `x`, the weights 9, 3, 3, 1 over 16 on the clamped pixels
`(i, j)`, `(i, j + dj)`, `(i + di, j)`, `(i + di, j + dj)`. -/
def bilinearValue (image : Image T) (y x : Int) (z : Nat) : T :=
  let i := y / 2
  let j := x / 2
  let di : Int := if y % 2 = 0 then -1 else 1
  let dj : Int := if x % 2 = 0 then -1 else 1
  PixelDiv.pdiv
    (9 * image.clamped i j z + 3 * image.clamped i (j + dj) z +
      3 * image.clamped (i + di) j z + 1 * image.clamped (i + di) (j + dj) z)
    16

end Reference

/-- The conclusion shared by the blocks of a row: the block ran from `lo` to
`hi`, started with `res_ptr` at column `k0` and wrote `val`. -/
def BlockPost {T : Type} (val : Int → Nat → T) (sx lo hi k0 : Int) (s0 s1 : RowState T) :
    Prop :=
  s1.res_ptr.r = s0.res_ptr.r ∧ s1.result.rows = s0.result.rows ∧
  s1.result.cols = s0.result.cols ∧
  (hi ≤ lo → s1.res_ptr.c = k0) ∧
  (lo < hi → hi ≤ s1.res_ptr.c * sx ∧ (s1.res_ptr.c - 1) * sx < hi ∧ k0 ≤ s1.res_ptr.c) ∧
  ∀ r c z, s1.result.px r c z =
    if r = s0.res_ptr.r ∧ lo ≤ c * sx ∧ c * sx < hi then val (c * sx) z
    else s0.result.px r c z


section Effects

variable {T : Type} [CommRing T] [PixelDiv T] [DecidableEq T]

/-- The effect on the result of one sample of a group loop: the pixel at
`(r, c)` receives `v`, unless the loop is the masked one and the alpha channel
of the pixel is not `0`. -/
def sampleEffect (masked : Bool) (NUM_CHANNELS : Nat) (res : Image T) (r c : Int)
    (v : Nat → T) : Image T :=
  if masked = true ∧ res.px r c (NUM_CHANNELS - 1) ≠ 0 then res else res.set r c v

/-- The effect on the result of one call of the bilinear group loop at the
row `y` and the even column `x`: one sample, or two consecutive ones. -/
def twoEffect (masked : Bool) (NUM_CHANNELS : Nat) (image res : Image T) (y x : Int)
    (output_two_samples : Bool) : Image T :=
  if output_two_samples then
    sampleEffect masked NUM_CHANNELS
      (sampleEffect masked NUM_CHANNELS res y x (bilinearValue image y x)) y (x + 1)
      (bilinearValue image y (x + 1))
  else sampleEffect masked NUM_CHANNELS res y x (bilinearValue image y x)

end Effects
/-! ## Sample inputs -/

/-- A 3 x 5 image with one `int` channel. -/
def sampleImage : Image Int :=
  { rows := 3, cols := 5, px := fun r c z => r * 100 + c * 10 + (z : Int) }

/-- Fresh memory holding zeros. -/
def zeroMemory {T : Type} [Zero T] : Int → Int → Nat → T :=
  fun _ _ _ => 0

/-- A 1 x 2 image with one `int` channel. -/
def narrowImage : Image Int :=
  { rows := 1, cols := 2, px := fun _ c _ => 16 * c }

/-- A 1 x 5 result, more than twice as wide as `narrowImage`, whose pixels all
have alpha `0` (its one channel is the alpha channel). -/
def wideResult : Image Int :=
  { rows := 1, cols := 5, px := fun _ _ _ => 0 }

/-- A 2 x 4 result with two channels whose alpha channel (the last one) is `0`
in the columns 1 and 2 and `1` elsewhere. -/
def maskedResult : Image Int :=
  { rows := 2, cols := 4
    px := fun r c z => if z = 1 then (if c = 1 ∨ c = 2 then 0 else 1) else r + c }

/-- Fresh memory holding zeros, for every level of a pyramid. -/
def zeroPyramidMemory {T : Type} [Zero T] : Nat → Int → Int → Nat → T :=
  fun _ _ _ _ => 0

/-- A 1 x 1 image with two channels: the value 5 and the alpha 1. -/
def singlePixel : Image Int :=
  { rows := 1, cols := 1, px := fun _ _ z => if z = 0 then 5 else 1 }

/-- A 1 x 2 mask that marks no pixel. -/
def flatMask : Image ℚ :=
  { rows := 1, cols := 2, px := fun _ _ _ => 0 }

/-- A 1 x 2 image of `double` with one channel: the values 0 and 5. -/
def zeroFiveImage : Image ℚ :=
  { rows := 1, cols := 2, px := fun _ c _ => if c = 0 then 0 else 5 }

/-- A 1 x 2 mask that marks both pixels to be filled. -/
def fullMask : Image ℚ :=
  { rows := 1, cols := 2, px := fun _ _ _ => -1 }

/-- A 1 x 2 mask that marks the pixel `(0, 1)` to be filled. -/
def rightMask : Image ℚ :=
  { rows := 1, cols := 2, px := fun _ c _ => if c = 1 then -1 else 0 }

/-- A 1 x 2 image of `double` with one channel whose only known value (at the
unmasked pixel `(0, 0)`) is -1. -/
def minusOneImage : Image ℚ :=
  { rows := 1, cols := 2, px := fun _ c _ => if c = 0 then -1 else 0 }

/-- A 1 x 3 image with one `int` channel. -/
def threeWide : Image Int :=
  { rows := 1, cols := 3, px := fun _ c _ => 16 * c + 16 }

/-- A 4 x 4 image with one `int` channel that is 2550 at `(2, 2)` and 0
elsewhere. -/
def impulseImage : Image Int :=
  { rows := 4, cols := 4, px := fun r c _ => if r = 2 ∧ c = 2 then 2550 else 0 }

/-- The row `(1, 4, 6, 4, 1)` of Pascal's triangle. -/
def pascalRow : List Int :=
  [1, 4, 6, 4, 1]

/-- A 3 x 5 result with one `int` channel holding zeros. -/
def oddResult : Image Int :=
  { rows := 3, cols := 5, px := fun _ _ _ => 0 }

end ImageDiffuse

/-! # Calibration (`src/include/Calibrate.h`) -/

namespace Calibration

/-- The type `cv::Size`, constructed as `cv::Size(width, height)`: `width` is
the number of columns and `height` the number of rows. -/
structure Size where
  width : Int
  height : Int
  deriving DecidableEq

/-- The struct `CalibrateOptions`; a `double` is a rational. -/
structure CalibrateOptions where
  camera_params_file : String
  chessboard_size : Size
  output_size : Size
  car_x : ℚ
  car_y : ℚ
  left_right_to_front_distance : ℚ
  viewrange : ℚ

/-- The constructor `CalibrateOptions::CalibrateOptions()`. -/
def CalibrateOptions.new : CalibrateOptions :=
  { camera_params_file := "../config/glsl.yml"
    chessboard_size := Size.mk 6 4
    output_size := Size.mk 600 600
    car_x := 2193 / 1000
    car_y := 5117 / 1000
    left_right_to_front_distance := 3 / 2
    viewrange := 20 }

/-- The private state of the class `Calibrate`; `Mat` stands for `cv::Mat` and
`cv::Mat_<double>`, which the setters do not look into. -/
structure Calibrate (Mat : Type) where
  options_ : CalibrateOptions
  camera_size_ : Size
  homography_matrixs_ : List Mat
  k_ : List Mat
  dist_coeffs_ : List Mat
  mapx_ : List Mat
  mapy_ : List Mat
  new_k_ : List Mat
  multi_camera_parameters_ : Int
  undistort_images_ : List Mat
  rotation_vectors_ : List Mat
  translation_vectors_ : List Mat
  inputs_ : List Mat

section Setters

variable {Mat : Type}

/-- The member `setCameraSize`. -/
def Calibrate.setCameraSize (self : Calibrate Mat) (camera_size : Size) : Calibrate Mat :=
  { self with camera_size_ := camera_size }

/-- The member `setRemapX`. -/
def Calibrate.setRemapX (self : Calibrate Mat) (x : List Mat) : Calibrate Mat :=
  { self with mapx_ := x }

/-- The member `setRemapY`. -/
def Calibrate.setRemapY (self : Calibrate Mat) (y : List Mat) : Calibrate Mat :=
  { self with mapy_ := y }

/-- The member `setHomography`. -/
def Calibrate.setHomography (self : Calibrate Mat) (h : List Mat) : Calibrate Mat :=
  { self with homography_matrixs_ := h }

/-- The member `setR`. -/
def Calibrate.setR (self : Calibrate Mat) (r : List Mat) : Calibrate Mat :=
  { self with rotation_vectors_ := r }

/-- The member `setT`. -/
def Calibrate.setT (self : Calibrate Mat) (t : List Mat) : Calibrate Mat :=
  { self with translation_vectors_ := t }

/-- All per-camera vectors (homographies, rotation vectors, translation
vectors, remap tables, intrinsics) have the length `n`, one entry per camera
position. -/
def Calibrate.perCamera (self : Calibrate Mat) (n : Nat) : Prop :=
  self.homography_matrixs_.length = n ∧ self.rotation_vectors_.length = n ∧
  self.translation_vectors_.length = n ∧ self.mapx_.length = n ∧
  self.mapy_.length = n ∧ self.k_.length = n ∧ self.dist_coeffs_.length = n

instance Calibrate.instDecidablePerCamera (self : Calibrate Mat) (n : Nat) :
    Decidable (self.perCamera n) := by
  unfold Calibrate.perCamera; infer_instance

/-- The per-camera vectors of the object, in the order homographies, rotation
vectors, translation vectors, remap tables `mapx_` and `mapy_`, calibration
matrices, distortion coefficients. -/
def Calibrate.perCameraVectors (self : Calibrate Mat) : List (List Mat) :=
  [self.homography_matrixs_, self.rotation_vectors_, self.translation_vectors_, self.mapx_,
    self.mapy_, self.k_, self.dist_coeffs_]

end Setters

/-- A calibrated rig of four cameras with 1280 x 720 frames; a matrix is
named by a number (`10 + i` the homography, `20 + i` the intrinsics, `40 + i`
and `50 + i` the remap tables of camera `i`, computed for that size). -/
def calibratedRig : Calibrate Nat :=
  { options_ := CalibrateOptions.new
    camera_size_ := Size.mk 1280 720
    homography_matrixs_ := [10, 11, 12, 13]
    k_ := [20, 21, 22, 23]
    dist_coeffs_ := [30, 31, 32, 33]
    mapx_ := [40, 41, 42, 43]
    mapy_ := [50, 51, 52, 53]
    new_k_ := [60, 61, 62, 63]
    multi_camera_parameters_ := 0
    undistort_images_ := []
    rotation_vectors_ := [70, 71, 72, 73]
    translation_vectors_ := [80, 81, 82, 83]
    inputs_ := [] }

/-! ## Backprojection of the fisheye model

The header declares `backprojectSymmetric`; its definition is in a source file
that is not part of `src/`. -/

/-- The failures of the error taxonomy of the specification. -/
inductive Failure where
  | DetectionFailure
  | GeometryFailure
  | SolverNonConvergence
  | ConfigError
  | RuntimeMismatch
  deriving DecidableEq

/-- Modelled from the spec: the iterative solve of `backprojectSymmetric`
(declared in Calibrate.h and Image2Ground.h, defined in sources that are
missing). A bisection search over the distortion polynomial `distortion` for
the angle `theta` whose distorted radius is the observed `radius`, between
`lo` and `hi`: an iterate is returned when its radius is within `tolerance` of
the observed one, and after `iterations` iterates without convergence the
search signals `GeometryFailure`. -/
def bisectTheta (distortion : ℚ → ℚ) (tolerance radius : ℚ) :
    Nat → ℚ → ℚ → Except Failure ℚ
  | 0, _, _ => Except.error Failure.GeometryFailure
  | iterations + 1, lo, hi =>
    let theta := (lo + hi) / 2
    if |distortion theta - radius| ≤ tolerance then Except.ok theta
    else if distortion theta < radius then
      bisectTheta distortion tolerance radius iterations theta hi
    else bisectTheta distortion tolerance radius iterations lo theta

/-- Modelled from the spec: `backprojectSymmetric` (declared in Calibrate.h
and Image2Ground.h, defined in sources that are missing). For the pixel `p_u`
it solves for the two spherical angles: `theta` by the bounded bisection
search on the observed radius `norm p_u`, `phi` as the direction `atan2 p_u` of
the pixel; a search that does not converge signals `GeometryFailure` for the
point. The functions `norm` and `atan2` are those of the real numbers. -/
def backprojectSymmetric (distortion : ℚ → ℚ) (norm atan2 : ℚ × ℚ → ℚ)
    (tolerance : ℚ) (max_iterations : Nat) (theta_max : ℚ) (p_u : ℚ × ℚ) :
    Except Failure (ℚ × ℚ) :=
  match bisectTheta distortion tolerance (norm p_u) max_iterations 0 theta_max with
  | Except.ok theta => Except.ok (theta, atan2 p_u)
  | Except.error e => Except.error e

/-! ## Estimation of the homography

The header declares `generateHomography`; its definition is in a source file
that is not part of `src/`. The enumeration `CAMERA_POS` is not declared in
`src/` either: a camera position is the index of the camera. -/

/-- The type `cv::Point2f`; a `float` is a rational. -/
structure Point2f where
  x : ℚ
  y : ℚ
  deriving DecidableEq

/-- The type `cv::Point3f`. -/
structure Point3f where
  x : ℚ
  y : ℚ
  z : ℚ
  deriving DecidableEq

/-- Twice the signed area of the triangle `p`, `q`, `r`: it is `0` when the
three points are on one line. -/
def cross (p q r : Point2f) : ℚ :=
  (q.x - p.x) * (r.y - p.y) - (q.y - p.y) * (r.x - p.x)

/-- Modelled from the spec: the test of `generateHomography` (declared in
Calibrate.h, defined in sources that are missing) for a degenerate
configuration of collinear points: every three of the points are on one
line. -/
def collinearPoints (points : List Point2f) : Bool :=
  points.all (fun p => points.all (fun q => points.all (fun r => decide (cross p q r = 0))))

/-- What a call of `generateHomography` leaves behind: whether it succeeded
(the `bool` it returns, with the kind of the failure), the object, and the
matrix behind the reference `H`. -/
structure HomographyResult (Mat : Type) where
  status : Except Failure Unit
  self : Calibrate Mat
  H : Mat

/-- Modelled from the spec: `Calibrate::generateHomography` (declared in
Calibrate.h, defined in sources that are missing), without the two images it
draws on. Fewer than 4 correspondences and collinear points are degenerate
configurations, a `GeometryFailure`; otherwise the homogeneous linear system
is solved by the direct linear transform `solve`, whose singular case is a
`GeometryFailure` too, and the homography it gives is returned through `H`
and kept as the homography of the camera `pos`. A failure leaves the object
and `H` as they were. -/
def Calibrate.generateHomography {Mat : Type} (solve : List Point2f → List Point2f → Option Mat)
    (self : Calibrate Mat) (image_points projected_points : List Point2f) (pos : Nat)
    (H : Mat) : HomographyResult Mat :=
  if image_points.length < 4 then
    { status := Except.error Failure.GeometryFailure, self := self, H := H }
  else if collinearPoints image_points then
    { status := Except.error Failure.GeometryFailure, self := self, H := H }
  else
    match solve image_points projected_points with
    | none => { status := Except.error Failure.GeometryFailure, self := self, H := H }
    | some homography =>
      { status := Except.ok ()
        self := { self with homography_matrixs_ := self.homography_matrixs_.set pos homography }
        H := homography }

/-! ## The residuals of the optimizer (`src/include/HomographyCost.h`)

The header declares the classes and their members; the definitions of
`Create` and `operator()` are in a source file that is not part of `src/`. A
parameter block `const double*` is a function from the index to the value, and
the two entries of `residuals` are a pair. -/

/-- The private state of the class `HomographyCost`. -/
structure HomographyCost where
  observed_x : ℚ
  observed_y : ℚ
  point_x : ℚ
  point_y : ℚ

/-- Modelled from the spec: the factory `HomographyCost::Create(x, y, px, py)`
(declared in HomographyCost.h, defined in sources that are missing): it stores
the target ground point `(x, y)` as the observation and the corner `(px, py)`
as the point. -/
def HomographyCost.Create (x y px py : ℚ) : HomographyCost :=
  { observed_x := x, observed_y := y, point_x := px, point_y := py }

/-- Modelled from the spec: `HomographyCost::operator()` (declared in
HomographyCost.h, defined in sources that are missing). The block `H` holds the
3 x 3 homography row by row; the residual is the homography applied to the
stored corner, with the perspective division, minus the stored target ground
point. Where the divisor is `0` there is no residual (the operator returns
`false`). -/
def HomographyCost.call (self : HomographyCost) (H : Nat → ℚ) : Option (ℚ × ℚ) :=
  let w := H 6 * self.point_x + H 7 * self.point_y + H 8
  if w = 0 then none
  else
    some ((H 0 * self.point_x + H 1 * self.point_y + H 2) / w - self.observed_x,
      (H 3 * self.point_x + H 4 * self.point_y + H 5) / w - self.observed_y)

/-- The private state of the class `CameraCost`. -/
structure CameraCost where
  space_point : Point3f
  image_point : Point2f
  pos : Int

/-- Modelled from the spec: the factory `CameraCost::Create(sp, ip, pos)`
(declared in HomographyCost.h, defined in sources that are missing). -/
def CameraCost.Create (sp : Point3f) (ip : Point2f) (pos : Int) : CameraCost :=
  { space_point := sp, image_point := ip, pos := pos }

/-- Modelled from the spec: `CameraCost::operator()` (declared in
HomographyCost.h, defined in sources that are missing). The residual of the full
calibration is the projection, using the intrinsics `K` and the pose `H`, of the
known object point, minus the observed pixel; `project` is the projection of
the camera at a position, which may have no value. -/
def CameraCost.call (project : (Nat → ℚ) → (Nat → ℚ) → Point3f → Int → Option Point2f)
    (self : CameraCost) (K H : Nat → ℚ) : Option (ℚ × ℚ) :=
  (project K H self.space_point self.pos).map
    (fun p => (p.x - self.image_point.x, p.y - self.image_point.y))

/-- The private state of the class `ExtrinsicCost`; `k` is a
`std::vector<cv::Mat>`. -/
structure ExtrinsicCost (Mat : Type) where
  space_point : Point3f
  image_point : Point2f
  k : List Mat
  pos : Int

/-- Modelled from the spec: the factory
`ExtrinsicCost::Create(k_matrix, sp, ip, pos)` (declared in HomographyCost.h,
defined in sources that are missing): the intrinsics are supplied here, one
matrix per camera. -/
def ExtrinsicCost.Create {Mat : Type} (k_matrix : List Mat) (sp : Point3f) (ip : Point2f)
    (pos : Int) : ExtrinsicCost Mat :=
  { space_point := sp, image_point := ip, k := k_matrix, pos := pos }

/-- Modelled from the spec: `ExtrinsicCost::operator()` (declared in
HomographyCost.h, defined in sources that are missing). The residual is defined
as that of the full calibration, with the intrinsics held fixed: they are the
matrix `k[pos]` supplied at the creation, read as a parameter block by
`intrinsics`; only the pose `H` is free. Reading `k[pos]` outside the vector
is an out-of-bounds access. -/
def ExtrinsicCost.call {Mat : Type}
    (project : (Nat → ℚ) → (Nat → ℚ) → Point3f → Int → Option Point2f)
    (intrinsics : Mat → Nat → ℚ) (self : ExtrinsicCost Mat) (H : Nat → ℚ) : Option (ℚ × ℚ) :=
  if 0 ≤ self.pos then
    (self.k[self.pos.toNat]?).bind (fun K =>
      (project (intrinsics K) H self.space_point self.pos).map
        (fun p => (p.x - self.image_point.x, p.y - self.image_point.y)))
  else none

/-! ## Reference definitions for the claims on the estimation and the residuals -/

/-- The points are collinear: there is a line `a x + b y + c = 0` on which all
of them are. -/
def collinear (points : List Point2f) : Prop :=
  ∃ a b c : ℚ, (a ≠ 0 ∨ b ≠ 0) ∧ ∀ p ∈ points, a * p.x + b * p.y + c = 0

/-- The parameter block of a 3 x 3 matrix, row by row. -/
def rowMajor (M : Matrix (Fin 3) (Fin 3) ℚ) (i : Nat) : ℚ :=
  M ⟨i / 3 % 3, Nat.mod_lt _ (by decide)⟩ ⟨i % 3, Nat.mod_lt _ (by decide)⟩

/-- The homography `M` applied to the point `(x, y)`: the product of `M` and
the homogeneous vector `(x, y, 1)`, divided by its last entry; a point that is
sent to infinity has no image. -/
def applyHomography (M : Matrix (Fin 3) (Fin 3) ℚ) (x y : ℚ) : Option (ℚ × ℚ) :=
  let v := M.mulVec ![x, y, 1]
  if v 2 = 0 then none else some (v 0 / v 2, v 1 / v 2)

/-- Three corners on one line, the degenerate corner set of scenario C. -/
def threeCollinear : List Point2f :=
  [⟨0, 0⟩, ⟨1, 1⟩, ⟨2, 2⟩]

/-- Five corners on the line `y = 2 x + 1`. -/
def fiveCollinear : List Point2f :=
  [⟨0, 1⟩, ⟨1, 3⟩, ⟨2, 5⟩, ⟨3, 7⟩, ⟨4, 9⟩]

/-- The four corners of a square, which are not collinear. -/
def squareCorners : List Point2f :=
  [⟨0, 0⟩, ⟨1, 0⟩, ⟨1, 1⟩, ⟨0, 1⟩]

/-- A direct linear transform that always finds a homography, named 99. -/
def sampleSolve (_ _ : List Point2f) : Option Nat :=
  some 99

/-- The pinhole projection without rotation: the block `K` holds
`fx, fy, cx, cy`, the block `H` a translation; a point in the plane of the
camera has no projection. -/
def pinhole (K H : Nat → ℚ) (P : Point3f) (_ : Int) : Option Point2f :=
  if P.z + H 2 = 0 then none
  else some ⟨K 0 * (P.x + H 0) / (P.z + H 2) + K 2, K 1 * (P.y + H 1) / (P.z + H 2) + K 3⟩

/-- The parameter block of the intrinsics named by a number `n`:
`fx = fy = n`, `cx = cy = 0`. -/
def sampleIntrinsics (n : Nat) (i : Nat) : ℚ :=
  if i < 2 then n else 0

end Calibration

namespace ImageDiffuse

/-! ## Loops and index arithmetic -/

theorem mem_upto (n j : Int) : j ∈ upto n ↔ 0 ≤ j ∧ j < n := by
  unfold upto
  simp only [List.mem_map, List.mem_range]
  constructor
  · rintro ⟨a, ha, rfl⟩
    refine ⟨Int.ofNat_nonneg a, ?_⟩
    simp only [Int.ofNat_eq_coe]
    omega
  · rintro ⟨h0, h1⟩
    refine ⟨j.toNat, ?_, ?_⟩
    · omega
    · simp only [Int.ofNat_eq_coe]; omega

theorem sum_upto {M : Type} [AddCommMonoid M] (n : Int) (f : Int → M) :
    ((upto n).map f).sum = ∑ j in Finset.range n.toNat, f (j : Int) := by
  unfold upto
  generalize n.toNat = m
  induction m with
  | zero => simp
  | succ k ih =>
    rw [List.range_succ, List.map_append, List.map_append, List.sum_append, ih,
      Finset.sum_range_succ]
    simp

/-- Invariant rule for `forLoop`: with enough fuel and a positive step, a body
that keeps the invariant on every iteration makes the loop end in a state that
satisfies the invariant at the first loop value that is not below `hi`. -/
theorem forLoop_spec {σ : Type} (Inv : Int → σ → Prop) (hi step : Int) (hstep : 0 < step)
    (body : Int → σ → Option σ)
    (hbody : ∀ x s, x < hi → Inv x s → ∃ s1, body x s = some s1 ∧ Inv (x + step) s1) :
    ∀ (fuel : Nat) (x : Int) (s : σ), (hi - x).toNat ≤ fuel → Inv x s →
      ∃ x1 s1, forLoop fuel x hi step s body = some s1 ∧ hi ≤ x1 ∧ Inv x1 s1 := by
  intro fuel
  induction fuel with
  | zero =>
    intro x s hf hinv
    have hx : ¬ x < hi := by omega
    exact ⟨x, s, by simp [forLoop, hx], by omega, hinv⟩
  | succ n ih =>
    intro x s hf hinv
    by_cases hx : x < hi
    · obtain ⟨s1, hb, hinv1⟩ := hbody x s hx hinv
      obtain ⟨x2, s2, hl, hx2, hinv2⟩ := ih (x + step) s1 (by omega) hinv1
      exact ⟨x2, s2, by simp [forLoop, hx, hb, hl], hx2, hinv2⟩
    · exact ⟨x, s, by simp [forLoop, hx], by omega, hinv⟩

theorem RoundUp_spec (v s : Int) (hv : 0 ≤ v) (hs : 0 < s) :
    v ≤ RoundUp v s ∧ s ∣ RoundUp v s := by
  unfold RoundUp
  have h1 : Int.tmod v s = v % s := Int.tmod_eq_emod hv hs.le
  have h2 : 0 ≤ v % s := Int.emod_nonneg v hs.ne'
  have h3 : v % s < s := Int.emod_lt_of_pos v hs
  have h4 : Int.tmod (s - v % s) s = (s - v % s) % s := Int.tmod_eq_emod (by omega) hs.le
  rw [h1, h4]
  have h5 : 0 ≤ (s - v % s) % s := Int.emod_nonneg _ hs.ne'
  refine ⟨by omega, ?_⟩
  have h6 : (v + (s - v % s) % s) % s = 0 := by
    rw [Int.add_emod, Int.emod_emod_of_dvd _ (dvd_refl s), ← Int.add_emod]
    have : v + (s - v % s) = s * (v / s) + s := by
      have := Int.ediv_add_emod v s
      omega
    rw [this]
    simp
  exact Int.dvd_of_emod_eq_zero h6

theorem RoundDown_spec (v s : Int) (hv : 0 ≤ v) (hs : 0 < s) :
    RoundDown v s ≤ v ∧ s ∣ RoundDown v s := by
  unfold RoundDown
  have h1 : Int.tmod v s = v % s := Int.tmod_eq_emod hv hs.le
  have h2 : 0 ≤ v % s := Int.emod_nonneg v hs.ne'
  rw [h1]
  refine ⟨by omega, ?_⟩
  have := Int.ediv_add_emod v s
  exact ⟨v / s, by omega⟩

theorem RoundDown_neg (v s : Int) (hv : v < 0) (hs : 0 < s) : RoundDown v s ≤ 0 := by
  unfold RoundDown
  have h1 : Int.tmod v s = v - s * Int.tdiv v s := Int.tmod_def v s
  have h2 : Int.tdiv v s ≤ 0 := by
    have h4 := Int.neg_tdiv (-v) s
    rw [Int.neg_neg] at h4
    have h5 : 0 ≤ Int.tdiv (-v) s := Int.tdiv_nonneg (by omega) hs.le
    omega
  have h3 : s * Int.tdiv v s ≤ 0 := Int.mul_nonpos_of_nonneg_of_nonpos hs.le h2
  omega

theorem clamp_eq (v hi : Int) (h : 0 ≤ hi) : min hi (max 0 v) = clamp v 0 hi := by
  unfold clamp
  split_ifs <;> omega

theorem tdiv_two (a : Int) (h : 0 ≤ a) : Int.tdiv a 2 = a / 2 :=
  Int.tdiv_eq_ediv h (by norm_num)

theorem tmod_two (a : Int) (h : 0 ≤ a) : Int.tmod a 2 = a % 2 :=
  Int.tmod_eq_emod h (by norm_num)

theorem all_upto_inside {T : Type} (image : Image T) (kw kh : Int) (fr fc : Int → Int)
    (h : ∀ j i, 0 ≤ j → j < kh → 0 ≤ i → i < kw → image.inside (fr j) (fc i)) :
    (upto kh).all (fun j => (upto kw).all (fun i =>
      decide (image.inside (fr j) (fc i)))) = true := by
  rw [List.all_eq_true]
  intro j hj
  rw [List.all_eq_true]
  intro i hi
  rw [mem_upto] at hj hi
  exact decide_eq_true (h j i hj.1 hj.2 hi.1 hi.2)

theorem Image.write_inside {T : Type} (img : Image T) (p : Ptr) (v : Nat → T) (h : img.inside p.r p.c) :
    img.write p v = some (img.set p.r p.c v) := by
  unfold Image.write
  rw [if_pos h]

/-- A block of a row that writes one pixel per iteration, `val x` at the
iteration `x`, and advances `res_ptr` by one pixel: at the end the pixels of
the row from the starting column up to the columns `c` with `c * STEP_X < hi`
hold `val (c * STEP_X)` and every other pixel is as before. -/
theorem block_spec {T σ : Type} (res : σ → Image T) (ptr : σ → Ptr) (Extra : Int → σ → Prop)
    (val : Int → Nat → T) (sx lo hi k0 : Int) (hsx : 0 < sx) (body : Int → σ → Option σ)
    (s0 : σ) (hlo : lo = k0 * sx) (hk0 : 0 ≤ k0) (hptr : (ptr s0).c = k0)
    (hrow : 0 ≤ (ptr s0).r ∧ (ptr s0).r < (res s0).rows)
    (hwrite : ∀ k, k * sx < hi → k < (res s0).cols)
    (hextra : Extra lo s0)
    (hbody : ∀ x s img, lo ≤ x → x < hi → Extra x s →
      (res s).write (ptr s) (val x) = some img →
      ∃ s1, body x s = some s1 ∧ res s1 = img ∧
        ptr s1 = ⟨(ptr s).r, (ptr s).c + 1⟩ ∧ Extra (x + sx) s1) :
    ∃ s1, forLoop (hi - lo).toNat lo hi sx s0 body = some s1 ∧
      (ptr s1).r = (ptr s0).r ∧ k0 ≤ (ptr s1).c ∧ hi ≤ (ptr s1).c * sx ∧
      ((ptr s1).c = k0 ∨ ((ptr s1).c - 1) * sx < hi) ∧
      (res s1).rows = (res s0).rows ∧ (res s1).cols = (res s0).cols ∧
      Extra ((ptr s1).c * sx) s1 ∧
      ∀ r c z, (res s1).px r c z =
        if r = (ptr s0).r ∧ k0 ≤ c ∧ c * sx < hi then val (c * sx) z
        else (res s0).px r c z := by
  have key := forLoop_spec
    (fun x s => ∃ k, x = k * sx ∧ ptr s = ⟨(ptr s0).r, k⟩ ∧ k0 ≤ k ∧
      (k = k0 ∨ (k - 1) * sx < hi) ∧ (res s).rows = (res s0).rows ∧
      (res s).cols = (res s0).cols ∧ Extra x s ∧
      ∀ r c z, (res s).px r c z =
        if r = (ptr s0).r ∧ k0 ≤ c ∧ c < k then val (c * sx) z else (res s0).px r c z)
    hi sx hsx body ?_ (hi - lo).toNat lo s0 (le_refl _) ?_
  · obtain ⟨x1, s1, hrun, hx1, k, hxk, hp, hk, hprev, hrows, hcols, hex, hpx⟩ := key
    have hpc1 : (ptr s1).c = k := by rw [hp]
    refine ⟨s1, hrun, by rw [hp], by rw [hpc1]; exact hk, by rw [hpc1]; omega, ?_, hrows, hcols,
      ?_, ?_⟩
    · rw [hpc1]; exact hprev
    · rw [hpc1, ← hxk]; exact hex
    · intro r c z
      rw [hpx r c z]
      have hiff : (r = (ptr s0).r ∧ k0 ≤ c ∧ c < k) ↔
          (r = (ptr s0).r ∧ k0 ≤ c ∧ c * sx < hi) := by
        constructor
        · rintro ⟨h1, h2, h3⟩
          refine ⟨h1, h2, ?_⟩
          rcases hprev with h | h
          · omega
          · have : c * sx ≤ (k - 1) * sx :=
              Int.mul_le_mul_of_nonneg_right (by omega) hsx.le
            omega
        · rintro ⟨h1, h2, h3⟩
          refine ⟨h1, h2, ?_⟩
          have : c * sx < k * sx := by omega
          exact lt_of_mul_lt_mul_right this hsx.le
      by_cases hc : r = (ptr s0).r ∧ k0 ≤ c ∧ c < k
      · rw [if_pos hc, if_pos (hiff.mp hc)]
      · rw [if_neg hc, if_neg (fun h => hc (hiff.mpr h))]
  · rintro x s hx ⟨k, hxk, hp, hk, hprev, hrows, hcols, hex, hpx⟩
    have hpr : (ptr s).r = (ptr s0).r := by rw [hp]
    have hpc : (ptr s).c = k := by rw [hp]
    have hins : (res s).inside (ptr s).r (ptr s).c := by
      unfold Image.inside
      rw [hpr, hpc, hrows, hcols]
      have := hwrite k (by omega)
      omega
    have hlox : lo ≤ x := by
      have : k0 * sx ≤ k * sx := Int.mul_le_mul_of_nonneg_right hk hsx.le
      omega
    obtain ⟨s1, hb, hres, hptr1, hex1⟩ :=
      hbody x s _ hlox hx hex (Image.write_inside (res s) (ptr s) (val x) hins)
    refine ⟨s1, hb, k + 1, by rw [hxk]; ring, by rw [hptr1, hpr, hpc], by omega,
      Or.inr (by simpa using (by omega : k * sx < hi)), ?_, ?_, hex1, ?_⟩
    · rw [hres]; exact hrows
    · rw [hres]; exact hcols
    · intro r c z
      rw [hres]
      unfold Image.set
      simp only
      rw [hpr, hpc]
      by_cases hc : r = (ptr s0).r ∧ c = k
      · rw [if_pos hc, if_pos ⟨hc.1, by omega, by omega⟩, hc.2, ← hxk]
      · rw [if_neg hc, hpx r c z]
        by_cases hc2 : r = (ptr s0).r ∧ k0 ≤ c ∧ c < k
        · rw [if_pos hc2, if_pos ⟨hc2.1, hc2.2.1, by omega⟩]
        · rw [if_neg hc2, if_neg]
          rintro ⟨h1, h2, h3⟩
          have : c ≠ k := fun h => hc ⟨h1, h⟩
          exact hc2 ⟨h1, h2, by omega⟩
  · exact ⟨k0, hlo, by rw [← hptr], le_refl _, Or.inl rfl, rfl, rfl, hextra, by
      intro r c z
      rw [if_neg]
      rintro ⟨_, h2, h3⟩
      omega⟩

/-! ## `ConvolveNoAlloc` -/

section ConvolveLemmas

variable {T : Type} [CommRing T] [PixelDiv T]

/-- A boundary-block pixel: the patch clamped to the edge followed by the inner
loop writes the clamp-to-edge convolution. -/
theorem patch_Call (K : Kernel T) (image result : Image T) (x y : Int) (ptr : Ptr)
    (hr : 0 < image.rows) (hc : 0 < image.cols) (hkw : 0 < K.kWidth) (hkh : 0 < K.kHeight) :
    (GetPatchClampedToEdge K.kWidth K.kHeight image x y).bind
      (fun temp_patch => InnerLoop.Call K temp_patch patch_rows result ptr) =
    result.write ptr (clampedConvolution K image y x) := by
  unfold GetPatchClampedToEdge
  simp only
  rw [if_pos (all_upto_inside image K.kWidth K.kHeight _ _ (by
    intro j i _ _ _ _
    unfold Image.inside
    omega))]
  simp only [Option.some_bind]
  unfold InnerLoop.Call
  have hin : InnerLoop.readsInside K
      ({ rows := K.kHeight, cols := K.kWidth
         px := fun j i =>
          image.px (min (image.rows - 1) (max 0 (y - Int.tdiv (K.kHeight - 1) 2 + j)))
            (min (image.cols - 1) (max 0 (x - Int.tdiv (K.kWidth - 1) 2 + i))) } : Image T)
      patch_rows = true := by
    unfold InnerLoop.readsInside
    apply all_upto_inside _ K.kWidth K.kHeight (fun j => (patch_rows j).r) (fun i => 0 + i)
    intro j i h1 h2 h3 h4
    unfold Image.inside patch_rows
    simp only
    omega
  rw [if_pos hin]
  congr 1
  funext z
  unfold InnerLoop.value clampedConvolution Image.clamped
  congr 1
  rw [sum_upto]
  apply Finset.sum_congr rfl
  intro j _
  rw [sum_upto]
  apply Finset.sum_congr rfl
  intro i _
  simp only [patch_rows, zero_add]
  rw [clamp_eq _ _ (by omega), clamp_eq _ _ (by omega), tdiv_two _ (by omega),
    tdiv_two _ (by omega)]

/-- A middle-block pixel: when the window around `x` lies between the left and
right edges of the image, the inner loop reading through row pointers into the
image writes the clamp-to-edge convolution. -/
theorem rows_Call (K : Kernel T) (image result : Image T) (x y : Int) (ptr : Ptr)
    (rows : Int → Ptr)
    (hr : 0 < image.rows) (hkw : 0 < K.kWidth) (hkh : 0 < K.kHeight)
    (hrows : ∀ j, rows j =
      ⟨min (image.rows - 1) (max 0 (y - Int.tdiv (K.kHeight - 1) 2 + j)),
        x - Int.tdiv (K.kWidth - 1) 2⟩)
    (hlo : Int.tdiv K.kWidth 2 ≤ x) (hhi : x + Int.tdiv K.kWidth 2 < image.cols) :
    InnerLoop.Call K image rows result ptr =
      result.write ptr (clampedConvolution K image y x) := by
  have hfun : rows = fun j => (⟨min (image.rows - 1)
      (max 0 (y - Int.tdiv (K.kHeight - 1) 2 + j)), x - Int.tdiv (K.kWidth - 1) 2⟩ : Ptr) :=
    funext hrows
  subst hfun
  rw [tdiv_two _ (by omega)] at hlo hhi
  unfold InnerLoop.Call
  have hin : InnerLoop.readsInside K image (fun j => (⟨min (image.rows - 1)
      (max 0 (y - Int.tdiv (K.kHeight - 1) 2 + j)), x - Int.tdiv (K.kWidth - 1) 2⟩ : Ptr))
      = true := by
    unfold InnerLoop.readsInside
    apply all_upto_inside image K.kWidth K.kHeight
      (fun j => min (image.rows - 1) (max 0 (y - Int.tdiv (K.kHeight - 1) 2 + j)))
      (fun i => x - Int.tdiv (K.kWidth - 1) 2 + i)
    intro j i h1 h2 h3 h4
    rw [tdiv_two _ (by omega), tdiv_two _ (by omega)]
    unfold Image.inside
    omega
  rw [if_pos hin]
  congr 1
  funext z
  unfold InnerLoop.value clampedConvolution Image.clamped
  congr 1
  rw [sum_upto]
  apply Finset.sum_congr rfl
  intro j _
  rw [sum_upto]
  apply Finset.sum_congr rfl
  intro i hi
  rw [Finset.mem_range] at hi
  simp only
  rw [clamp_eq _ _ (by omega), tdiv_two _ (by omega), tdiv_two _ (by omega)]
  congr 2
  unfold clamp
  split_ifs <;> omega

theorem forLoop_empty {σ : Type} (fuel : Nat) (x hi step : Int) (s : σ)
    (body : Int → σ → Option σ) (h : hi ≤ x) : forLoop fuel x hi step s body = some s := by
  have hx : ¬ x < hi := by omega
  cases fuel <;> simp [forLoop, hx]

/-- A loop that starts on a multiple of the step and stops at the first value
not below a bound that is itself a multiple of the step stops on the bound. -/
theorem landing (sx hi k0 c1 : Int) (hsx : 0 < sx) (hdvd : sx ∣ hi) (h1 : hi ≤ c1 * sx)
    (h2 : c1 = k0 ∨ (c1 - 1) * sx < hi) (h3 : k0 * sx ≤ hi) : c1 * sx = hi := by
  obtain ⟨m, rfl⟩ := hdvd
  rcases h2 with h | h
  · subst h; omega
  · have ha : c1 - 1 < m := by
      have : (c1 - 1) * sx < m * sx := by rw [mul_comm m sx]; exact h
      exact lt_of_mul_lt_mul_right this hsx.le
    have hb : m ≤ c1 := by
      have : m * sx ≤ c1 * sx := by rw [mul_comm m sx]; exact h1
      exact le_of_mul_le_mul_right this hsx
    have : m = c1 := by omega
    subst this
    exact mul_comm _ _

omit [CommRing T] [PixelDiv T] in
theorem BlockPost_of_block {σ : Type} (res : σ → Image T) (ptr : σ → Ptr)
    (val : Int → Nat → T) (sx lo hi k0 : Int) (hsx : 0 < sx) (s0 s1 : σ)
    (hlo : lo = k0 * sx) (hlt : lo < hi)
    (h : (ptr s1).r = (ptr s0).r ∧ k0 ≤ (ptr s1).c ∧ hi ≤ (ptr s1).c * sx ∧
      ((ptr s1).c = k0 ∨ ((ptr s1).c - 1) * sx < hi) ∧
      (res s1).rows = (res s0).rows ∧ (res s1).cols = (res s0).cols ∧
      ∀ r c z, (res s1).px r c z =
        if r = (ptr s0).r ∧ k0 ≤ c ∧ c * sx < hi then val (c * sx) z
        else (res s0).px r c z) :
    BlockPost val sx lo hi k0 ⟨res s0, ptr s0⟩ ⟨res s1, ptr s1⟩ := by
  obtain ⟨h1, h2, h3, h4, h5, h6, h7⟩ := h
  refine ⟨h1, h5, h6, fun hle => by omega, fun _ => ⟨h3, ?_, h2⟩, ?_⟩
  · rcases h4 with h | h
    · simp only at h3 ⊢
      rw [h] at h3
      omega
    · exact h
  · intro r c z
    rw [h7 r c z]
    have hiff : k0 ≤ c ↔ lo ≤ c * sx := by
      rw [hlo]
      exact (mul_le_mul_right hsx).symm
    simp only [hiff]

omit [CommRing T] [PixelDiv T] in
theorem BlockPost_refl (val : Int → Nat → T) (sx lo hi k0 : Int) (s0 : RowState T)
    (hle : hi ≤ lo) (hk : s0.res_ptr.c = k0) : BlockPost val sx lo hi k0 s0 s0 := by
  refine ⟨rfl, rfl, rfl, fun _ => hk, fun h => by omega, ?_⟩
  intro r c z
  rw [if_neg]
  rintro ⟨_, h2, h3⟩
  omega

theorem Convolve_edgeBlock_spec (K : Kernel T) (sx : Int) (image : Image T)
    (y lo hi k0 : Int) (s0 : RowState T) (hsx : 0 < sx)
    (hr : 0 < image.rows) (hc : 0 < image.cols) (hkw : 0 < K.kWidth) (hkh : 0 < K.kHeight)
    (hlo : lo < hi → lo = k0 * sx) (hk0 : 0 ≤ k0) (hptr : s0.res_ptr.c = k0)
    (hrow : 0 ≤ s0.res_ptr.r ∧ s0.res_ptr.r < s0.result.rows)
    (hwrite : ∀ k, k * sx < hi → k < s0.result.cols) :
    ∃ s1, ConvolveNoAlloc.edgeBlock K sx image y lo hi s0 = some s1 ∧
      BlockPost (fun x => clampedConvolution K image y x) sx lo hi k0 s0 s1 := by
  unfold ConvolveNoAlloc.edgeBlock
  by_cases hlt : lo < hi
  · obtain ⟨s1, hrun, h1, h2, h3, h4, h5, h6, _, h7⟩ :=
      block_spec RowState.result RowState.res_ptr (fun _ _ => True)
        (fun x => clampedConvolution K image y x) sx lo hi k0 hsx
        (fun x s =>
          (GetPatchClampedToEdge K.kWidth K.kHeight image x y).bind (fun temp_patch =>
          (InnerLoop.Call K temp_patch patch_rows s.result s.res_ptr).bind (fun result =>
          some { result := result, res_ptr := ⟨s.res_ptr.r, s.res_ptr.c + 1⟩ })))
        s0 (hlo hlt) hk0 hptr hrow hwrite trivial (by
          intro x s img _ _ _ hw
          have h := patch_Call K image s.result x y s.res_ptr hr hc hkw hkh
          rw [hw] at h
          cases hA : GetPatchClampedToEdge K.kWidth K.kHeight image x y with
          | none => rw [hA] at h; simp at h
          | some tp =>
            rw [hA] at h
            simp only [Option.some_bind] at h
            simp only [hA, Option.some_bind, h]
            exact ⟨_, rfl, rfl, rfl, trivial⟩)
    exact ⟨s1, hrun, BlockPost_of_block RowState.result RowState.res_ptr _ sx lo hi k0 hsx s0 s1
      (hlo hlt) hlt ⟨h1, h2, h3, h4, h5, h6, h7⟩⟩
  · exact ⟨s0, forLoop_empty _ _ _ _ _ _ (by omega), BlockPost_refl _ sx lo hi k0 s0 (by omega) hptr⟩

theorem Convolve_middleBlock_spec (K : Kernel T) (sx : Int) (image : Image T)
    (y lo hi k0 : Int) (s0 : RowState T) (hsx : 0 < sx)
    (hr : 0 < image.rows) (hkw : 0 < K.kWidth) (hkh : 0 < K.kHeight)
    (hlo : lo < hi → lo = k0 * sx) (hk0 : 0 ≤ k0) (hptr : s0.res_ptr.c = k0)
    (hrow : 0 ≤ s0.res_ptr.r ∧ s0.res_ptr.r < s0.result.rows)
    (hwrite : ∀ k, k * sx < hi → k < s0.result.cols)
    (hwin : lo < hi → Int.tdiv K.kWidth 2 ≤ lo ∧ hi + Int.tdiv K.kWidth 2 ≤ image.cols) :
    ∃ s1, ConvolveNoAlloc.middleBlock K sx image y lo hi s0 = some s1 ∧
      BlockPost (fun x => clampedConvolution K image y x) sx lo hi k0 s0 s1 := by
  unfold ConvolveNoAlloc.middleBlock
  by_cases hlt : lo < hi
  · rw [if_pos hlt]
    obtain ⟨s1, hrun, h1, h2, h3, h4, h5, h6, _, h7⟩ :=
      block_spec MidState.result MidState.res_ptr
        (fun x s => ∀ j, s.rows j =
          ⟨min (image.rows - 1) (max 0 (y - Int.tdiv (K.kHeight - 1) 2 + j)),
            x - Int.tdiv (K.kWidth - 1) 2⟩)
        (fun x => clampedConvolution K image y x) sx lo hi k0 hsx
        (fun _ s =>
          (InnerLoop.Call K image s.rows s.result s.res_ptr).bind (fun result =>
          some { result := result
                 res_ptr := ⟨s.res_ptr.r, s.res_ptr.c + 1⟩
                 rows := fun i => ⟨(s.rows i).r, (s.rows i).c + sx⟩ }))
        ({ result := s0.result, res_ptr := s0.res_ptr
           rows := GetPatchRows K.kWidth K.kHeight image lo y } : MidState T)
        (hlo hlt) hk0 hptr hrow hwrite (by intro j; rfl) (by
          intro x s img hx1 hx2 hrows hw
          have h := rows_Call K image s.result x y s.res_ptr s.rows hr hkw hkh hrows
            (by have := (hwin hlt).1; omega) (by have := (hwin hlt).2; omega)
          rw [hw] at h
          simp only
          rw [h]
          refine ⟨_, rfl, rfl, rfl, ?_⟩
          intro j
          simp only
          rw [hrows j]
          simp only [Ptr.mk.injEq, true_and]
          omega)
    refine ⟨⟨s1.result, s1.res_ptr⟩, by rw [hrun]; rfl, ?_⟩
    exact BlockPost_of_block MidState.result MidState.res_ptr _ sx lo hi k0 hsx _ s1
      (hlo hlt) hlt ⟨h1, h2, h3, h4, h5, h6, h7⟩
  · rw [if_neg hlt]
    exact ⟨s0, rfl, BlockPost_refl _ sx lo hi k0 s0 (by omega) hptr⟩

/-- One row of `ConvolveNoAlloc`: the left, middle and right blocks together
write the clamp-to-edge convolution at the columns `c` with `c * STEP_X < width`
of the row `r0` and touch nothing else. -/
theorem Convolve_row_spec (K : Kernel T) (sx : Int) (image res : Image T)
    (y r0 width left right : Int) (hsx : 0 < sx)
    (hr : 0 < image.rows) (hc : 0 < image.cols) (hkw : 0 < K.kWidth) (hkh : 0 < K.kHeight)
    (hr0 : 0 ≤ r0 ∧ r0 < res.rows) (hcols : 0 ≤ res.cols)
    (hw : width = min (sx * res.cols) image.cols)
    (hl : left = min width (RoundUp (Int.tdiv K.kWidth 2) sx))
    (hrt : right = max left (RoundDown (width - Int.tdiv K.kWidth 2) sx)) :
    ∃ out,
      ((ConvolveNoAlloc.edgeBlock K sx image y 0 left
        { result := res, res_ptr := ⟨r0, 0⟩ }).bind (fun s1 =>
      (ConvolveNoAlloc.middleBlock K sx image y left right s1).bind (fun s2 =>
      (ConvolveNoAlloc.edgeBlock K sx image y right width s2).map
        (fun s3 => s3.result)))) = some out ∧
      out.rows = res.rows ∧ out.cols = res.cols ∧
      ∀ r c z, out.px r c z =
        if r = r0 ∧ 0 ≤ c ∧ c * sx < width then clampedConvolution K image y (c * sx) z
        else res.px r c z := by
  have hb : 0 ≤ Int.tdiv K.kWidth 2 := Int.tdiv_nonneg hkw.le (by norm_num)
  obtain ⟨hru1, hru2⟩ := RoundUp_spec (Int.tdiv K.kWidth 2) sx hb hsx
  have hwidth0 : 0 ≤ width := by
    have : 0 ≤ sx * res.cols := Int.mul_nonneg hsx.le hcols
    omega
  have hleft0 : 0 ≤ left := by omega
  have hleftw : left ≤ width := by omega
  have hrd : RoundDown (width - Int.tdiv K.kWidth 2) sx ≤ width - Int.tdiv K.kWidth 2 ∨
      RoundDown (width - Int.tdiv K.kWidth 2) sx ≤ 0 := by
    by_cases hneg : width - Int.tdiv K.kWidth 2 < 0
    · exact Or.inr (RoundDown_neg _ sx hneg hsx)
    · exact Or.inl (RoundDown_spec _ sx (by omega) hsx).1
  have hrightw : right ≤ width := by omega
  have hwr : ∀ hi, hi ≤ width → ∀ k, k * sx < hi → k < res.cols := by
    intro hi hhi k hk
    have : k * sx < res.cols * sx := by
      have : sx * res.cols = res.cols * sx := mul_comm _ _
      omega
    exact lt_of_mul_lt_mul_right this hsx.le
  have hleftRU : left < width → sx ∣ left := by
    intro h
    have : left = RoundUp (Int.tdiv K.kWidth 2) sx := by omega
    rw [this]; exact hru2
  have hmid : left < right →
      right = RoundDown (width - Int.tdiv K.kWidth 2) sx ∧ 0 ≤ width - Int.tdiv K.kWidth 2 := by
    intro h
    refine ⟨by omega, ?_⟩
    by_contra hneg
    have := RoundDown_neg _ sx (by omega : width - Int.tdiv K.kWidth 2 < 0) hsx
    omega
  have hwin : left < right →
      Int.tdiv K.kWidth 2 ≤ left ∧ right + Int.tdiv K.kWidth 2 ≤ image.cols := by
    intro h
    obtain ⟨h1, h2⟩ := hmid h
    have := (RoundDown_spec _ sx h2 hsx).1
    refine ⟨by omega, by omega⟩
  have hlr : left ≤ right := by omega
  clear hw hl hrt hrd
  -- left block
  obtain ⟨s1, hrun1, p1r, p1rows, p1cols, p1a, p1b, p1px⟩ :=
    Convolve_edgeBlock_spec K sx image y 0 left 0 ⟨res, ⟨r0, 0⟩⟩ hsx hr hc hkw hkh
      (fun _ => by simp) (le_refl 0) rfl hr0 (hwr left hleftw)
  simp only at p1r p1rows p1cols p1px
  have hc1 : 0 ≤ s1.res_ptr.c := by
    by_cases h : (0 : Int) < left
    · exact (p1b h).2.2
    · rw [p1a (by omega)]
  have hland1 : sx ∣ left → left = s1.res_ptr.c * sx := by
    intro hd
    by_cases h : (0 : Int) < left
    · obtain ⟨h1, h2, _⟩ := p1b h
      exact (landing sx left 0 s1.res_ptr.c hsx hd h1 (Or.inr h2) (by omega)).symm
    · rw [p1a (by omega)]; omega
  -- middle block
  obtain ⟨s2, hrun2, p2r, p2rows, p2cols, p2a, p2b, p2px⟩ :=
    Convolve_middleBlock_spec K sx image y left right s1.res_ptr.c s1 hsx hr hkw hkh
      (fun h => hland1 (hleftRU (by omega))) hc1 rfl
      (by rw [p1r, p1rows]; exact hr0)
      (by rw [p1cols]; exact hwr right hrightw)
      hwin
  have hc2 : 0 ≤ s2.res_ptr.c := by
    by_cases h : left < right
    · have := (p2b h).2.2; omega
    · rw [p2a (by omega)]; exact hc1
  have hland2 : right < width → right = s2.res_ptr.c * sx := by
    intro hrw
    by_cases h : left < right
    · obtain ⟨h1, h2⟩ := hmid h
      obtain ⟨h3, h4, h5⟩ := p2b h
      have hd : sx ∣ right := by rw [h1]; exact (RoundDown_spec _ sx h2 hsx).2
      have hl1 := hland1 (hleftRU (by omega))
      exact (landing sx right s1.res_ptr.c s2.res_ptr.c hsx hd h3 (Or.inr h4) (by omega)).symm
    · rw [p2a (by omega)]
      have : right = left := by omega
      rw [this]
      exact hland1 (hleftRU (by omega))
  -- right block
  obtain ⟨s3, hrun3, p3r, p3rows, p3cols, p3a, p3b, p3px⟩ :=
    Convolve_edgeBlock_spec K sx image y right width s2.res_ptr.c s2 hsx hr hc hkw hkh
      hland2 hc2 rfl
      (by rw [p2r, p2rows, p1r, p1rows]; exact hr0)
      (by rw [p2cols, p1cols]; exact hwr width (le_refl _))
  refine ⟨s3.result, ?_, by rw [p3rows, p2rows, p1rows], by rw [p3cols, p2cols, p1cols], ?_⟩
  · rw [hrun1]
    simp only [Option.some_bind]
    rw [hrun2]
    simp only [Option.some_bind]
    rw [hrun3]
    rfl
  · intro r c z
    rw [p3px r c z, p2px r c z, p1px r c z, p2r, p1r]
    have hc0 : 0 ≤ c ↔ 0 ≤ c * sx := (mul_nonneg_iff_of_pos_right hsx).symm
    by_cases hrr : r = r0
    · simp only [hrr, true_and]
      split_ifs <;> first | rfl | omega
    · simp only [hrr, false_and, if_false]

/-- The function `ConvolveNoAlloc` returns, keeps the size of the result, writes
the clamp-to-edge convolution at the pixels `(r, c)` with `r * STEP_Y < height`
and `c * STEP_X < width`, and leaves every other pixel as it was. -/
theorem ConvolveNoAlloc_spec (K : Kernel T) (sx sy : Int) (image result : Image T)
    (hsx : 0 < sx) (hsy : 0 < sy)
    (hr : 0 < image.rows) (hc : 0 < image.cols) (hkw : 0 < K.kWidth) (hkh : 0 < K.kHeight)
    (hcols : 0 ≤ result.cols) :
    ∃ out, ConvolveNoAlloc K sx sy image result = some out ∧
      out.rows = result.rows ∧ out.cols = result.cols ∧
      ∀ r c z, out.px r c z =
        if 0 ≤ r ∧ r * sy < min (sy * result.rows) image.rows ∧
            0 ≤ c ∧ c * sx < min (sx * result.cols) image.cols then
          clampedConvolution K image (r * sy) (c * sx) z
        else result.px r c z := by
  unfold ConvolveNoAlloc
  simp only []
  generalize hw : min (sx * result.cols) image.cols = width
  generalize hh : min (sy * result.rows) image.rows = height
  generalize hl : min width (RoundUp (Int.tdiv K.kWidth 2) sx) = left
  generalize hrt : max left (RoundDown (width - Int.tdiv K.kWidth 2) sx) = right
  have key := forLoop_spec
    (fun y res => ∃ k, y = k * sy ∧ 0 ≤ k ∧ (k = 0 ∨ (k - 1) * sy < height) ∧
      res.rows = result.rows ∧ res.cols = result.cols ∧
      ∀ r c z, res.px r c z =
        if 0 ≤ r ∧ r < k ∧ 0 ≤ c ∧ c * sx < width then
          clampedConvolution K image (r * sy) (c * sx) z
        else result.px r c z)
    height sy hsy
    (fun y result =>
      (ConvolveNoAlloc.edgeBlock K sx image y 0 left
        { result := result, res_ptr := ⟨Int.tdiv y sy, 0⟩ }).bind (fun s1 =>
      (ConvolveNoAlloc.middleBlock K sx image y left right s1).bind (fun s2 =>
      (ConvolveNoAlloc.edgeBlock K sx image y right width s2).map (fun s3 => s3.result))))
    ?_ height.toNat 0 result (by omega) ?_
  · obtain ⟨y1, out, hrun, hy1, k, hyk, hk0, hprev, horows, hocols, hpx⟩ := key
    refine ⟨out, hrun, horows, hocols, ?_⟩
    intro r c z
    rw [hpx r c z]
    have hiff : (0 ≤ r ∧ r < k) ↔ (0 ≤ r ∧ r * sy < height) := by
      constructor
      · rintro ⟨hr1, h⟩
        refine ⟨hr1, ?_⟩
        rcases hprev with h0 | h0
        · omega
        · have : r * sy ≤ (k - 1) * sy := Int.mul_le_mul_of_nonneg_right (by omega) hsy.le
          omega
      · rintro ⟨hr1, h⟩
        refine ⟨hr1, ?_⟩
        have : r * sy < k * sy := by omega
        exact lt_of_mul_lt_mul_right this hsy.le
    simp only [← and_assoc, hiff]
  · rintro y res hy ⟨k, hyk, hk0, hprev, hrrows, hrcols, hpx⟩
    have htd : Int.tdiv y sy = k := by rw [hyk]; exact Int.mul_tdiv_cancel k hsy.ne'
    have hklt : k < res.rows := by
      rw [hrrows]
      have : k * sy < result.rows * sy := by
        have : sy * result.rows = result.rows * sy := mul_comm _ _
        omega
      exact lt_of_mul_lt_mul_right this hsy.le
    obtain ⟨out, hrun, horows, hocols, hopx⟩ :=
      Convolve_row_spec K sx image res y k width left right hsx hr hc hkw hkh
        ⟨hk0, hklt⟩ (by rw [hrcols]; exact hcols) (by rw [hrcols, hw]) hl.symm hrt.symm
    refine ⟨out, by simp only [htd]; exact hrun, k + 1, by rw [hyk]; ring, by omega,
      Or.inr (by simpa using (by omega : k * sy < height)), by rw [horows, hrrows],
      by rw [hocols, hrcols], ?_⟩
    intro r c z
    rw [hopx r c z, hpx r c z]
    by_cases hrk : r = k
    · subst hrk
      rw [← hyk]
      simp only [true_and]
      split_ifs <;> first | rfl | omega
    · simp only [hrk, false_and, if_false]
      have : (r < k + 1) ↔ r < k := by omega
      simp only [this]
  · exact ⟨0, by ring, le_refl 0, Or.inl rfl, rfl, rfl, by
      intro r c z
      rw [if_neg]
      rintro ⟨h1, h2, _⟩
      omega⟩

theorem ceil_div_bound (n s r : Int) (hn : 0 < n) (hs : 0 < s)
    (hr : r < Int.tdiv (n + s - 1) s) :
    r * s < min (s * Int.tdiv (n + s - 1) s) n := by
  rw [Int.tdiv_eq_ediv (by omega) hs.le] at hr ⊢
  have h1 : (n + s - 1) / s * s ≤ n + s - 1 := Int.ediv_mul_le _ hs.ne'
  have h2 : (r + 1) * s ≤ (n + s - 1) / s * s :=
    Int.mul_le_mul_of_nonneg_right (by omega) hs.le
  have h3 : (r + 1) * s = r * s + s := by ring
  have h4 : s * ((n + s - 1) / s) = (n + s - 1) / s * s := mul_comm _ _
  omega

/-- A row or column `r` is below the rounded-up quotient of `n` by the step `s`
exactly when the position `r * s` is below `n`. -/
theorem lt_ceil_div_iff (n s r : Int) (hs : 0 < s) :
    r < (n + s - 1) / s ↔ r * s < n := by
  have h1 : r < (n + s - 1) / s ↔ r + 1 ≤ (n + s - 1) / s := Iff.rfl
  rw [h1, Int.le_ediv_iff_mul_le hs]
  have h3 : (r + 1) * s = r * s + s := by ring
  omega

/-- The function `Convolve` returns an image of the rounded-up size whose
pixels all hold the clamp-to-edge convolution, whatever the fresh memory held. -/
theorem Convolve_spec (K : Kernel T) (sx sy : Int) (image : Image T)
    (garbage : Int → Int → Nat → T) (hsx : 0 < sx) (hsy : 0 < sy)
    (hr : 0 < image.rows) (hc : 0 < image.cols) (hkw : 0 < K.kWidth) (hkh : 0 < K.kHeight) :
    ∃ out, Convolve K sx sy image garbage = some out ∧
      out.rows = (image.rows + sy - 1) / sy ∧ out.cols = (image.cols + sx - 1) / sx ∧
      ∀ r c, 0 ≤ r → r < out.rows → 0 ≤ c → c < out.cols →
        ∀ z, out.px r c z = clampedConvolution K image (r * sy) (c * sx) z := by
  unfold Convolve
  simp only []
  obtain ⟨out, hrun, horows, hocols, hpx⟩ := ConvolveNoAlloc_spec K sx sy image
    (create (Int.tdiv (image.rows + sy - 1) sy) (Int.tdiv (image.cols + sx - 1) sx) garbage)
    hsx hsy hr hc hkw hkh (Int.tdiv_nonneg (by omega) hsx.le)
  simp only [create] at horows hocols hpx
  refine ⟨out, hrun, by rw [horows, Int.tdiv_eq_ediv (by omega) hsy.le],
    by rw [hocols, Int.tdiv_eq_ediv (by omega) hsx.le], ?_⟩
  intro r c hr0 hr1 hc0 hc1 z
  rw [hpx r c z, if_pos]
  rw [horows] at hr1
  rw [hocols] at hc1
  exact ⟨hr0, ceil_div_bound image.rows sy r hr hsy hr1, hc0,
    ceil_div_bound image.cols sx c hc hsx hc1⟩

theorem InnerLoop.supported_pos (kw kh : Int) (h : InnerLoop.supported kw kh) :
    0 < kw ∧ 0 < kh ∧ kw ≤ 5 ∧ kh ≤ 5 := by
  unfold InnerLoop.supported at h
  simp only [List.mem_cons, Prod.mk.injEq, List.mem_singleton, List.not_mem_nil, or_false] at h
  omega

end ConvolveLemmas

/-! ## `DoubleSizeWithConvolutionNoAlloc` -/

section DoubleLemmas

variable {T : Type} [CommRing T] [PixelDiv T] [DecidableEq T]

theorem GroupLoop.sample_spec (masked : Bool) (nc : Nat) (K : Kernel T) (j0 i0 : Int)
    (buf : Image T) (row : Int → Ptr) (res : Image T) (ptr : Ptr)
    (hin : res.inside ptr.r ptr.c) (hreads : GroupLoop.readsInside buf row j0 i0) :
    GroupLoop.sample masked nc K j0 i0 buf row res ptr =
      some (sampleEffect masked nc res ptr.r ptr.c (GroupLoop.value K buf row j0 i0)) := by
  unfold GroupLoop.sample sampleEffect
  cases masked
  · simp [hreads, Image.write_inside _ _ _ hin]
  · simp only [if_true, if_pos hin, true_and]
    by_cases ha : res.px ptr.r ptr.c (nc - 1) = 0
    · simp [ha, hreads, Image.write_inside _ _ _ hin]
    · simp [ha]

omit [PixelDiv T] in
theorem sampleEffect_px (masked : Bool) (nc : Nat) (res : Image T) (r c : Int) (v : Nat → T)
    (r1 c1 : Int) (z : Nat) :
    (sampleEffect masked nc res r c v).px r1 c1 z =
      if r1 = r ∧ c1 = c ∧ (masked = true → res.px r c (nc - 1) = 0) then v z
      else res.px r1 c1 z := by
  unfold sampleEffect
  by_cases hm : masked = true ∧ res.px r c (nc - 1) ≠ 0
  · rw [if_pos hm, if_neg]
    rintro ⟨_, _, h⟩
    exact hm.2 (h hm.1)
  · rw [if_neg hm]
    unfold Image.set
    simp only
    have hm2 : masked = true → res.px r c (nc - 1) = 0 := by
      intro h
      by_contra h2
      exact hm ⟨h, h2⟩
    by_cases hrc : r1 = r ∧ c1 = c
    · rw [if_pos hrc, if_pos ⟨hrc.1, hrc.2, hm2⟩]
    · rw [if_neg hrc, if_neg]
      rintro ⟨h1, h2, _⟩
      exact hrc ⟨h1, h2⟩

omit [PixelDiv T] in
theorem sampleEffect_size (masked : Bool) (nc : Nat) (res : Image T) (r c : Int)
    (v : Nat → T) :
    (sampleEffect masked nc res r c v).rows = res.rows ∧
    (sampleEffect masked nc res r c v).cols = res.cols := by
  unfold sampleEffect
  split_ifs <;> exact ⟨rfl, rfl⟩

theorem twoEffect_size (masked : Bool) (nc : Nat) (image res : Image T) (y x : Int)
    (two : Bool) :
    (twoEffect masked nc image res y x two).rows = res.rows ∧
    (twoEffect masked nc image res y x two).cols = res.cols := by
  unfold twoEffect
  split_ifs
  · exact ⟨by rw [(sampleEffect_size _ _ _ _ _ _).1, (sampleEffect_size _ _ _ _ _ _).1],
      by rw [(sampleEffect_size _ _ _ _ _ _).2, (sampleEffect_size _ _ _ _ _ _).2]⟩
  · exact sampleEffect_size _ _ _ _ _ _

theorem twoEffect_px (masked : Bool) (nc : Nat) (image res : Image T) (y x : Int)
    (two : Bool) (r c : Int) (z : Nat) :
    (twoEffect masked nc image res y x two).px r c z =
      if r = y ∧ (c = x ∨ (two = true ∧ c = x + 1)) ∧
          (masked = true → res.px r c (nc - 1) = 0) then bilinearValue image y c z
      else res.px r c z := by
  unfold twoEffect
  cases two
  · simp only [Bool.false_eq_true, if_false, false_and, or_false]
    rw [sampleEffect_px]
    by_cases h : r = y ∧ c = x
    · obtain ⟨h1, h2⟩ := h
      subst h1 h2
      simp
    · rw [if_neg (fun hh => h ⟨hh.1, hh.2.1⟩), if_neg (fun hh => h ⟨hh.1, hh.2.1⟩)]
  · simp only [if_true, true_and]
    rw [sampleEffect_px, sampleEffect_px, sampleEffect_px]
    by_cases h1 : r = y ∧ c = x + 1
    · obtain ⟨h1, h2⟩ := h1
      subst h1 h2
      have hne : ¬ (x + 1 = x) := by omega
      simp [hne]
    · rw [if_neg (fun hh => h1 ⟨hh.1, hh.2.1⟩)]
      by_cases h2 : r = y ∧ c = x
      · obtain ⟨h3, h4⟩ := h2
        subst h3 h4
        simp
      · rw [if_neg (fun hh => h2 ⟨hh.1, hh.2.1⟩), if_neg]
        rintro ⟨h3, h4 | h4, _⟩
        · exact h2 ⟨h3, h4⟩
        · exact h1 ⟨h3, h4⟩

omit [DecidableEq T] in
theorem group_value_bilinear (image buf : Image T) (row : Int → Ptr) (y x : Int) (z : Nat)
    (hx2 : x % 2 = 0)
    (hW : ∀ j i : Int, 0 ≤ j → j ≤ 2 → 0 ≤ i → i ≤ 2 →
      buf.px (row j).r ((row j).c + i) z = image.clamped (y / 2 - 1 + j) (x / 2 - 1 + i) z) :
    (y % 2 = 0 →
      GroupLoop.value BiLinearTopLeftKernel buf row 0 0 z = bilinearValue image y x z ∧
      GroupLoop.value BiLinearTopRightKernel buf row 0 1 z = bilinearValue image y (x + 1) z) ∧
    (y % 2 ≠ 0 →
      GroupLoop.value BiLinearBottomLeftKernel buf row 1 0 z = bilinearValue image y x z ∧
      GroupLoop.value BiLinearBottomRightKernel buf row 1 1 z =
        bilinearValue image y (x + 1) z) := by
  have h00 := hW 0 0 (by norm_num) (by norm_num) (by norm_num) (by norm_num)
  have h01 := hW 0 1 (by norm_num) (by norm_num) (by norm_num) (by norm_num)
  have h02 := hW 0 2 (by norm_num) (by norm_num) (by norm_num) (by norm_num)
  have h10 := hW 1 0 (by norm_num) (by norm_num) (by norm_num) (by norm_num)
  have h11 := hW 1 1 (by norm_num) (by norm_num) (by norm_num) (by norm_num)
  have h12 := hW 1 2 (by norm_num) (by norm_num) (by norm_num) (by norm_num)
  have h20 := hW 2 0 (by norm_num) (by norm_num) (by norm_num) (by norm_num)
  have h21 := hW 2 1 (by norm_num) (by norm_num) (by norm_num) (by norm_num)
  have h22 := hW 2 2 (by norm_num) (by norm_num) (by norm_num) (by norm_num)
  have e1 : (x + 1) / 2 = x / 2 := by omega
  have e2 : (x + 1) % 2 = 1 := by omega
  have a0 : y / 2 - 1 + 0 = y / 2 + -1 := by omega
  have a1 : y / 2 - 1 + 1 = y / 2 := by omega
  have a2 : y / 2 - 1 + 2 = y / 2 + 1 := by omega
  have b0 : x / 2 - 1 + 0 = x / 2 + -1 := by omega
  have b1 : x / 2 - 1 + 1 = x / 2 := by omega
  have b2 : x / 2 - 1 + 2 = x / 2 + 1 := by omega
  rw [a0, b0] at h00
  rw [a0, b1] at h01
  rw [a0, b2] at h02
  rw [a1, b0] at h10
  rw [a1, b1] at h11
  rw [a1, b2] at h12
  rw [a2, b0] at h20
  rw [a2, b1] at h21
  rw [a2, b2] at h22
  simp only [add_zero] at h00 h10 h20
  have k : ∀ (a b c d : T) (K : Kernel T), K.kData = [a, b, c, d] →
      K.at 0 = a ∧ K.at 1 = b ∧ K.at 2 = c ∧ K.at 3 = d := by
    intro a b c d K hK
    unfold Kernel.at
    rw [hK]
    exact ⟨rfl, rfl, rfl, rfl⟩
  constructor
  · intro hy2
    constructor
    · obtain ⟨k0, k1, k2, k3⟩ := k 1 3 3 9 (BiLinearTopLeftKernel : Kernel T) rfl
      unfold GroupLoop.value bilinearValue
      simp only [hy2, hx2, if_true, k0, k1, k2, k3, zero_add, add_zero, one_add_one_eq_two]
      rw [h00, h01, h10, h11]
      show PixelDiv.pdiv _ (16 : T) = _
      congr 1
      ring
    · obtain ⟨k0, k1, k2, k3⟩ := k 3 1 9 3 (BiLinearTopRightKernel : Kernel T) rfl
      unfold GroupLoop.value bilinearValue
      simp only [hy2, e1, e2, if_true, k0, k1, k2, k3, zero_add, add_zero, one_add_one_eq_two]
      rw [h01, h02, h11, h12]
      show PixelDiv.pdiv _ (16 : T) = _
      have hne : ¬ ((1 : Int) = 0) := by norm_num
      simp only [hne, if_false]
      congr 1
      ring
  · intro hy2
    constructor
    · obtain ⟨k0, k1, k2, k3⟩ := k 3 9 1 3 (BiLinearBottomLeftKernel : Kernel T) rfl
      unfold GroupLoop.value bilinearValue
      simp only [hy2, hx2, if_true, if_false, k0, k1, k2, k3, zero_add, add_zero,
        one_add_one_eq_two]
      rw [h10, h11, h20, h21]
      show PixelDiv.pdiv _ (16 : T) = _
      congr 1
      ring
    · obtain ⟨k0, k1, k2, k3⟩ := k 9 3 3 1 (BiLinearBottomRightKernel : Kernel T) rfl
      unfold GroupLoop.value bilinearValue
      simp only [hy2, e1, e2, if_false, k0, k1, k2, k3, zero_add, add_zero, one_add_one_eq_two]
      rw [h11, h12, h21, h22]
      show PixelDiv.pdiv _ (16 : T) = _
      have hne : ¬ ((1 : Int) = 0) := by norm_num
      simp only [hne, if_false]

omit [CommRing T] [PixelDiv T] [DecidableEq T] in
theorem GroupLoop.readsInside_of_window (buf : Image T) (rows : Int → Ptr) (j0 i0 : Int)
    (hj : 0 ≤ j0 ∧ j0 ≤ 1) (hi : 0 ≤ i0 ∧ i0 ≤ 1)
    (hR : ∀ j i : Int, 0 ≤ j → j ≤ 2 → 0 ≤ i → i ≤ 2 →
      buf.inside (rows j).r ((rows j).c + i)) :
    GroupLoop.readsInside buf rows j0 i0 :=
  ⟨hR j0 i0 (by omega) (by omega) (by omega) (by omega),
   hR j0 (i0 + 1) (by omega) (by omega) (by omega) (by omega),
   hR (j0 + 1) i0 (by omega) (by omega) (by omega) (by omega),
   hR (j0 + 1) (i0 + 1) (by omega) (by omega) (by omega) (by omega)⟩

/-- One call of the bilinear group loop at the row `y` and the even column `x`,
on a window of the image centred at `(y / 2, x / 2)` with clamp-to-edge
contents: its effect on the result is `twoEffect`. -/
theorem GroupLoop.Call_spec (masked : Bool) (nc : Nat) (image buf res : Image T)
    (rows : Int → Ptr) (y x : Int) (two : Bool) (hy : 0 ≤ y) (hx2 : x % 2 = 0)
    (hW : ∀ (z : Nat) (j i : Int), 0 ≤ j → j ≤ 2 → 0 ≤ i → i ≤ 2 →
      buf.px (rows j).r ((rows j).c + i) z = image.clamped (y / 2 - 1 + j) (x / 2 - 1 + i) z)
    (hR : ∀ j i : Int, 0 ≤ j → j ≤ 2 → 0 ≤ i → i ≤ 2 →
      buf.inside (rows j).r ((rows j).c + i))
    (hin : res.inside y x) (hin2 : two = true → res.inside y (x + 1)) :
    GroupLoop.Call masked nc BiLinearKernelGroup buf rows (decide (Int.tmod y 2 ≠ 0)) two
      res ⟨y, x⟩ = some (twoEffect masked nc image res y x two) := by
  have hval := fun z => group_value_bilinear image buf rows y x z hx2 (hW z)
  have hin2b : ∀ v, two = true →
      (sampleEffect masked nc res y x v).inside y (x + 1) := by
    intro v h2
    have := hin2 h2
    unfold Image.inside at this ⊢
    rw [(sampleEffect_size masked nc res y x v).1, (sampleEffect_size masked nc res y x v).2]
    exact this
  rw [tmod_two y hy]
  unfold GroupLoop.Call twoEffect
  by_cases hpar : y % 2 = 0
  · have e1 : GroupLoop.value (BiLinearKernelGroup : KernelGroup T).TopLeft buf rows 0 0 =
        bilinearValue image y x := funext (fun z => ((hval z).1 hpar).1)
    have e2 : GroupLoop.value (BiLinearKernelGroup : KernelGroup T).TopRight buf rows 0 1 =
        bilinearValue image y (x + 1) := funext (fun z => ((hval z).1 hpar).2)
    simp only [hpar, ne_eq, not_true_eq_false, decide_False, Bool.false_eq_true, if_false]
    unfold GroupLoop.TopLeft GroupLoop.TopRight
    rw [GroupLoop.sample_spec masked nc _ 0 0 buf rows res ⟨y, x⟩ hin
      (GroupLoop.readsInside_of_window buf rows 0 0 (by omega) (by omega) hR), e1]
    simp only [Option.some_bind]
    cases two
    · simp
    · simp only [if_true]
      rw [GroupLoop.sample_spec masked nc _ 0 1 buf rows _ ⟨y, x + 1⟩ (hin2b _ rfl)
        (GroupLoop.readsInside_of_window buf rows 0 1 (by omega) (by omega) hR), e2]
  · have e1 : GroupLoop.value (BiLinearKernelGroup : KernelGroup T).BottomLeft buf rows 1 0 =
        bilinearValue image y x := funext (fun z => ((hval z).2 hpar).1)
    have e2 : GroupLoop.value (BiLinearKernelGroup : KernelGroup T).BottomRight buf rows 1 1 =
        bilinearValue image y (x + 1) := funext (fun z => ((hval z).2 hpar).2)
    simp only [hpar, ne_eq, not_false_eq_true, decide_True, if_true]
    unfold GroupLoop.BottomLeft GroupLoop.BottomRight
    rw [GroupLoop.sample_spec masked nc _ 1 0 buf rows res ⟨y, x⟩ hin
      (GroupLoop.readsInside_of_window buf rows 1 0 (by omega) (by omega) hR), e1]
    simp only [Option.some_bind]
    cases two
    · simp
    · simp only [if_true]
      rw [GroupLoop.sample_spec masked nc _ 1 1 buf rows _ ⟨y, x + 1⟩ (hin2b _ rfl)
        (GroupLoop.readsInside_of_window buf rows 1 1 (by omega) (by omega) hR), e2]

theorem GroupLoop.CallTwo_eq (masked : Bool) (nc : Nat) (G : KernelGroup T) (buf res : Image T)
    (rows : Int → Ptr) (odd : Bool) (ptr : Ptr) :
    GroupLoop.CallTwo masked nc G buf rows odd res ptr =
      GroupLoop.Call masked nc G buf rows odd true res ptr := by
  unfold GroupLoop.CallTwo GroupLoop.Call
  simp

/-- A block of a row of `DoubleSizeWithConvolutionNoAlloc`: every iteration at
the even column `x` has the effect `twoEffect` and advances `res_ptr` to the
next even column; at the end the pixels of the row between `lo` and `hi` (and
below `width`) hold the bilinear value, except, for the masked loop, those
whose alpha channel was not `0`. -/
theorem dblock_spec {σ : Type} (res : σ → Image T) (ptr : σ → Ptr) (Extra : Int → σ → Prop)
    (masked : Bool) (nc : Nat) (image : Image T) (y width lo hi : Int)
    (body : Int → σ → Option σ) (s0 : σ)
    (hlo : lo % 2 = 0)
    (hptr : (ptr s0).r = y ∧ (lo < width → (ptr s0).c = lo))
    (hhi : hi % 2 = 0 ∨ width ≤ hi)
    (hxw : ∀ x, lo ≤ x → x < hi → x % 2 = 0 → x < width)
    (hextra : Extra lo s0)
    (hbody : ∀ x s, lo ≤ x → x < hi → x % 2 = 0 → Extra x s → ptr s = ⟨y, x⟩ →
      (res s).rows = (res s0).rows → (res s).cols = (res s0).cols →
      ∃ s1, body x s = some s1 ∧
        res s1 = twoEffect masked nc image (res s) y x (decide (x < width - 1)) ∧
        (ptr s1).r = y ∧ (x + 2 < width → (ptr s1).c = x + 2) ∧ Extra (x + 2) s1) :
    ∃ s1, forLoop (hi - lo).toNat lo hi 2 s0 body = some s1 ∧
      (ptr s1).r = y ∧ (hi % 2 = 0 → lo ≤ hi → hi < width → (ptr s1).c = hi) ∧
      (res s1).rows = (res s0).rows ∧ (res s1).cols = (res s0).cols ∧
      ∀ r c z, (res s1).px r c z =
        if r = y ∧ lo ≤ c ∧ c < hi ∧ c < width ∧
            (masked = true → (res s0).px r c (nc - 1) = 0) then bilinearValue image y c z
        else (res s0).px r c z := by
  have key := forLoop_spec
    (fun x s => x % 2 = 0 ∧ lo ≤ x ∧ (x = lo ∨ x - 2 < hi) ∧ (ptr s).r = y ∧
      (x < width → (ptr s).c = x) ∧ (res s).rows = (res s0).rows ∧
      (res s).cols = (res s0).cols ∧ Extra x s ∧
      ∀ r c z, (res s).px r c z =
        if r = y ∧ lo ≤ c ∧ c < x ∧ c < width ∧
            (masked = true → (res s0).px r c (nc - 1) = 0) then bilinearValue image y c z
        else (res s0).px r c z)
    hi 2 (by norm_num) body ?_ (hi - lo).toNat lo s0 (le_refl _) ?_
  · obtain ⟨x1, s1, hrun, hx1, hpar, hlox, hprev, hpr, hpc, hrows, hcols, _, hpx⟩ := key
    refine ⟨s1, hrun, hpr, ?_, hrows, hcols, ?_⟩
    · intro h1 h2 h3
      have : x1 = hi := by omega
      rw [← this]
      exact hpc (by omega)
    · intro r c z
      rw [hpx r c z]
      have hiff : (lo ≤ c ∧ c < x1 ∧ c < width) ↔ (lo ≤ c ∧ c < hi ∧ c < width) := by
        constructor
        · rintro ⟨h1, h2, h3⟩; exact ⟨h1, by omega, h3⟩
        · rintro ⟨h1, h2, h3⟩; exact ⟨h1, by omega, h3⟩
      by_cases hcond : r = y ∧ lo ≤ c ∧ c < x1 ∧ c < width ∧
          (masked = true → (res s0).px r c (nc - 1) = 0)
      · rw [if_pos hcond, if_pos]
        obtain ⟨h1, h2, h3, h4, h5⟩ := hcond
        have := hiff.mp ⟨h2, h3, h4⟩
        exact ⟨h1, this.1, this.2.1, this.2.2, h5⟩
      · rw [if_neg hcond, if_neg]
        rintro ⟨h1, h2, h3, h4, h5⟩
        have := hiff.mpr ⟨h2, h3, h4⟩
        exact hcond ⟨h1, this.1, this.2.1, this.2.2, h5⟩
  · rintro x s hx ⟨hpar, hlox, hprev, hpr, hpc, hrows, hcols, hex, hpx⟩
    have hxwid : x < width := hxw x hlox hx hpar
    have hp : ptr s = ⟨y, x⟩ := by
      have h1 := hpc hxwid
      cases hps : ptr s with
      | mk pr pc =>
        rw [hps] at hpr h1
        simp only at hpr h1
        rw [hpr, h1]
    obtain ⟨s1, hb, hres, hpr1, hpc1, hex1⟩ := hbody x s hlox hx hpar hex hp hrows hcols
    refine ⟨s1, hb, by omega, by omega, Or.inr (by omega), hpr1, hpc1, ?_, ?_, hex1, ?_⟩
    · rw [hres, (twoEffect_size _ _ _ _ _ _ _).1]; exact hrows
    · rw [hres, (twoEffect_size _ _ _ _ _ _ _).2]; exact hcols
    · intro r c z
      rw [hres, twoEffect_px]
      by_cases hhit : r = y ∧ (c = x ∨ (decide (x < width - 1) = true ∧ c = x + 1))
      · obtain ⟨hr1, hc1⟩ := hhit
        have hcx : x ≤ c ∧ c < x + 2 ∧ c < width := by
          rcases hc1 with h | ⟨h1, h2⟩
          · omega
          · have := of_decide_eq_true h1
            omega
        have halpha : (res s).px r c (nc - 1) = (res s0).px r c (nc - 1) := by
          rw [hpx r c (nc - 1), if_neg]
          rintro ⟨_, _, h3, _⟩
          omega
        have hz : (res s).px r c z = (res s0).px r c z := by
          rw [hpx r c z, if_neg]
          rintro ⟨_, _, h3, _⟩
          omega
        rw [halpha, hz]
        by_cases hm : masked = true → (res s0).px r c (nc - 1) = 0
        · rw [if_pos ⟨hr1, hc1, hm⟩, if_pos ⟨hr1, by omega, by omega, by omega, hm⟩]
        · rw [if_neg (fun h => hm h.2.2), if_neg (fun h => hm h.2.2.2.2)]
      · rw [if_neg (fun h => hhit ⟨h.1, h.2.1⟩), hpx r c z]
        have hiff : (r = y ∧ lo ≤ c ∧ c < x ∧ c < width) ↔
            (r = y ∧ lo ≤ c ∧ c < x + 2 ∧ c < width) := by
          constructor
          · rintro ⟨h1, h2, h3, h4⟩; exact ⟨h1, h2, by omega, h4⟩
          · rintro ⟨h1, h2, h3, h4⟩
            refine ⟨h1, h2, ?_, h4⟩
            by_contra hge
            apply hhit
            refine ⟨h1, ?_⟩
            by_cases hcx : c = x
            · exact Or.inl hcx
            · exact Or.inr ⟨decide_eq_true (by omega), by omega⟩
        by_cases hcond : r = y ∧ lo ≤ c ∧ c < x ∧ c < width ∧
            (masked = true → (res s0).px r c (nc - 1) = 0)
        · rw [if_pos hcond, if_pos]
          obtain ⟨h1, h2, h3, h4, h5⟩ := hcond
          have := hiff.mp ⟨h1, h2, h3, h4⟩
          exact ⟨this.1, this.2.1, this.2.2.1, this.2.2.2, h5⟩
        · rw [if_neg hcond, if_neg]
          rintro ⟨h1, h2, h3, h4, h5⟩
          have := hiff.mpr ⟨h1, h2, h3, h4⟩
          exact hcond ⟨this.1, this.2.1, this.2.2.1, this.2.2.2, h5⟩
  · refine ⟨hlo, le_refl _, Or.inl rfl, hptr.1, hptr.2, rfl, rfl, hextra, ?_⟩
    intro r c z
    rw [if_neg]
    rintro ⟨_, h2, h3, _⟩
    omega

omit [CommRing T] [PixelDiv T] [DecidableEq T] in
theorem GetPatchClampedToEdge_three (image : Image T) (x y : Int)
    (hr : 0 < image.rows) (hc : 0 < image.cols) :
    ∃ patch, GetPatchClampedToEdge 3 3 image x y = some patch ∧
      patch.rows = 3 ∧ patch.cols = 3 ∧
      ∀ j i z, patch.px j i z = image.clamped (y - 1 + j) (x - 1 + i) z := by
  unfold GetPatchClampedToEdge
  simp only
  rw [if_pos (all_upto_inside image 3 3 _ _ (by
    intro j i _ _ _ _
    unfold Image.inside
    omega))]
  refine ⟨_, rfl, rfl, rfl, ?_⟩
  intro j i z
  simp only
  unfold Image.clamped
  have e : Int.tdiv (3 - 1) 2 = 1 := by decide
  rw [e, clamp_eq _ _ (by omega), clamp_eq _ _ (by omega)]

/-- The conclusion shared by the blocks of a row of
`DoubleSizeWithConvolutionNoAlloc`. -/
theorem DoubleSize_edgeBlock_spec (masked : Bool) (nc : Nat)
    (image : Image T) (y width lo hi : Int) (adv : Bool) (s0 : RowState T)
    (hr : 0 < image.rows) (hc : 0 < image.cols)
    (hy : 0 ≤ y ∧ y < s0.result.rows) (hlo : lo % 2 = 0) (hlo0 : 0 ≤ lo)
    (hptr : s0.res_ptr.r = y ∧ (lo < width → s0.res_ptr.c = lo))
    (hhi : hi % 2 = 0 ∨ width ≤ hi)
    (hxw : ∀ x, lo ≤ x → x < hi → x % 2 = 0 → x < width)
    (hwidth : width ≤ s0.result.cols) :
    ∃ s1, DoubleSizeWithConvolutionNoAlloc.edgeBlock masked nc BiLinearKernelGroup image y
        width (decide (Int.tmod y 2 ≠ 0)) adv lo hi s0 = some s1 ∧
      s1.res_ptr.r = y ∧ (hi % 2 = 0 → lo ≤ hi → hi < width → s1.res_ptr.c = hi) ∧
      s1.result.rows = s0.result.rows ∧ s1.result.cols = s0.result.cols ∧
      ∀ r c z, s1.result.px r c z =
        if r = y ∧ lo ≤ c ∧ c < hi ∧ c < width ∧
            (masked = true → s0.result.px r c (nc - 1) = 0) then bilinearValue image y c z
        else s0.result.px r c z := by
  unfold DoubleSizeWithConvolutionNoAlloc.edgeBlock
  apply dblock_spec RowState.result RowState.res_ptr (fun _ _ => True) masked nc image y width
    lo hi _ s0 hlo hptr hhi hxw trivial
  intro x s hx1 hx2 hpar _ hp hrows hcols
  have hxwid := hxw x hx1 hx2 hpar
  obtain ⟨patch, hpatch, hprows, hpcols, hppx⟩ :=
    GetPatchClampedToEdge_three image (Int.tdiv x 2) (Int.tdiv y 2) hr hc
  have hk : (BiLinearKernelGroup : KernelGroup T).kWidth = 3 ∧
      (BiLinearKernelGroup : KernelGroup T).kHeight = 3 := ⟨rfl, rfl⟩
  rw [hk.1, hk.2, hpatch]
  simp only [Option.some_bind]
  rw [hp]
  rw [GroupLoop.Call_spec masked nc image patch s.result patch_rows y x
    (decide (x < width - 1)) hy.1 hpar
    (by
      intro z j i _ _ _ _
      simp only [patch_rows, zero_add]
      rw [hppx, tdiv_two y hy.1, tdiv_two x (by omega)])
    (by
      intro j i _ _ _ _
      unfold Image.inside
      simp only [patch_rows, zero_add]
      omega)
    (by
      unfold Image.inside
      rw [hrows, hcols]
      omega)
    (by
      intro h
      have := of_decide_eq_true h
      unfold Image.inside
      rw [hrows, hcols]
      omega)]
  simp only [Option.some_bind]
  refine ⟨_, rfl, rfl, rfl, ?_, trivial⟩
  intro h
  simp only
  have h2 : decide (x < width - 1) = true := decide_eq_true (by omega)
  simp [h2]

theorem DoubleSize_middleBlock_spec (masked : Bool) (nc : Nat)
    (image : Image T) (y width lo hi : Int) (s0 : RowState T)
    (hr : 0 < image.rows)
    (hy : 0 ≤ y ∧ y < s0.result.rows) (hlo : lo % 2 = 0)
    (hptr : s0.res_ptr.r = y ∧ (lo < width → s0.res_ptr.c = lo))
    (hhi : hi % 2 = 0 ∨ width ≤ hi)
    (hxw : ∀ x, lo ≤ x → x < hi → x % 2 = 0 → x < width - 1)
    (hwidth : width ≤ s0.result.cols)
    (hwin : lo < hi → 2 ≤ lo ∧ hi ≤ 2 * image.cols - 2) :
    ∃ s1, DoubleSizeWithConvolutionNoAlloc.middleBlock masked nc BiLinearKernelGroup image y
        (decide (Int.tmod y 2 ≠ 0)) lo hi s0 = some s1 ∧
      s1.res_ptr.r = y ∧ (hi % 2 = 0 → lo ≤ hi → hi < width → s1.res_ptr.c = hi) ∧
      s1.result.rows = s0.result.rows ∧ s1.result.cols = s0.result.cols ∧
      ∀ r c z, s1.result.px r c z =
        if r = y ∧ lo ≤ c ∧ c < hi ∧ c < width ∧
            (masked = true → s0.result.px r c (nc - 1) = 0) then bilinearValue image y c z
        else s0.result.px r c z := by
  unfold DoubleSizeWithConvolutionNoAlloc.middleBlock
  by_cases hlt : lo < hi
  · rw [if_pos hlt]
    obtain ⟨hlo2, hhi2⟩ := hwin hlt
    obtain ⟨s1, hrun, h1, h2, h3, h4, h5⟩ :=
      dblock_spec MidState.result MidState.res_ptr
        (fun x s => ∀ j, s.rows j =
          ⟨min (image.rows - 1) (max 0 (Int.tdiv y 2 - 1 + j)), Int.tdiv x 2 - 1⟩)
        masked nc image y width lo hi
        (fun _ s =>
          (GroupLoop.CallTwo masked nc BiLinearKernelGroup image s.rows
            (decide (Int.tmod y 2 ≠ 0)) s.result s.res_ptr).bind (fun result =>
          some { result := result
                 res_ptr := ⟨s.res_ptr.r, s.res_ptr.c + 2⟩
                 rows := fun i => ⟨(s.rows i).r, (s.rows i).c + 1⟩ }))
        ({ result := s0.result, res_ptr := s0.res_ptr
           rows := GetPatchRows (BiLinearKernelGroup : KernelGroup T).kWidth
             (BiLinearKernelGroup : KernelGroup T).kHeight image (Int.tdiv lo 2)
             (Int.tdiv y 2) } : MidState T)
        hlo hptr hhi (fun x a b c => by have := hxw x a b c; omega)
        (by intro j; rfl)
        (by
          intro x s hx1 hx2 hpar hrowsx hp hrows hcols
          have hxwid := hxw x hx1 hx2 hpar
          simp only at hp hrows hcols ⊢
          rw [GroupLoop.CallTwo_eq, hp]
          have hd : decide (x < width - 1) = true := decide_eq_true hxwid
          rw [hd]
          rw [GroupLoop.Call_spec masked nc image image s.result s.rows y x true hy.1 hpar
            (by
              intro z j i hj0 hj2 hi0 hi2
              rw [hrowsx j]
              simp only
              unfold Image.clamped
              rw [clamp_eq _ _ (by omega), tdiv_two y hy.1, tdiv_two x (by omega)]
              congr 1
              unfold clamp
              split_ifs <;> omega)
            (by
              intro j i _ _ _ _
              rw [hrowsx j]
              unfold Image.inside
              simp only
              rw [tdiv_two x (by omega)]
              omega)
            (by
              unfold Image.inside
              rw [hrows, hcols]
              omega)
            (by
              intro _
              unfold Image.inside
              rw [hrows, hcols]
              omega)]
          simp only [Option.some_bind]
          refine ⟨_, rfl, rfl, rfl, fun _ => rfl, ?_⟩
          intro j
          simp only
          rw [hrowsx j]
          simp only [Ptr.mk.injEq, true_and]
          rw [tdiv_two x (by omega), tdiv_two (x + 2) (by omega)]
          omega)
    exact ⟨⟨s1.result, s1.res_ptr⟩, by rw [hrun]; rfl, h1, h2, h3, h4, h5⟩
  · rw [if_neg hlt]
    refine ⟨s0, rfl, hptr.1, ?_, rfl, rfl, ?_⟩
    · intro _ h2 h3
      have : lo = hi := by omega
      rw [← this]
      exact hptr.2 (by omega)
    · intro r c z
      rw [if_neg]
      rintro ⟨_, h2, h3, _⟩
      omega

/-- One row of `DoubleSizeWithConvolutionNoAlloc`. -/
theorem DoubleSize_row_spec (masked : Bool) (nc : Nat)
    (image res : Image T) (y width left right : Int)
    (hr : 0 < image.rows) (hc : 0 < image.cols)
    (hy : 0 ≤ y ∧ y < res.rows) (hcols : 0 ≤ res.cols)
    (hfit : res.cols ≤ 2 * image.cols ∨ image.cols = 1)
    (hw : width = min res.cols ((image.cols + 1) * 2))
    (hl : left = min (width + Int.tmod width 2) 2)
    (hrt : right = max left (width + Int.tmod width 2 - 2)) :
    ∃ out,
      ((DoubleSizeWithConvolutionNoAlloc.edgeBlock masked nc BiLinearKernelGroup image y width
        (decide (Int.tmod y 2 ≠ 0)) false 0 left { result := res, res_ptr := ⟨y, 0⟩ }).bind
        (fun s1 =>
      (DoubleSizeWithConvolutionNoAlloc.middleBlock masked nc BiLinearKernelGroup image y
        (decide (Int.tmod y 2 ≠ 0)) left right s1).bind (fun s2 =>
      (DoubleSizeWithConvolutionNoAlloc.edgeBlock masked nc BiLinearKernelGroup image y width
        (decide (Int.tmod y 2 ≠ 0)) true right width s2).map (fun s3 => s3.result)))) =
        some out ∧
      out.rows = res.rows ∧ out.cols = res.cols ∧
      ∀ r c z, out.px r c z =
        if r = y ∧ 0 ≤ c ∧ c < width ∧ (masked = true → res.px r c (nc - 1) = 0) then
          bilinearValue image y c z
        else res.px r c z := by
  have hwidth0 : 0 ≤ width := by omega
  rw [tmod_two width hwidth0] at hl hrt
  have hleft0 : 0 ≤ left := by omega
  have hlr : left ≤ right := by omega
  have hleft2 : left % 2 = 0 := by omega
  have hright2 : right % 2 = 0 := by omega
  have hxl : ∀ x, 0 ≤ x → x < left → x % 2 = 0 → x < width := fun x _ _ _ => by omega
  have hxr : ∀ x, left ≤ x → x < right → x % 2 = 0 → x < width - 1 :=
    fun x _ _ _ => by omega
  have hwidth : width ≤ res.cols := by omega
  have hwin : left < right → 2 ≤ left ∧ right ≤ 2 * image.cols - 2 := fun h => by omega
  clear hw hl hrt hfit
  obtain ⟨s1, hrun1, p1r, p1c, p1rows, p1cols, p1px⟩ :=
    DoubleSize_edgeBlock_spec masked nc image y width 0 left false
      ⟨res, ⟨y, 0⟩⟩ hr hc hy (by norm_num) (le_refl 0) ⟨rfl, fun _ => rfl⟩
      (Or.inl hleft2) hxl hwidth
  simp only at p1rows p1cols p1px
  obtain ⟨s2, hrun2, p2r, p2c, p2rows, p2cols, p2px⟩ :=
    DoubleSize_middleBlock_spec masked nc image y width left right s1
      hr (by rw [p1rows]; exact hy) hleft2
      ⟨p1r, fun h => p1c hleft2 hleft0 h⟩
      (Or.inl hright2) hxr (by rw [p1cols]; exact hwidth) hwin
  obtain ⟨s3, hrun3, p3r, p3c, p3rows, p3cols, p3px⟩ :=
    DoubleSize_edgeBlock_spec masked nc image y width right width true
      s2 hr hc (by rw [p2rows, p1rows]; exact hy) hright2 (le_trans hleft0 hlr)
      ⟨p2r, fun h => p2c hright2 hlr h⟩
      (Or.inr (le_refl _)) (fun x _ h _ => h) (by rw [p2cols, p1cols]; exact hwidth)
  refine ⟨s3.result, ?_, by rw [p3rows, p2rows, p1rows], by rw [p3cols, p2cols, p1cols], ?_⟩
  · rw [hrun1]
    simp only [Option.some_bind]
    rw [hrun2]
    simp only [Option.some_bind]
    rw [hrun3]
    rfl
  · intro r c z
    by_cases hrr : r = y
    · subst hrr
      have hX1 : left ≤ c → s1.result.px r c (nc - 1) = res.px r c (nc - 1) := by
        intro h
        rw [p1px r c (nc - 1), if_neg]
        rintro ⟨_, _, h3, _⟩
        omega
      have hX2 : right ≤ c → s2.result.px r c (nc - 1) = res.px r c (nc - 1) := by
        intro h
        rw [p2px r c (nc - 1), if_neg, hX1 (by omega)]
        rintro ⟨_, _, h3, _⟩
        omega
      by_cases hin : 0 ≤ c ∧ c < width
      · obtain ⟨h0, hcw⟩ := hin
        by_cases h3 : right ≤ c
        · -- written by the right block
          rw [p3px r c z]
          by_cases hm : masked = true → res.px r c (nc - 1) = 0
          · rw [if_pos ⟨rfl, h3, hcw, hcw, by rw [hX2 h3]; exact hm⟩,
              if_pos ⟨rfl, h0, hcw, hm⟩]
          · rw [if_neg (fun h => hm (by rw [← hX2 h3]; exact h.2.2.2.2)),
              if_neg (fun h => hm h.2.2.2), p2px r c z,
              if_neg (fun h => by omega), p1px r c z, if_neg (fun h => by omega)]
        · rw [p3px r c z, if_neg (fun h => h3 h.2.1), p2px r c z]
          by_cases h2 : left ≤ c
          · -- written by the middle block
            by_cases hm : masked = true → res.px r c (nc - 1) = 0
            · rw [if_pos ⟨rfl, h2, by omega, hcw, by rw [hX1 h2]; exact hm⟩,
                if_pos ⟨rfl, h0, hcw, hm⟩]
            · rw [if_neg (fun h => hm (by rw [← hX1 h2]; exact h.2.2.2.2)),
                if_neg (fun h => hm h.2.2.2), p1px r c z, if_neg (fun h => by omega)]
          · -- written by the left block
            rw [if_neg (fun h => h2 h.2.1), p1px r c z]
            by_cases hm : masked = true → res.px r c (nc - 1) = 0
            · rw [if_pos ⟨rfl, h0, by omega, hcw, hm⟩, if_pos ⟨rfl, h0, hcw, hm⟩]
            · rw [if_neg (fun h => hm h.2.2.2.2), if_neg (fun h => hm h.2.2.2)]
      · rw [p3px r c z, if_neg (fun h => hin ⟨by omega, h.2.2.1⟩), p2px r c z,
          if_neg (fun h => hin ⟨by omega, h.2.2.2.1⟩), p1px r c z,
          if_neg (fun h => hin ⟨h.2.1, h.2.2.2.1⟩), if_neg (fun h => hin ⟨h.2.1, h.2.2.1⟩)]
    · rw [p3px r c z, if_neg (fun h => hrr h.1), p2px r c z,
        if_neg (fun h => hrr h.1), p1px r c z, if_neg (fun h => hrr h.1),
        if_neg (fun h => hrr h.1)]

/-- The function `DoubleSizeWithConvolutionNoAlloc` with the bilinear kernel
group, on a result that is at most twice as wide as the image (or on an image
one pixel wide): it returns, keeps the size of the result, writes the bilinear
value at the pixels of the processed area (for the masked loop, at those whose
alpha channel was `0`) and leaves every other pixel as it was. -/
theorem DoubleSizeWithConvolutionNoAlloc_spec (masked : Bool) (nc : Nat)
    (image result : Image T) (hr : 0 < image.rows) (hc : 0 < image.cols)
    (hrows : 0 ≤ result.rows) (hcols : 0 ≤ result.cols)
    (hfit : result.cols ≤ 2 * image.cols ∨ image.cols = 1) :
    ∃ out, DoubleSizeWithConvolutionNoAlloc masked nc BiLinearKernelGroup image result =
        some out ∧
      out.rows = result.rows ∧ out.cols = result.cols ∧
      ∀ r c z, out.px r c z =
        if 0 ≤ r ∧ r < min result.rows ((image.rows + 1) * 2) ∧
            0 ≤ c ∧ c < min result.cols ((image.cols + 1) * 2) ∧
            (masked = true → result.px r c (nc - 1) = 0) then bilinearValue image r c z
        else result.px r c z := by
  unfold DoubleSizeWithConvolutionNoAlloc
  simp only []
  have hk : (BiLinearKernelGroup : KernelGroup T).kWidth = 3 := rfl
  have hb : Int.tdiv (3 : Int) 2 + Int.tmod (Int.tdiv (3 : Int) 2) 2 = 2 := by decide
  rw [hk, hb]
  generalize hw : min result.cols ((image.cols + 1) * 2) = width
  generalize hh : min result.rows ((image.rows + 1) * 2) = height
  generalize hl : min (width + Int.tmod width 2) 2 = left
  generalize hrt : max left (width + Int.tmod width 2 - 2) = right
  have key := forLoop_spec
    (fun y res => 0 ≤ y ∧ (y = 0 ∨ y - 1 < height) ∧
      res.rows = result.rows ∧ res.cols = result.cols ∧
      ∀ r c z, res.px r c z =
        if 0 ≤ r ∧ r < y ∧ 0 ≤ c ∧ c < width ∧
            (masked = true → result.px r c (nc - 1) = 0) then bilinearValue image r c z
        else result.px r c z)
    height 1 (by norm_num)
    (fun y result =>
      (DoubleSizeWithConvolutionNoAlloc.edgeBlock masked nc BiLinearKernelGroup image y width
        (decide (Int.tmod y 2 ≠ 0)) false 0 left { result := result, res_ptr := ⟨y, 0⟩ }).bind
        (fun s1 =>
      (DoubleSizeWithConvolutionNoAlloc.middleBlock masked nc BiLinearKernelGroup image y
        (decide (Int.tmod y 2 ≠ 0)) left right s1).bind (fun s2 =>
      (DoubleSizeWithConvolutionNoAlloc.edgeBlock masked nc BiLinearKernelGroup image y width
        (decide (Int.tmod y 2 ≠ 0)) true right width s2).map (fun s3 => s3.result))))
    ?_ height.toNat 0 result (by omega) ?_
  · obtain ⟨y1, out, hrun, hy1, hy0, hprev, horows, hocols, hpx⟩ := key
    refine ⟨out, hrun, horows, hocols, ?_⟩
    intro r c z
    rw [hpx r c z]
    have hyh : y1 = height := by omega
    rw [hyh]
  · rintro y res hy ⟨hy0, hprev, hrrows, hrcols, hpx⟩
    obtain ⟨out, hrun, horows, hocols, hopx⟩ :=
      DoubleSize_row_spec masked nc image res y width left right hr hc
        ⟨hy0, by rw [hrrows]; omega⟩ (by rw [hrcols]; exact hcols) (by rw [hrcols]; exact hfit)
        (by rw [hrcols, hw]) hl.symm hrt.symm
    refine ⟨out, hrun, by omega, Or.inr (by omega), by rw [horows, hrrows],
      by rw [hocols, hrcols], ?_⟩
    intro r c z
    rw [hopx r c z]
    by_cases hrk : r = y
    · subst hrk
      have halpha : res.px r c (nc - 1) = result.px r c (nc - 1) := by
        rw [hpx r c (nc - 1), if_neg]
        rintro ⟨_, h2, _⟩
        omega
      have hz : res.px r c z = result.px r c z := by
        rw [hpx r c z, if_neg]
        rintro ⟨_, h2, _⟩
        omega
      rw [halpha, hz]
      by_cases hcond : 0 ≤ c ∧ c < width ∧ (masked = true → result.px r c (nc - 1) = 0)
      · rw [if_pos ⟨rfl, hcond⟩, if_pos ⟨hy0, by omega, hcond⟩]
      · rw [if_neg (fun h => hcond h.2), if_neg (fun h => hcond h.2.2)]
    · rw [if_neg (fun h => hrk h.1), hpx r c z]
      by_cases hcond : 0 ≤ r ∧ r < y ∧ 0 ≤ c ∧ c < width ∧
          (masked = true → result.px r c (nc - 1) = 0)
      · rw [if_pos hcond, if_pos ⟨hcond.1, by omega, hcond.2.2⟩]
      · rw [if_neg hcond, if_neg]
        rintro ⟨h1, h2, h3⟩
        exact hcond ⟨h1, by omega, h3⟩
  · refine ⟨le_refl 0, Or.inl rfl, rfl, rfl, ?_⟩
    intro r c z
    rw [if_neg]
    rintro ⟨h1, h2, _⟩
    omega

end DoubleLemmas

/-! ## `GaussianHalfSize` -/

section GaussLemmas

variable {T : Type} [CommRing T] [PixelDiv T]

/-- On an image without columns `ConvolveNoAlloc` runs through the rows and
leaves the result as it is. -/
theorem ConvolveNoAlloc_no_columns (K : Kernel T) (sx sy : Int) (image result : Image T)
    (hsx : 0 < sx) (hsy : 0 < sy) (hkw : 0 < K.kWidth) (hc : image.cols = 0)
    (hcols : 0 ≤ result.cols) :
    ConvolveNoAlloc K sx sy image result = some result := by
  unfold ConvolveNoAlloc
  simp only []
  have hb : 0 ≤ Int.tdiv K.kWidth 2 := Int.tdiv_nonneg hkw.le (by norm_num)
  have hw : min (sx * result.cols) image.cols = 0 := by
    have : 0 ≤ sx * result.cols := Int.mul_nonneg hsx.le hcols
    omega
  rw [hw]
  have hl : min 0 (RoundUp (Int.tdiv K.kWidth 2) sx) = 0 := by
    have := (RoundUp_spec (Int.tdiv K.kWidth 2) sx hb hsx).1
    omega
  rw [hl]
  have hrt : max 0 (RoundDown (0 - Int.tdiv K.kWidth 2) sx) = 0 := by
    by_cases h0 : Int.tdiv K.kWidth 2 = 0
    · rw [h0]
      have := (RoundDown_spec (0 - 0) sx (by norm_num) hsx).1
      omega
    · have := RoundDown_neg (0 - Int.tdiv K.kWidth 2) sx (by omega) hsx
      omega
  rw [hrt]
  obtain ⟨y1, out, hrun, _, hinv⟩ := forLoop_spec (fun _ res => res = result)
    (min (sy * result.rows) image.rows) sy hsy
    (fun y result =>
      (ConvolveNoAlloc.edgeBlock K sx image y 0 0
        { result := result, res_ptr := ⟨Int.tdiv y sy, 0⟩ }).bind (fun s1 =>
      (ConvolveNoAlloc.middleBlock K sx image y 0 0 s1).bind (fun s2 =>
      (ConvolveNoAlloc.edgeBlock K sx image y 0 0 s2).map (fun s3 => s3.result))))
    (by
      intro y res _ hres
      refine ⟨res, ?_, hres⟩
      unfold ConvolveNoAlloc.edgeBlock ConvolveNoAlloc.middleBlock
      simp [forLoop_empty])
    (min (sy * result.rows) image.rows).toNat 0 result (by omega) rfl
  rw [hrun, hinv]

end GaussLemmas

section GaussSmall

variable {T : Type} [CommRing T] [PixelDiv T]

/-- For the kernel sizes 3 and 4 `GaussianHalfSize` writes every pixel of its
result: each holds the clamp-to-edge convolution with the 3 x 3 or 4 x 4
Gaussian kernel at every second row and column. -/
theorem GaussianHalfSize_small_kernel (KERNEL_SIZE : Int) (K : Kernel T) (image : Image T)
    (garbage garbageTemp : Int → Int → Nat → T) (hr : 0 < image.rows) (hc : 0 < image.cols)
    (hK : (KERNEL_SIZE = 3 ∧ K = GaussianKernel33) ∨ (KERNEL_SIZE = 4 ∧ K = GaussianKernel44)) :
    ∃ out, GaussianHalfSize KERNEL_SIZE image garbage garbageTemp = some out ∧
      out.rows = (image.rows + 1) / 2 ∧ out.cols = (image.cols + 1) / 2 ∧
      ∀ r c, 0 ≤ r → r < out.rows → 0 ≤ c → c < out.cols →
        ∀ z, out.px r c z = clampedConvolution K image (r * 2) (c * 2) z := by
  unfold GaussianHalfSize GaussianHalfSizeNoAlloc
  have hsel : KERNEL_SIZE < 5 ∧
      (GaussianKernel KERNEL_SIZE KERNEL_SIZE : Option (Kernel T)) = some K ∧
      0 < K.kWidth ∧ 0 < K.kHeight := by
    rcases hK with ⟨h1, h2⟩ | ⟨h1, h2⟩
    · subst h1 h2
      exact ⟨by norm_num, by simp [GaussianKernel], by simp [GaussianKernel33],
        by simp [GaussianKernel33]⟩
    · subst h1 h2
      exact ⟨by norm_num, by simp [GaussianKernel], by simp [GaussianKernel44],
        by simp [GaussianKernel44]⟩
  obtain ⟨h5, hk, hkw, hkh⟩ := hsel
  simp only [h5, if_true, hk, Option.some_bind]
  rw [tdiv_two _ (by omega), tdiv_two _ (by omega)]
  obtain ⟨out, hrun, horows, hocols, hpx⟩ :=
    ConvolveNoAlloc_spec K 2 2 image
      (create ((image.rows + 1) / 2) ((image.cols + 1) / 2) garbage)
      (by norm_num) (by norm_num) hr hc hkw hkh (by simp only [create]; omega)
  simp only [create] at horows hocols hpx
  refine ⟨out, hrun, horows, hocols, ?_⟩
  intro r c hr0 hr1 hc0 hc1 z
  rw [hpx r c z, if_pos (by omega)]

end GaussSmall

/-! ## The pixels visited by `DoubleSizeWithConvolutionNoAlloc` -/

theorem Ptr.eq_iff (p q : Ptr) : p = q ↔ p.r = q.r ∧ p.c = q.c := by
  cases p
  cases q
  simp

theorem GroupLoop.mem_outputs (two : Bool) (y x : Int) (p : Ptr) :
    p ∈ GroupLoop.outputs two ⟨y, x⟩ ↔ p.r = y ∧ (p.c = x ∨ (two = true ∧ p.c = x + 1)) := by
  unfold GroupLoop.outputs
  cases two
  · simp only [Bool.false_eq_true, if_false, List.mem_singleton, false_and, or_false]
    exact Ptr.eq_iff p ⟨y, x⟩
  · simp only [if_true, List.mem_cons, List.mem_singleton, List.not_mem_nil, or_false, true_and]
    rw [Ptr.eq_iff, Ptr.eq_iff]
    constructor
    · rintro (⟨h1, h2⟩ | ⟨h1, h2⟩)
      · exact ⟨h1, Or.inl h2⟩
      · exact ⟨h1, Or.inr h2⟩
    · rintro ⟨h1, h2 | h2⟩
      · exact Or.inl ⟨h1, h2⟩
      · exact Or.inr ⟨h1, h2⟩

theorem GroupLoop.nodup_outputs (two : Bool) (ptr : Ptr) :
    (GroupLoop.outputs two ptr).Nodup := by
  unfold GroupLoop.outputs
  cases two
  · simp
  · simp only [if_true, List.nodup_cons, List.mem_singleton, List.not_mem_nil,
      not_false_eq_true, List.nodup_nil, and_true]
    rw [Ptr.eq_iff]
    simp

/-- A block of a row of the visits: the pixels of the row between `lo` and `hi`
(and below `width`) are added, each once. -/
theorem vblock_spec (width y lo hi : Int) (body : Int → VisitState → Option VisitState)
    (s0 : VisitState) (hlo : lo % 2 = 0)
    (hptr : s0.res_ptr.r = y ∧ (lo < width → s0.res_ptr.c = lo))
    (hhi : hi % 2 = 0 ∨ width ≤ hi)
    (hxw : ∀ x, lo ≤ x → x < hi → x % 2 = 0 → x < width)
    (hnd : s0.visited.Nodup) (hfresh : ∀ p ∈ s0.visited, p.r = y → p.c < lo)
    (hbody : ∀ x s, lo ≤ x → x < hi → x % 2 = 0 → s.res_ptr = ⟨y, x⟩ →
      ∃ s1, body x s = some s1 ∧
        s1.visited = s.visited ++ GroupLoop.outputs (decide (x < width - 1)) ⟨y, x⟩ ∧
        s1.res_ptr.r = y ∧ (x + 2 < width → s1.res_ptr.c = x + 2)) :
    ∃ s1, forLoop (hi - lo).toNat lo hi 2 s0 body = some s1 ∧
      s1.res_ptr.r = y ∧ (hi % 2 = 0 → lo ≤ hi → hi < width → s1.res_ptr.c = hi) ∧
      s1.visited.Nodup ∧
      ∀ p, p ∈ s1.visited ↔
        (p ∈ s0.visited ∨ (p.r = y ∧ lo ≤ p.c ∧ p.c < hi ∧ p.c < width)) := by
  have key := forLoop_spec
    (fun x s => x % 2 = 0 ∧ lo ≤ x ∧ (x = lo ∨ x - 2 < hi) ∧ s.res_ptr.r = y ∧
      (x < width → s.res_ptr.c = x) ∧ s.visited.Nodup ∧
      ∀ p, p ∈ s.visited ↔
        (p ∈ s0.visited ∨ (p.r = y ∧ lo ≤ p.c ∧ p.c < x ∧ p.c < width)))
    hi 2 (by norm_num) body ?_ (hi - lo).toNat lo s0 (le_refl _) ?_
  · obtain ⟨x1, s1, hrun, hx1, hpar, hlox, hprev, hpr, hpc, hnd1, hmem⟩ := key
    refine ⟨s1, hrun, hpr, ?_, hnd1, ?_⟩
    · intro h1 h2 h3
      have : x1 = hi := by omega
      rw [← this]
      exact hpc (by omega)
    · intro p
      rw [hmem p]
      constructor
      · rintro (h | ⟨h1, h2, h3, h4⟩)
        · exact Or.inl h
        · exact Or.inr ⟨h1, h2, by omega, h4⟩
      · rintro (h | ⟨h1, h2, h3, h4⟩)
        · exact Or.inl h
        · exact Or.inr ⟨h1, h2, by omega, h4⟩
  · rintro x s hx ⟨hpar, hlox, hprev, hpr, hpc, hnd1, hmem⟩
    have hxwid : x < width := hxw x hlox hx hpar
    have hp : s.res_ptr = ⟨y, x⟩ := by
      rw [Ptr.eq_iff]
      exact ⟨hpr, hpc hxwid⟩
    obtain ⟨s1, hb, hvis, hpr1, hpc1⟩ := hbody x s hlox hx hpar hp
    refine ⟨s1, hb, by omega, by omega, Or.inr (by omega), hpr1, hpc1, ?_, ?_⟩
    · rw [hvis]
      refine List.Nodup.append hnd1 (GroupLoop.nodup_outputs _ _) ?_
      intro p hp1 hp2
      rw [GroupLoop.mem_outputs] at hp2
      rw [hmem p] at hp1
      rcases hp1 with h | ⟨_, _, h3, _⟩
      · have := hfresh p h hp2.1
        omega
      · omega
    · intro p
      rw [hvis, List.mem_append, hmem p, GroupLoop.mem_outputs]
      constructor
      · rintro ((h | ⟨h1, h2, h3, h4⟩) | ⟨h1, h2 | ⟨h2, h3⟩⟩)
        · exact Or.inl h
        · exact Or.inr ⟨h1, h2, by omega, h4⟩
        · exact Or.inr ⟨h1, by omega, by omega, by omega⟩
        · have := of_decide_eq_true h2
          exact Or.inr ⟨h1, by omega, by omega, by omega⟩
      · rintro (h | ⟨h1, h2, h3, h4⟩)
        · exact Or.inl (Or.inl h)
        · by_cases hlt : p.c < x
          · exact Or.inl (Or.inr ⟨h1, h2, hlt, h4⟩)
          · refine Or.inr ⟨h1, ?_⟩
            by_cases hcx : p.c = x
            · exact Or.inl hcx
            · exact Or.inr ⟨decide_eq_true (by omega), by omega⟩
  · refine ⟨hlo, le_refl _, Or.inl rfl, hptr.1, hptr.2, hnd, ?_⟩
    intro p
    constructor
    · intro h; exact Or.inl h
    · rintro (h | ⟨_, h2, h3, _⟩)
      · exact h
      · omega

/-- One row of the visits: the pixels of the row `y` below `width` are added,
each once. -/
theorem visits_row_spec (visited : List Ptr) (y width left right : Int)
    (hwidth0 : 0 ≤ width) (hnd : visited.Nodup) (hfresh : ∀ p ∈ visited, p.r ≠ y)
    (hl : left = min (width + Int.tmod width 2) 2)
    (hrt : right = max left (width + Int.tmod width 2 - 2)) :
    ∃ out,
      ((DoubleSizeWithConvolutionNoAlloc.visitsEdge width false 0 left
        { visited := visited, res_ptr := ⟨y, 0⟩ }).bind (fun s1 =>
      (DoubleSizeWithConvolutionNoAlloc.visitsMiddle left right s1).bind (fun s2 =>
      (DoubleSizeWithConvolutionNoAlloc.visitsEdge width true right width s2).map
        (fun s3 => s3.visited)))) = some out ∧
      out.Nodup ∧
      ∀ p, p ∈ out ↔ (p ∈ visited ∨ (p.r = y ∧ 0 ≤ p.c ∧ p.c < width)) := by
  rw [tmod_two width hwidth0] at hl hrt
  have hleft0 : 0 ≤ left := by omega
  have hlr : left ≤ right := by omega
  have hleft2 : left % 2 = 0 := by omega
  have hright2 : right % 2 = 0 := by omega
  have hxl : ∀ x, 0 ≤ x → x < left → x % 2 = 0 → x < width := fun x _ _ _ => by omega
  have hxr : ∀ x, left ≤ x → x < right → x % 2 = 0 → x < width - 1 :=
    fun x _ _ _ => by omega
  clear hl hrt
  have hedge : ∀ (adv : Bool) (lo hi : Int) (s0 : VisitState), lo % 2 = 0 →
      (s0.res_ptr.r = y ∧ (lo < width → s0.res_ptr.c = lo)) →
      (hi % 2 = 0 ∨ width ≤ hi) →
      (∀ x, lo ≤ x → x < hi → x % 2 = 0 → x < width) →
      s0.visited.Nodup → (∀ p ∈ s0.visited, p.r = y → p.c < lo) →
      ∃ s1, DoubleSizeWithConvolutionNoAlloc.visitsEdge width adv lo hi s0 = some s1 ∧
        s1.res_ptr.r = y ∧ (hi % 2 = 0 → lo ≤ hi → hi < width → s1.res_ptr.c = hi) ∧
        s1.visited.Nodup ∧
        ∀ p, p ∈ s1.visited ↔
          (p ∈ s0.visited ∨ (p.r = y ∧ lo ≤ p.c ∧ p.c < hi ∧ p.c < width)) := by
    intro adv lo hi s0 h1 h2 h3 h4 h5 h6
    unfold DoubleSizeWithConvolutionNoAlloc.visitsEdge
    apply vblock_spec width y lo hi _ s0 h1 h2 h3 h4 h5 h6
    intro x s _ _ _ hp
    refine ⟨_, rfl, by rw [hp], by rw [hp], ?_⟩
    intro hx
    simp only
    rw [hp]
    have hd : decide (x < width - 1) = true := decide_eq_true (by omega)
    simp [hd]
  obtain ⟨s1, hrun1, p1r, p1c, p1nd, p1mem⟩ :=
    hedge false 0 left ⟨visited, ⟨y, 0⟩⟩ (by norm_num) ⟨rfl, fun _ => rfl⟩
      (Or.inl hleft2) hxl hnd
      (fun p hp hpy => absurd hpy (hfresh p hp))
  simp only at p1mem
  have hmid : ∃ s2, DoubleSizeWithConvolutionNoAlloc.visitsMiddle left right s1 = some s2 ∧
      s2.res_ptr.r = y ∧ (right % 2 = 0 → left ≤ right → right < width → s2.res_ptr.c = right) ∧
      s2.visited.Nodup ∧
      ∀ p, p ∈ s2.visited ↔
        (p ∈ s1.visited ∨ (p.r = y ∧ left ≤ p.c ∧ p.c < right ∧ p.c < width)) := by
    unfold DoubleSizeWithConvolutionNoAlloc.visitsMiddle
    by_cases hlt : left < right
    · rw [if_pos hlt]
      apply vblock_spec width y left right _ s1 hleft2
        ⟨p1r, fun h => p1c hleft2 hleft0 h⟩ (Or.inl hright2)
        (fun x h1 h2 h3 => by have := hxr x h1 h2 h3; omega) p1nd
      · intro p hp hpy
        rw [p1mem p] at hp
        rcases hp with h | ⟨_, _, h3, _⟩
        · exact absurd hpy (hfresh p h)
        · exact h3
      · intro x s hx1 hx2 hpar hp
        have hd : decide (x < width - 1) = true := decide_eq_true (hxr x hx1 hx2 hpar)
        refine ⟨_, rfl, by rw [hp, hd], by rw [hp], fun _ => by rw [hp]⟩
    · rw [if_neg hlt]
      refine ⟨s1, rfl, p1r, ?_, p1nd, ?_⟩
      · intro _ h2 h3
        have : left = right := by omega
        rw [← this]
        exact p1c (by omega) (by omega) (by omega)
      · intro p
        constructor
        · intro h; exact Or.inl h
        · rintro (h | ⟨_, h2, h3, _⟩)
          · exact h
          · omega
  obtain ⟨s2, hrun2, p2r, p2c, p2nd, p2mem⟩ := hmid
  obtain ⟨s3, hrun3, _, _, p3nd, p3mem⟩ :=
    hedge true right width s2 hright2 ⟨p2r, fun h => p2c hright2 hlr h⟩
      (Or.inr (le_refl _)) (fun x _ h _ => h) p2nd (by
        intro p hp hpy
        rw [p2mem p, p1mem p] at hp
        rcases hp with (h | ⟨_, _, h3, _⟩) | ⟨_, _, h3, _⟩
        · exact absurd hpy (hfresh p h)
        · omega
        · exact h3)
  refine ⟨s3.visited, ?_, p3nd, ?_⟩
  · rw [hrun1]
    simp only [Option.some_bind]
    rw [hrun2]
    simp only [Option.some_bind]
    rw [hrun3]
    rfl
  · intro p
    rw [p3mem p, p2mem p, p1mem p]
    constructor
    · rintro (((h | ⟨h1, h2, h3, h4⟩) | ⟨h1, h2, h3, h4⟩) | ⟨h1, h2, h3, h4⟩)
      · exact Or.inl h
      · exact Or.inr ⟨h1, h2, h4⟩
      · exact Or.inr ⟨h1, by omega, h4⟩
      · exact Or.inr ⟨h1, by omega, h4⟩
    · rintro (h | ⟨h1, h2, h3⟩)
      · exact Or.inl (Or.inl (Or.inl h))
      · by_cases ha : p.c < left
        · exact Or.inl (Or.inl (Or.inr ⟨h1, h2, ha, h3⟩))
        · by_cases hb : p.c < right
          · exact Or.inl (Or.inr ⟨h1, by omega, hb, h3⟩)
          · exact Or.inr ⟨h1, by omega, h3, h3⟩

/-- The visits of `DoubleSizeWithConvolutionNoAlloc`: every pixel of the
processed area is visited, exactly once, and no other position is. -/
theorem visits_spec {T : Type} [CommRing T] (image result : Image T)
    (hr : 0 < image.rows) (hc : 0 < image.cols)
    (hrows : 0 ≤ result.rows) (hcols : 0 ≤ result.cols) :
    ∃ vs, DoubleSizeWithConvolutionNoAlloc.visits (BiLinearKernelGroup : KernelGroup T)
        image result = some vs ∧
      vs.Nodup ∧
      ∀ p : Ptr, p ∈ vs ↔
        (0 ≤ p.r ∧ p.r < min result.rows ((image.rows + 1) * 2) ∧
          0 ≤ p.c ∧ p.c < min result.cols ((image.cols + 1) * 2)) := by
  unfold DoubleSizeWithConvolutionNoAlloc.visits
  simp only []
  have hk : (BiLinearKernelGroup : KernelGroup T).kWidth = 3 := rfl
  have hb : Int.tdiv (3 : Int) 2 + Int.tmod (Int.tdiv (3 : Int) 2) 2 = 2 := by decide
  rw [hk, hb]
  generalize hw : min result.cols ((image.cols + 1) * 2) = width
  generalize hh : min result.rows ((image.rows + 1) * 2) = height
  generalize hl : min (width + Int.tmod width 2) 2 = left
  generalize hrt : max left (width + Int.tmod width 2 - 2) = right
  have key := forLoop_spec
    (fun y (vs : List Ptr) => 0 ≤ y ∧ (y = 0 ∨ y - 1 < height) ∧ vs.Nodup ∧
      ∀ p : Ptr, p ∈ vs ↔ (0 ≤ p.r ∧ p.r < y ∧ 0 ≤ p.c ∧ p.c < width))
    height 1 (by norm_num)
    (fun y visited =>
      (DoubleSizeWithConvolutionNoAlloc.visitsEdge width false 0 left
        { visited := visited, res_ptr := ⟨y, 0⟩ }).bind (fun s1 =>
      (DoubleSizeWithConvolutionNoAlloc.visitsMiddle left right s1).bind (fun s2 =>
      (DoubleSizeWithConvolutionNoAlloc.visitsEdge width true right width s2).map
        (fun s3 => s3.visited))))
    ?_ height.toNat 0 [] (by omega) ?_
  · obtain ⟨y1, vs, hrun, hy1, hy0, hprev, hnd, hmem⟩ := key
    refine ⟨vs, hrun, hnd, ?_⟩
    intro p
    rw [hmem p]
    have hyh : y1 = height := by omega
    rw [hyh]
  · rintro y vs hy ⟨hy0, hprev, hnd, hmem⟩
    obtain ⟨out, hrun, hond, homem⟩ :=
      visits_row_spec vs y width left right (by omega) hnd
        (by
          intro p hp hpy
          rw [hmem p] at hp
          omega)
        hl.symm hrt.symm
    refine ⟨out, hrun, by omega, Or.inr (by omega), hond, ?_⟩
    intro p
    rw [homem p, hmem p]
    constructor
    · rintro (⟨h1, h2, h3, h4⟩ | ⟨h1, h2, h3⟩)
      · exact ⟨h1, by omega, h3, h4⟩
      · exact ⟨by omega, by omega, h2, h3⟩
    · rintro ⟨h1, h2, h3, h4⟩
      by_cases hpy : p.r = y
      · exact Or.inr ⟨hpy, h3, h4⟩
      · exact Or.inl ⟨h1, by omega, h3, h4⟩
  · refine ⟨le_refl 0, Or.inl rfl, List.nodup_nil, ?_⟩
    intro p
    constructor
    · intro h; exact absurd h (List.not_mem_nil p)
    · rintro ⟨h1, h2, _⟩
      omega
/-! ## Lemmas on `FillRegionNoAlloc` -/

section FillLemmas

variable {T : Type} [CommRing T] [PixelDiv T] [DecidableEq T]

omit [DecidableEq T] in
/-- The function `BoxHalfSize` returns, for a non-empty image, an image of half
the size, rounded up. -/
theorem BoxHalfSize_size (image : Image T) (garbage : Int → Int → Nat → T)
    (hr : 0 < image.rows) (hc : 0 < image.cols) :
    ∃ out, BoxHalfSize image garbage = some out ∧
      out.rows = (image.rows + 1) / 2 ∧ out.cols = (image.cols + 1) / 2 := by
  unfold BoxHalfSize BoxHalfSizeNoAlloc
  simp only []
  rw [tdiv_two _ (by omega), tdiv_two _ (by omega)]
  obtain ⟨out, hrun, horows, hocols, _⟩ :=
    ConvolveNoAlloc_spec (BoxKernel22 : Kernel T) 2 2 image
      (create ((image.rows + 1) / 2) ((image.cols + 1) / 2) garbage)
      (by norm_num) (by norm_num) hr hc (by simp [BoxKernel22]) (by simp [BoxKernel22])
      (by simp only [create]; omega)
  exact ⟨out, hrun, horows, hocols⟩

/-- Halving, rounding up, keeps a positive size positive. -/
theorem iterate_half_pos (n : Int) (hn : 0 < n) (k : Nat) :
    0 < (fun x : Int => (x + 1) / 2)^[k] n := by
  induction k with
  | zero => simpa using hn
  | succ k ih =>
    rw [Function.iterate_succ_apply']
    omega

/-- A level of the pyramid is at most twice as small as the one before. -/
theorem iterate_half_fit (n : Int) (k : Nat) :
    (fun x : Int => (x + 1) / 2)^[k] n ≤ 2 * (fun x : Int => (x + 1) / 2)^[k + 1] n := by
  rw [Function.iterate_succ_apply']
  omega

/-- The number `ceilLog2 n` is at least `1` when `n` is at least `2`. -/
theorem ceilLog2_pos (n : Nat) (hn : 2 ≤ n) : 1 ≤ ceilLog2 n := by
  unfold ceilLog2
  obtain ⟨k, rfl⟩ : ∃ k, n = k + 1 := ⟨n - 1, by omega⟩
  unfold ceilLog2Fuel
  rw [if_neg (by omega)]
  omega

omit [DecidableEq T] in
/-- The first loop of `FillRegionNoAlloc` returns `num_levels` images: level
`j` has the size of the input halved `j + 1` times. -/
theorem buildPyramid_spec (garbage : Nat → Int → Int → Nat → T) (input : Image T)
    (hr : 0 < input.rows) (hc : 0 < input.cols) (n : Nat) :
    ∃ pyramid, FillRegionNoAlloc.buildPyramid garbage input n = some pyramid ∧
      pyramid.length = n ∧
      ∀ j im, pyramid[j]? = some im →
        im.rows = (fun x : Int => (x + 1) / 2)^[j + 1] input.rows ∧
        im.cols = (fun x : Int => (x + 1) / 2)^[j + 1] input.cols := by
  induction n with
  | zero => exact ⟨[], rfl, rfl, by simp⟩
  | succ i ih =>
    obtain ⟨pyramid, hrun, hlen, hdims⟩ := ih
    unfold FillRegionNoAlloc.buildPyramid
    rw [hrun]
    simp only [Option.some_bind]
    have hsrc : ∃ source, (if i = 0 then some input else pyramid[i - 1]?) = some source ∧
        source.rows = (fun x : Int => (x + 1) / 2)^[i] input.rows ∧
        source.cols = (fun x : Int => (x + 1) / 2)^[i] input.cols := by
      by_cases hi : i = 0
      · subst hi
        exact ⟨input, by simp, rfl, rfl⟩
      · have hlt : i - 1 < pyramid.length := by omega
        refine ⟨pyramid[i - 1], ?_, ?_⟩
        · rw [if_neg hi]
          exact List.getElem?_eq_getElem hlt
        · have := hdims (i - 1) pyramid[i - 1] (List.getElem?_eq_getElem hlt)
          have e : i - 1 + 1 = i := by omega
          rw [e] at this
          exact this
    obtain ⟨source, hsource, hsr, hsc⟩ := hsrc
    rw [hsource]
    simp only [Option.some_bind]
    obtain ⟨level, hlevel, hlr, hlc⟩ := BoxHalfSize_size source (garbage i)
      (by rw [hsr]; exact iterate_half_pos _ hr _) (by rw [hsc]; exact iterate_half_pos _ hc _)
    rw [hlevel]
    refine ⟨pyramid ++ [level], rfl, by simp [hlen], ?_⟩
    intro j im hj
    by_cases hjl : j < pyramid.length
    · rw [List.getElem?_append_left hjl] at hj
      exact hdims j im hj
    · rw [List.getElem?_append_right (by omega)] at hj
      have hj0 : j - pyramid.length = 0 := by
        by_contra hne
        obtain ⟨k, hk⟩ : ∃ k, j - pyramid.length = k + 1 := ⟨j - pyramid.length - 1, by omega⟩
        rw [hk] at hj
        simp at hj
      rw [hj0] at hj
      simp only [List.getElem?_cons_zero, Option.some.injEq] at hj
      have e : j = i := by omega
      subst hj e
      rw [Function.iterate_succ_apply', Function.iterate_succ_apply', hlr, hlc, hsr, hsc]
      exact ⟨rfl, rfl⟩

/-- The second loop of `FillRegionNoAlloc` returns and keeps the sizes of the
levels of the pyramid. -/
theorem fillLoop_spec (NUM_CHANNELS : Nat) (rows cols : Int) (hr : 0 < rows) (hc : 0 < cols) :
    ∀ (i : Nat) (pyramid : List (Image T)), i < pyramid.length →
      (∀ j im, pyramid[j]? = some im →
        im.rows = (fun x : Int => (x + 1) / 2)^[j + 1] rows ∧
        im.cols = (fun x : Int => (x + 1) / 2)^[j + 1] cols) →
      ∃ filled, FillRegionNoAlloc.fillLoop NUM_CHANNELS i pyramid = some filled ∧
        filled.length = pyramid.length ∧
        ∀ j im, filled[j]? = some im →
          im.rows = (fun x : Int => (x + 1) / 2)^[j + 1] rows ∧
          im.cols = (fun x : Int => (x + 1) / 2)^[j + 1] cols := by
  intro i
  induction i with
  | zero =>
    intro pyramid _ hdims
    exact ⟨pyramid, rfl, rfl, hdims⟩
  | succ i ih =>
    intro pyramid hlt hdims
    unfold FillRegionNoAlloc.fillLoop
    have hi : i < pyramid.length := by omega
    rw [List.getElem?_eq_getElem hlt, List.getElem?_eq_getElem hi]
    simp only [Option.some_bind]
    obtain ⟨hur, huc⟩ := hdims (i + 1) pyramid[i + 1] (List.getElem?_eq_getElem hlt)
    obtain ⟨hlr, hlc⟩ := hdims i pyramid[i] (List.getElem?_eq_getElem hi)
    obtain ⟨out, hrun, horows, hocols, _⟩ :=
      DoubleSizeWithConvolutionNoAlloc_spec true NUM_CHANNELS pyramid[i + 1] pyramid[i]
        (by rw [hur]; exact iterate_half_pos _ hr _) (by rw [huc]; exact iterate_half_pos _ hc _)
        (by rw [hlr]; exact (iterate_half_pos _ hr _).le)
        (by rw [hlc]; exact (iterate_half_pos _ hc _).le)
        (Or.inl (by rw [hlc, huc]; exact iterate_half_fit cols (i + 1)))
    unfold BiLinearDoubleSizeWithMaskNoAlloc
    rw [hrun]
    simp only [Option.some_bind]
    obtain ⟨filled, hfill, hflen, hfdims⟩ := ih (pyramid.set i out)
      (by rw [List.length_set]; exact hi)
      (by
        intro j im hj
        rw [List.getElem?_set] at hj
        by_cases hij : i = j
        · subst hij
          rw [if_pos rfl, if_pos hi] at hj
          simp only [Option.some.injEq] at hj
          subst hj
          rw [horows, hocols]
          exact ⟨hlr, hlc⟩
        · rw [if_neg hij] at hj
          exact hdims j im hj)
    exact ⟨filled, hfill, by rw [hflen, List.length_set], hfdims⟩

/-- The function `FillRegionNoAlloc` on an image of more than one pixel: it
returns an image of the size of the input in which every pixel whose last
(alpha) channel is not `0` in the input has all its channels as in the input. -/
theorem FillRegionNoAlloc_keeps_known (NUM_CHANNELS : Nat) (input : Image T)
    (garbage : Nat → Int → Int → Nat → T) (hr : 0 < input.rows) (hc : 0 < input.cols)
    (hbig : 1 < input.rows ∨ 1 < input.cols) :
    ∃ out, FillRegionNoAlloc NUM_CHANNELS input garbage = some out ∧
      out.rows = input.rows ∧ out.cols = input.cols ∧
      ∀ r c, input.px r c (NUM_CHANNELS - 1) ≠ 0 → ∀ z, out.px r c z = input.px r c z := by
  unfold FillRegionNoAlloc
  simp only []
  have hlevels : 1 ≤ max (ceilLog2 input.cols.toNat) (ceilLog2 input.rows.toNat) := by
    rcases hbig with h | h
    · exact le_trans (ceilLog2_pos _ (by omega)) (le_max_right _ _)
    · exact le_trans (ceilLog2_pos _ (by omega)) (le_max_left _ _)
  generalize max (ceilLog2 input.cols.toNat) (ceilLog2 input.rows.toNat) = num_levels
    at hlevels
  obtain ⟨pyramid, hbuild, hlen, hdims⟩ := buildPyramid_spec garbage input hr hc num_levels
  rw [hbuild]
  simp only [Option.some_bind]
  obtain ⟨filled, hfill, hflen, hfdims⟩ :=
    fillLoop_spec NUM_CHANNELS input.rows input.cols hr hc (num_levels - 1) pyramid
      (by omega) hdims
  rw [hfill]
  simp only [Option.some_bind]
  have h0 : 0 < filled.length := by omega
  rw [List.getElem?_eq_getElem h0]
  simp only [Option.some_bind]
  obtain ⟨h0r, h0c⟩ := hfdims 0 filled[0] (List.getElem?_eq_getElem h0)
  obtain ⟨out, hrun, horows, hocols, hpx⟩ :=
    DoubleSizeWithConvolutionNoAlloc_spec true NUM_CHANNELS filled[0] input
      (by rw [h0r]; exact iterate_half_pos _ hr _) (by rw [h0c]; exact iterate_half_pos _ hc _)
      hr.le hc.le (Or.inl (by rw [h0c]; exact iterate_half_fit input.cols 0))
  unfold BiLinearDoubleSizeWithMaskNoAlloc
  refine ⟨out, hrun, horows, hocols, ?_⟩
  intro r c halpha z
  rw [hpx r c z, if_neg]
  rintro ⟨_, _, _, _, h⟩
  exact halpha (h rfl)

end FillLemmas

/-- The function `DiffuseFromMaskedRegion` on a mask of more than one pixel
and an image of the size of the mask: it returns, and a pixel that the mask
does not mark keeps, in each channel, a value that lies between
`numeric_limits<ImageType>::min()` and `max()` and that the cast to `ImageType`
leaves as it is. -/
theorem DiffuseFromMaskedRegion_keeps_unmasked (ImageType : NumericType)
    (NumImageChannels : Nat) (mask image : Image ℚ) (garbage : Nat → Int → Int → Nat → ℚ)
    (hrows : mask.rows = image.rows) (hcols : mask.cols = image.cols)
    (hr : 0 < mask.rows) (hc : 0 < mask.cols) (hbig : 1 < mask.rows ∨ 1 < mask.cols) :
    ∃ out, DiffuseFromMaskedRegion ImageType NumImageChannels mask image garbage = some out ∧
      ∀ row col channel, 0 ≤ row → row < mask.rows → 0 ≤ col → col < mask.cols →
        channel < NumImageChannels → 0 ≤ mask.px row col 0 →
        ImageType.numeric_limits_min ≤ image.px row col channel →
        image.px row col channel ≤ ImageType.numeric_limits_max →
        ImageType.static_cast (image.px row col channel) = image.px row col channel →
        out.px row col channel = image.px row col channel := by
  unfold DiffuseFromMaskedRegion
  rw [if_pos (all_upto_inside image mask.cols mask.rows (fun j => j) (fun i => i)
    (fun j i h1 h2 h3 h4 => ⟨h1, by simp only; omega, h3, by simp only; omega⟩))]
  simp only []
  obtain ⟨filled, hrun, _, _, hpx⟩ :=
    FillRegionNoAlloc_keeps_known (NumImageChannels + 1)
      (DiffuseFromMaskedRegion.withAlpha NumImageChannels mask image) garbage hr hc hbig
  rw [hrun]
  refine ⟨_, rfl, ?_⟩
  intro row col channel h1 h2 h3 h4 hch hmask hmin hmax hcast
  have hnot : ¬ mask.px row col 0 < 0 := not_lt.mpr hmask
  have halpha : (DiffuseFromMaskedRegion.withAlpha NumImageChannels mask image).px row col
      (NumImageChannels + 1 - 1) = 1 := by
    simp [DiffuseFromMaskedRegion.withAlpha, hnot]
  have hkeep := hpx row col (by rw [halpha]; norm_num)
  have e1 : filled.px row col NumImageChannels = 1 := by
    have := hkeep NumImageChannels
    rw [this]
    simpa using halpha
  have e2 : filled.px row col channel = image.px row col channel := by
    rw [hkeep channel]
    simp [DiffuseFromMaskedRegion.withAlpha, hnot, hch]
  simp only [h1, h2, h3, h4, hch, true_and, if_true, and_self, e1, e2, div_one,
    one_ne_zero, if_false]
  rw [min_eq_right hmax, max_eq_right hmin, hcast]

/-- Where every pixel is marked by the mask nothing is known: the alpha channel
stays `0` everywhere, the quotient `0 / 0` of the doubles is a NaN, and the
clamp turns it into `numeric_limits<ImageType>::max()`, here 255 for
`unsigned char`. -/
theorem DiffuseFromMaskedRegion_all_masked :
    (DiffuseFromMaskedRegion ucharType 1 fullMask zeroFiveImage zeroPyramidMemory).map
      (fun image => (image.px 0 0 0, image.px 0 1 0)) = some (255, 255) := by
  decide!
/-! ## Claims on `BoxHalfSize` and `Convolve` -/

section ConvolveClaims

variable {T : Type} [CommRing T] [PixelDiv T]

/-- C4: for every non-empty image, `BoxHalfSize` returns an image of size
`((rows + 1) / 2) x ((cols + 1) / 2)`, and each of its pixels `(r, c)` holds,
per channel, the sum of the input at rows `2r, 2r + 1` and columns
`2c, 2c + 1` (clamped to the last row and column) over 4. -/
theorem BoxHalfSize_box_average (image : Image T) (garbage : Int → Int → Nat → T)
    (hr : 0 < image.rows) (hc : 0 < image.cols) :
    ∃ out, BoxHalfSize image garbage = some out ∧
      out.rows = (image.rows + 1) / 2 ∧ out.cols = (image.cols + 1) / 2 ∧
      ∀ r c, 0 ≤ r → r < out.rows → 0 ≤ c → c < out.cols →
        ∀ z, out.px r c z = boxAverage image r c z := by
  unfold BoxHalfSize BoxHalfSizeNoAlloc
  simp only []
  obtain ⟨out, hrun, horows, hocols, hpx⟩ :=
    ConvolveNoAlloc_spec (BoxKernel22 : Kernel T) 2 2 image
      (create (Int.tdiv (image.rows + 1) 2) (Int.tdiv (image.cols + 1) 2) garbage)
      (by norm_num) (by norm_num) hr hc (by simp [BoxKernel22]) (by simp [BoxKernel22])
      (Int.tdiv_nonneg (by omega) (by norm_num))
  simp only [create] at horows hocols hpx
  rw [tdiv_two _ (by omega)] at horows hocols hpx
  rw [tdiv_two _ (by omega)] at hpx
  refine ⟨out, hrun, horows, hocols, ?_⟩
  intro r c hr0 hr1 hc0 hc1 z
  rw [hpx r c z, if_pos (by omega)]
  unfold clampedConvolution boxAverage
  congr 1
  simp [BoxKernel22, Kernel.at, Finset.sum_range_succ]
  have e1 : r * 2 = 2 * r := by ring
  have e2 : c * 2 = 2 * c := by ring
  rw [e1, e2]
  ring

/-- C7: for every non-empty image, kernel of positive width and height (so every
supported kernel) and positive steps, `ConvolveNoAlloc` returns, and each pixel
`(r, c)` it writes (those with `r * STEP_Y < height` and `c * STEP_X < width`)
holds, per channel, the clamp-to-edge convolution at the image position
`(r * STEP_Y, c * STEP_X)`, in the pointer-based middle block as in the boundary
blocks; every other pixel of the result is left as it was. -/
theorem ConvolveNoAlloc_clamped_convolution (K : Kernel T) (STEP_X STEP_Y : Int)
    (image result : Image T) (hsx : 0 < STEP_X) (hsy : 0 < STEP_Y)
    (hr : 0 < image.rows) (hc : 0 < image.cols) (hkw : 0 < K.kWidth) (hkh : 0 < K.kHeight)
    (hcols : 0 ≤ result.cols) :
    ∃ out, ConvolveNoAlloc K STEP_X STEP_Y image result = some out ∧
      ∀ r c z, out.px r c z =
        if 0 ≤ r ∧ r * STEP_Y < min (STEP_Y * result.rows) image.rows ∧
            0 ≤ c ∧ c * STEP_X < min (STEP_X * result.cols) image.cols then
          clampedConvolution K image (r * STEP_Y) (c * STEP_X) z
        else result.px r c z := by
  obtain ⟨out, hrun, _, _, hpx⟩ :=
    ConvolveNoAlloc_spec K STEP_X STEP_Y image result hsx hsy hr hc hkw hkh hcols
  exact ⟨out, hrun, hpx⟩

/-- C8: for every non-empty image `Convolve` returns an image of width
`(cols + STEP_X - 1) / STEP_X` and height `(rows + STEP_Y - 1) / STEP_Y`, and
every pixel of it is written: whatever the fresh memory held, each pixel holds
the convolution value. -/
theorem Convolve_size_rounded_up (K : Kernel T) (STEP_X STEP_Y : Int) (image : Image T)
    (garbage : Int → Int → Nat → T) (hsx : 0 < STEP_X) (hsy : 0 < STEP_Y)
    (hr : 0 < image.rows) (hc : 0 < image.cols) (hkw : 0 < K.kWidth) (hkh : 0 < K.kHeight) :
    ∃ out, Convolve K STEP_X STEP_Y image garbage = some out ∧
      out.cols = (image.cols + STEP_X - 1) / STEP_X ∧
      out.rows = (image.rows + STEP_Y - 1) / STEP_Y ∧
      ∀ r c, 0 ≤ r → r < out.rows → 0 ≤ c → c < out.cols →
        ∀ z, out.px r c z = clampedConvolution K image (r * STEP_Y) (c * STEP_X) z := by
  obtain ⟨out, hrun, horows, hocols, hpx⟩ :=
    Convolve_spec K STEP_X STEP_Y image garbage hsx hsy hr hc hkw hkh
  exact ⟨out, hrun, hocols, horows, hpx⟩

/-- C9: for every non-empty image and kernel, `Convolve` with the steps
`(STEP_X, STEP_Y)` is `Convolve` with the steps `(1, 1)` sampled every `STEP`
pixels: the latter has the size of the image, the former the size of the image
divided by the steps and rounded up, so that its pixels `(r, c)` are exactly
those whose position `(r * STEP_Y, c * STEP_X)` is a pixel of the latter, and
the pixel `(r, c)` of the former is the pixel `(r * STEP_Y, c * STEP_X)` of the
latter. -/
theorem Convolve_decimation (K : Kernel T) (STEP_X STEP_Y : Int) (image : Image T)
    (garbage garbage1 : Int → Int → Nat → T) (hsx : 0 < STEP_X) (hsy : 0 < STEP_Y)
    (hr : 0 < image.rows) (hc : 0 < image.cols) (hkw : 0 < K.kWidth) (hkh : 0 < K.kHeight) :
    ∃ out out1, Convolve K STEP_X STEP_Y image garbage = some out ∧
      Convolve K 1 1 image garbage1 = some out1 ∧
      (out1.rows = image.rows ∧ out1.cols = image.cols) ∧
      (out.rows = (image.rows + STEP_Y - 1) / STEP_Y ∧
        out.cols = (image.cols + STEP_X - 1) / STEP_X) ∧
      (∀ r c, (r < out.rows ↔ r * STEP_Y < out1.rows) ∧
        (c < out.cols ↔ c * STEP_X < out1.cols)) ∧
      ∀ r c, 0 ≤ r → r < out.rows → 0 ≤ c → c < out.cols →
        ∀ z, out.px r c z = out1.px (r * STEP_Y) (c * STEP_X) z := by
  obtain ⟨out, hrun, horows, hocols, hpx⟩ :=
    Convolve_spec K STEP_X STEP_Y image garbage hsx hsy hr hc hkw hkh
  obtain ⟨out1, hrun1, horows1, hocols1, hpx1⟩ :=
    Convolve_spec K 1 1 image garbage1 (by norm_num) (by norm_num) hr hc hkw hkh
  have hrows1 : out1.rows = image.rows := by rw [horows1]; simp
  have hcols1 : out1.cols = image.cols := by rw [hocols1]; simp
  have hcover : ∀ r c, (r < out.rows ↔ r * STEP_Y < out1.rows) ∧
      (c < out.cols ↔ c * STEP_X < out1.cols) := by
    intro r c
    rw [horows, hocols, hrows1, hcols1]
    exact ⟨lt_ceil_div_iff image.rows STEP_Y r hsy, lt_ceil_div_iff image.cols STEP_X c hsx⟩
  refine ⟨out, out1, hrun, hrun1, ⟨hrows1, hcols1⟩, ⟨horows, hocols⟩, hcover, ?_⟩
  intro r c hr0 hr1 hc0 hc1 z
  have hy0 : 0 ≤ r * STEP_Y := Int.mul_nonneg hr0 hsy.le
  have hx0 : 0 ≤ c * STEP_X := Int.mul_nonneg hc0 hsx.le
  rw [hpx r c hr0 hr1 hc0 hc1 z,
    hpx1 (r * STEP_Y) (c * STEP_X) hy0 ((hcover r c).1.mp hr1) hx0 ((hcover r c).2.mp hc1) z]
  simp

/-- C10: for every non-empty image, every result of any size, every kernel of
positive width and height (so every supported size) and every positive step (so
1 and 2), `ConvolveNoAlloc` returns a result: in the embedding every read of the
image and of the patch and every write of the result is checked against the
bounds, and a single access out of bounds would make the function return
`none`. -/
theorem ConvolveNoAlloc_in_bounds (K : Kernel T) (STEP_X STEP_Y : Int)
    (image result : Image T) (hsx : 0 < STEP_X) (hsy : 0 < STEP_Y)
    (hr : 0 < image.rows) (hc : 0 < image.cols) (hkw : 0 < K.kWidth) (hkh : 0 < K.kHeight)
    (hcols : 0 ≤ result.cols) :
    ∃ out, ConvolveNoAlloc K STEP_X STEP_Y image result = some out ∧
      out.rows = result.rows ∧ out.cols = result.cols := by
  obtain ⟨out, hrun, h1, h2, _⟩ :=
    ConvolveNoAlloc_spec K STEP_X STEP_Y image result hsx hsy hr hc hkw hkh hcols
  exact ⟨out, hrun, h1, h2⟩

end ConvolveClaims

/-- Witness of C4 on the sample image. -/
theorem BoxHalfSize_box_average_witness :
    (0 < sampleImage.rows ∧ 0 < sampleImage.cols) ∧
    ∃ out, BoxHalfSize sampleImage zeroMemory = some out ∧
      out.rows = (sampleImage.rows + 1) / 2 ∧ out.cols = (sampleImage.cols + 1) / 2 ∧
      ∀ r c, 0 ≤ r → r < out.rows → 0 ≤ c → c < out.cols →
        ∀ z, out.px r c z = boxAverage sampleImage r c z :=
  ⟨by decide, BoxHalfSize_box_average sampleImage zeroMemory (by decide) (by decide)⟩

/-- Witness of C7: the 2x2 box kernel with steps 2 on the sample image and a
1 x 3 result, lower than the expected 2 x 3: the row has the width 5, the left
block ends at 2 and the right block starts at 4, so the column 2 is written by
the middle block. -/
theorem ConvolveNoAlloc_clamped_convolution_witness :
    ((0 : Int) < 2 ∧ 0 < sampleImage.rows ∧ 0 < sampleImage.cols ∧
      0 < (BoxKernel22 : Kernel Int).kWidth ∧ 0 < (BoxKernel22 : Kernel Int).kHeight ∧
      0 ≤ (create 1 3 zeroMemory : Image Int).cols) ∧
    ∃ out, ConvolveNoAlloc BoxKernel22 2 2 sampleImage (create 1 3 zeroMemory) = some out ∧
      ∀ r c z, out.px r c z =
        if 0 ≤ r ∧ r * 2 < min (2 * (create 1 3 zeroMemory : Image Int).rows) sampleImage.rows ∧
            0 ≤ c ∧ c * 2 < min (2 * (create 1 3 zeroMemory : Image Int).cols) sampleImage.cols
        then clampedConvolution BoxKernel22 sampleImage (r * 2) (c * 2) z
        else (create 1 3 zeroMemory : Image Int).px r c z :=
  ⟨by decide, ConvolveNoAlloc_clamped_convolution BoxKernel22 2 2 sampleImage
    (create 1 3 zeroMemory) (by decide) (by decide) (by decide) (by decide) (by decide)
    (by decide) (by decide)⟩

/-- Witness of C8: half-sizing the 3 x 5 sample image gives a 2 x 3 image. -/
theorem Convolve_size_rounded_up_witness :
    ((0 : Int) < 2 ∧ 0 < sampleImage.rows ∧ 0 < sampleImage.cols) ∧
    ∃ out, Convolve BoxKernel22 2 2 sampleImage zeroMemory = some out ∧
      out.cols = (sampleImage.cols + 2 - 1) / 2 ∧
      out.rows = (sampleImage.rows + 2 - 1) / 2 ∧
      ∀ r c, 0 ≤ r → r < out.rows → 0 ≤ c → c < out.cols →
        ∀ z, out.px r c z = clampedConvolution BoxKernel22 sampleImage (r * 2) (c * 2) z :=
  ⟨by decide, Convolve_size_rounded_up BoxKernel22 2 2 sampleImage zeroMemory (by decide)
    (by decide) (by decide) (by decide) (by decide) (by decide)⟩

/-- Witness of C9 on the sample image with the steps `(2, 2)`. -/
theorem Convolve_decimation_witness :
    ((0 : Int) < 2 ∧ 0 < sampleImage.rows ∧ 0 < sampleImage.cols) ∧
    ∃ out out1, Convolve BoxKernel22 2 2 sampleImage zeroMemory = some out ∧
      Convolve BoxKernel22 1 1 sampleImage zeroMemory = some out1 ∧
      (out1.rows = sampleImage.rows ∧ out1.cols = sampleImage.cols) ∧
      (out.rows = (sampleImage.rows + 2 - 1) / 2 ∧ out.cols = (sampleImage.cols + 2 - 1) / 2) ∧
      (∀ r c, (r < out.rows ↔ r * 2 < out1.rows) ∧ (c < out.cols ↔ c * 2 < out1.cols)) ∧
      ∀ r c, 0 ≤ r → r < out.rows → 0 ≤ c → c < out.cols →
        ∀ z, out.px r c z = out1.px (r * 2) (c * 2) z :=
  ⟨by decide, Convolve_decimation BoxKernel22 2 2 sampleImage zeroMemory zeroMemory (by decide)
    (by decide) (by decide) (by decide) (by decide) (by decide)⟩

/-- Witness of C10: a 1 x 7 result, wider than the expected 2 x 3. -/
theorem ConvolveNoAlloc_in_bounds_witness :
    ((0 : Int) < 2 ∧ 0 < sampleImage.rows ∧ 0 < sampleImage.cols ∧
      0 ≤ (create 1 7 zeroMemory : Image Int).cols) ∧
    ∃ out, ConvolveNoAlloc BoxKernel22 2 2 sampleImage (create 1 7 zeroMemory) = some out ∧
      out.rows = (create 1 7 zeroMemory : Image Int).rows ∧
      out.cols = (create 1 7 zeroMemory : Image Int).cols :=
  ⟨by decide, ConvolveNoAlloc_in_bounds BoxKernel22 2 2 sampleImage (create 1 7 zeroMemory)
    (by decide) (by decide) (by decide) (by decide) (by decide) (by decide) (by decide)⟩

/-! ## Claims on the bilinear double size -/

section DoubleClaims

variable {T : Type} [CommRing T] [PixelDiv T] [DecidableEq T]

/-- C5: for every non-empty image, `BiLinearDoubleSize` returns an image of size
`2 * rows x 2 * cols`, and each of its pixels `(y, x)` holds, per channel,
`(9 * in(i, j) + 3 * in(i, j + dj) + 3 * in(i + di, j) + in(i + di, j + dj)) / 16`
with `i = y / 2`, `j = x / 2`, `di`, `dj` equal to `-1` for an even and `+1` for
an odd `y`, `x`, and the indices clamped to the image. -/
theorem BiLinearDoubleSize_bilinear (NUM_CHANNELS : Nat) (image : Image T)
    (garbage : Int → Int → Nat → T) (hr : 0 < image.rows) (hc : 0 < image.cols) :
    ∃ out, BiLinearDoubleSize NUM_CHANNELS image garbage = some out ∧
      out.rows = 2 * image.rows ∧ out.cols = 2 * image.cols ∧
      ∀ y x, 0 ≤ y → y < out.rows → 0 ≤ x → x < out.cols →
        ∀ z, out.px y x z = bilinearValue image y x z := by
  unfold BiLinearDoubleSize DoubleSizeWithConvolution
  rw [if_pos ⟨hc, hr⟩]
  obtain ⟨out, hrun, horows, hocols, hpx⟩ :=
    DoubleSizeWithConvolutionNoAlloc_spec false NUM_CHANNELS image
      (create (image.rows * 2) (image.cols * 2) garbage) hr hc
      (by simp only [create]; omega) (by simp only [create]; omega)
      (Or.inl (by simp only [create]; omega))
  simp only [create] at horows hocols hpx
  refine ⟨out, hrun, by omega, by omega, ?_⟩
  intro y x hy0 hy1 hx0 hx1 z
  rw [hpx y x z, if_pos]
  refine ⟨hy0, by omega, hx0, by omega, ?_⟩
  intro h
  exact absurd h (by decide)

/-- C6, as stated, fails: the 1 x 2 image `narrowImage` and the 1 x 5 result
`wideResult` are non-empty, the pixel `(0, 3)` of the result lies in the
processed area and has alpha `0`, and the call does not return a result: the
middle block reads the image at column 2, past its last column. -/
theorem BiLinearDoubleSizeWithMaskNoAlloc_wide_result :
    (0 < narrowImage.rows ∧ 0 < narrowImage.cols ∧ 0 < wideResult.rows ∧
      0 < wideResult.cols) ∧
    ((3 : Int) < min wideResult.cols ((narrowImage.cols + 1) * 2) ∧
      wideResult.px 0 3 (1 - 1) = 0) ∧
    BiLinearDoubleSizeWithMaskNoAlloc 1 narrowImage wideResult = none :=
  ⟨by decide, by decide, Option.isNone_iff_eq_none.mp (by decide)⟩

/-- C6, amended: for every non-empty image and every pre-allocated result that
is at most twice as wide as the image (or any result when the image is one
pixel wide), `BiLinearDoubleSizeWithMaskNoAlloc` returns; a result pixel whose
last channel was not `0` is unchanged, and a result pixel of the processed area
whose last channel was `0` holds the bilinear double-size value in all its
channels. -/
theorem BiLinearDoubleSizeWithMaskNoAlloc_only_alpha_zero (NUM_CHANNELS : Nat)
    (image result : Image T) (hr : 0 < image.rows) (hc : 0 < image.cols)
    (hrows : 0 ≤ result.rows) (hcols : 0 ≤ result.cols)
    (hfit : result.cols ≤ 2 * image.cols ∨ image.cols = 1) :
    ∃ out, BiLinearDoubleSizeWithMaskNoAlloc NUM_CHANNELS image result = some out ∧
      (∀ r c, result.px r c (NUM_CHANNELS - 1) ≠ 0 → ∀ z, out.px r c z = result.px r c z) ∧
      (∀ r c, 0 ≤ r → r < min result.rows ((image.rows + 1) * 2) →
        0 ≤ c → c < min result.cols ((image.cols + 1) * 2) →
        result.px r c (NUM_CHANNELS - 1) = 0 →
        ∀ z, out.px r c z = bilinearValue image r c z) := by
  unfold BiLinearDoubleSizeWithMaskNoAlloc
  obtain ⟨out, hrun, _, _, hpx⟩ :=
    DoubleSizeWithConvolutionNoAlloc_spec true NUM_CHANNELS image result hr hc hrows hcols hfit
  refine ⟨out, hrun, ?_, ?_⟩
  · intro r c halpha z
    rw [hpx r c z, if_neg]
    rintro ⟨_, _, _, _, h⟩
    exact halpha (h rfl)
  · intro r c hr0 hr1 hc0 hc1 halpha z
    rw [hpx r c z, if_pos ⟨hr0, hr1, hc0, hc1, fun _ => halpha⟩]

end DoubleClaims

/-- Witness of C5 on the sample image. -/
theorem BiLinearDoubleSize_bilinear_witness :
    (0 < sampleImage.rows ∧ 0 < sampleImage.cols) ∧
    ∃ out, BiLinearDoubleSize 1 sampleImage zeroMemory = some out ∧
      out.rows = 2 * sampleImage.rows ∧ out.cols = 2 * sampleImage.cols ∧
      ∀ y x, 0 ≤ y → y < out.rows → 0 ≤ x → x < out.cols →
        ∀ z, out.px y x z = bilinearValue sampleImage y x z :=
  ⟨by decide, BiLinearDoubleSize_bilinear 1 sampleImage zeroMemory (by decide) (by decide)⟩

/-- Witness of the amended C6: the 1 x 2 image and a 2 x 4 result with two
channels. -/
theorem BiLinearDoubleSizeWithMaskNoAlloc_only_alpha_zero_witness :
    (0 < narrowImage.rows ∧ 0 < narrowImage.cols ∧ 0 ≤ maskedResult.rows ∧
      0 ≤ maskedResult.cols ∧ maskedResult.cols ≤ 2 * narrowImage.cols) ∧
    ∃ out, BiLinearDoubleSizeWithMaskNoAlloc 2 narrowImage maskedResult = some out ∧
      (∀ r c, maskedResult.px r c (2 - 1) ≠ 0 → ∀ z, out.px r c z = maskedResult.px r c z) ∧
      (∀ r c, 0 ≤ r → r < min maskedResult.rows ((narrowImage.rows + 1) * 2) →
        0 ≤ c → c < min maskedResult.cols ((narrowImage.cols + 1) * 2) →
        maskedResult.px r c (2 - 1) = 0 →
        ∀ z, out.px r c z = bilinearValue narrowImage r c z) :=
  ⟨by decide, BiLinearDoubleSizeWithMaskNoAlloc_only_alpha_zero 2 narrowImage maskedResult
    (by decide) (by decide) (by decide) (by decide) (Or.inl (by decide))⟩

/-! ## Claims on `FillRegion` and `DiffuseFromMaskedRegion` -/

/-- C1 at the failing input: the 1 x 1 image `singlePixel` is non-empty and its
alpha channel is not `0`, yet `FillRegionNoAlloc` and `FillRegion` do not return
a result: `num_levels` is `0`, the array `pyramid` is empty and `pyramid[0]` is
read. -/
theorem FillRegionNoAlloc_single_pixel :
    (0 < singlePixel.rows ∧ 0 < singlePixel.cols ∧ singlePixel.px 0 0 (2 - 1) ≠ 0) ∧
    FillRegionNoAlloc 2 singlePixel zeroPyramidMemory = none ∧
    FillRegion 2 singlePixel zeroPyramidMemory = none :=
  ⟨by decide, Option.isNone_iff_eq_none.mp (by decide),
    Option.isNone_iff_eq_none.mp (by decide)⟩

/-- C2 at the failing input: for `ImageType = double`, the 1 x 2 image with the
values 0 and 5 and a mask that marks no pixel, the pixel `(0, 0)`, whose mask
value is not negative and whose value is 0 before the call, holds
`numeric_limits<double>::min() = 2^-1022` after it. -/
theorem DiffuseFromMaskedRegion_zero_pixel :
    (flatMask.rows = zeroFiveImage.rows ∧ flatMask.cols = zeroFiveImage.cols ∧
      0 ≤ flatMask.px 0 0 0 ∧ zeroFiveImage.px 0 0 0 = 0) ∧
    (DiffuseFromMaskedRegion doubleType 1 flatMask zeroFiveImage zeroPyramidMemory).map
      (fun image => image.px 0 0 0) = some (1 / 2 ^ 1022) :=
  ⟨by decide!, by decide!⟩

/-- C3 at the failing input: for `ImageType = double` and the 1 x 2 image whose
only unmasked pixel holds -1, the filled pixel `(0, 1)` holds
`numeric_limits<double>::min() = 2^-1022` after the call, which is above the
maximum -1 of the known values. -/
theorem DiffuseFromMaskedRegion_negative_known_value :
    (rightMask.px 0 0 0 ≥ 0 ∧ rightMask.px 0 1 0 < 0 ∧ minusOneImage.px 0 0 0 = -1) ∧
    (DiffuseFromMaskedRegion doubleType 1 rightMask minusOneImage zeroPyramidMemory).map
      (fun image => image.px 0 1 0) = some (1 / 2 ^ 1022) ∧
    (-1 : ℚ) < 1 / 2 ^ 1022 :=
  ⟨by decide!, by decide!, by norm_num⟩

/-! ## Claims on `GaussianHalfSize` and the Gaussian kernels -/

/-- C12 at the failing input: for `KERNEL_SIZE = 5` and the non-empty 1 x 3
image `threeWide` the result is 1 x 2 and its pixel `(0, 1)` is left
unwritten: it holds whatever the fresh memory of the result held, here -7 and
then 99. For the kernel sizes 3 and 4 the same pixel is written. -/
theorem GaussianHalfSize_five_unwritten_column :
    (0 < threeWide.rows ∧ 0 < threeWide.cols) ∧
    (GaussianHalfSize 5 threeWide (fun _ _ _ => -7) zeroMemory).map
      (fun out => (out.rows, out.cols, out.px 0 1 0)) = some (1, 2, -7) ∧
    (GaussianHalfSize 5 threeWide (fun _ _ _ => 99) zeroMemory).map
      (fun out => (out.rows, out.cols, out.px 0 1 0)) = some (1, 2, 99) ∧
    (GaussianHalfSize 3 threeWide (fun _ _ _ => -7) zeroMemory).map
      (fun out => out.px 0 1 0) = some 44 ∧
    (GaussianHalfSize 4 threeWide (fun _ _ _ => -7) zeroMemory).map
      (fun out => out.px 0 1 0) = some 46 := by
  decide

/-- C13, as stated, fails: on the 4 x 4 image `impulseImage` the pixel `(1, 1)`
of `GaussianHalfSize` with `KERNEL_SIZE = 5` is 358, while the clamp-to-edge
convolution with `GaussianKernel<T, 5, 5>` at the image position `(2, 2)` is
350. -/
theorem GaussianHalfSize_five_not_kernel55 :
    (0 < impulseImage.rows ∧ 0 < impulseImage.cols) ∧
    (GaussianHalfSize 5 impulseImage zeroMemory zeroMemory).map
      (fun out => out.px 1 1 0) = some 358 ∧
    clampedConvolution GaussianKernel55 impulseImage (1 * 2) (1 * 2) 0 = 350 := by
  decide

/-- C14: the 5 x 5 Gaussian kernel is the outer product of `(1, 4, 6, 4, 1)`
with itself, whose entries sum to 256, with 1 removed from the centre: its
centre weight is 35, every other entry is the entry of the outer product, its
entries sum to `kSum = 255`, and every entry and `kSum` are between 0 and 255,
the range of an unsigned 8-bit value. -/
theorem GaussianKernel55_pascal_minus_one :
    (GaussianKernel55 : Kernel Int).kData.length = 5 * 5 ∧
    (∀ j < 5, ∀ i < 5, (GaussianKernel55 : Kernel Int).kData.getD (j * 5 + i) 0 =
      if j = 2 ∧ i = 2 then 35 else pascalRow.getD j 0 * pascalRow.getD i 0) ∧
    pascalRow.getD 2 0 * pascalRow.getD 2 0 - 1 = 35 ∧
    pascalRow.sum * pascalRow.sum = 256 ∧
    (GaussianKernel55 : Kernel Int).kData.sum = 255 ∧
    (GaussianKernel55 : Kernel Int).kSum = 255 ∧
    (∀ e ∈ (GaussianKernel55 : Kernel Int).kData, 0 ≤ e ∧ e ≤ 255) ∧
    (0 ≤ (GaussianKernel55 : Kernel Int).kSum ∧ (GaussianKernel55 : Kernel Int).kSum ≤ 255) := by
  decide

section GaussClaims

variable {T : Type} [CommRing T] [PixelDiv T]

/-- C13, amended: for `KERNEL_SIZE = 5`, `GaussianHalfSize` convolves
separably with the kernels `GaussianKernel<T, 5, 1>` and
`GaussianKernel<T, 1, 5>` (weights `(1, 4, 6, 4, 1) / 16`): the image `temp` of
`rows x (cols / 2)` pixels holds the clamp-to-edge convolution of the image
with the 5 x 1 kernel at every second column, and each result pixel `(r, c)`
with `c < cols / 2` holds the clamp-to-edge convolution of `temp` with the
1 x 5 kernel at the row `2r` and the column `c`; the result has the size
`((rows + 1) / 2) x ((cols + 1) / 2)`. -/
theorem GaussianHalfSize_five_separable (image : Image T)
    (garbage garbageTemp : Int → Int → Nat → T) (hr : 0 < image.rows) (hc : 0 < image.cols) :
    ∃ out temp, GaussianHalfSize 5 image garbage garbageTemp = some out ∧
      out.rows = (image.rows + 1) / 2 ∧ out.cols = (image.cols + 1) / 2 ∧
      temp.rows = image.rows ∧ temp.cols = image.cols / 2 ∧
      (∀ y c, 0 ≤ y → y < temp.rows → 0 ≤ c → c < temp.cols →
        ∀ z, temp.px y c z = clampedConvolution GaussianKernel51 image y (c * 2) z) ∧
      (∀ r c, 0 ≤ r → r < out.rows → 0 ≤ c → c < image.cols / 2 →
        ∀ z, out.px r c z = clampedConvolution GaussianKernel15 temp (r * 2) c z) := by
  unfold GaussianHalfSize GaussianHalfSizeNoAlloc
  have hk1 : (GaussianKernel 5 1 : Option (Kernel T)) = some GaussianKernel51 := by
    simp [GaussianKernel]
  have hk2 : (GaussianKernel 1 5 : Option (Kernel T)) = some GaussianKernel15 := by
    simp [GaussianKernel]
  simp only [lt_self_iff_false, if_false, hk1, hk2, Option.some_bind]
  rw [tdiv_two _ (by omega), tdiv_two _ (by omega), tdiv_two _ (by omega)]
  obtain ⟨temp, hrun1, htrows, htcols, htpx⟩ :=
    ConvolveNoAlloc_spec (GaussianKernel51 : Kernel T) 2 1 image
      (create image.rows (image.cols / 2) garbageTemp) (by norm_num) (by norm_num) hr hc
      (by simp [GaussianKernel51]) (by simp [GaussianKernel51])
      (by simp only [create]; omega)
  simp only [create] at htrows htcols htpx
  rw [hrun1]
  simp only [Option.some_bind]
  have htemp : ∀ y c, 0 ≤ y → y < temp.rows → 0 ≤ c → c < temp.cols →
      ∀ z, temp.px y c z = clampedConvolution GaussianKernel51 image y (c * 2) z := by
    intro y c hy0 hy1 hc0 hc1 z
    rw [htpx y c z, if_pos (by omega), mul_one]
  by_cases hc2 : 2 ≤ image.cols
  · obtain ⟨out, hrun2, horows, hocols, hopx⟩ :=
      ConvolveNoAlloc_spec (GaussianKernel15 : Kernel T) 1 2 temp
        (create ((image.rows + 1) / 2) ((image.cols + 1) / 2) garbage)
        (by norm_num) (by norm_num) (by omega) (by omega)
        (by simp [GaussianKernel15]) (by simp [GaussianKernel15])
        (by simp only [create]; omega)
    simp only [create] at horows hocols hopx
    refine ⟨out, temp, hrun2, horows, hocols, htrows, htcols, htemp, ?_⟩
    intro r c hr0 hr1 hc0 hc1 z
    rw [hopx r c z, if_pos (by omega), mul_one]
  · have hcols0 : temp.cols = 0 := by omega
    rw [ConvolveNoAlloc_no_columns (GaussianKernel15 : Kernel T) 1 2 temp _ (by norm_num)
      (by norm_num) (by simp [GaussianKernel15]) hcols0 (by simp only [create]; omega)]
    refine ⟨_, temp, rfl, rfl, rfl, htrows, htcols, htemp, ?_⟩
    intro r c _ _ hc0 hc1 z
    omega

end GaussClaims

/-- Witness of the amended C13 on the sample image. -/
theorem GaussianHalfSize_five_separable_witness :
    (0 < sampleImage.rows ∧ 0 < sampleImage.cols) ∧
    ∃ out temp, GaussianHalfSize 5 sampleImage zeroMemory zeroMemory = some out ∧
      out.rows = (sampleImage.rows + 1) / 2 ∧ out.cols = (sampleImage.cols + 1) / 2 ∧
      temp.rows = sampleImage.rows ∧ temp.cols = sampleImage.cols / 2 ∧
      (∀ y c, 0 ≤ y → y < temp.rows → 0 ≤ c → c < temp.cols →
        ∀ z, temp.px y c z = clampedConvolution GaussianKernel51 sampleImage y (c * 2) z) ∧
      (∀ r c, 0 ≤ r → r < out.rows → 0 ≤ c → c < sampleImage.cols / 2 →
        ∀ z, out.px r c z = clampedConvolution GaussianKernel15 temp (r * 2) c z) :=
  ⟨by decide, GaussianHalfSize_five_separable sampleImage zeroMemory zeroMemory (by decide)
    (by decide)⟩

/-! ## Claim on the bounds of `DoubleSizeWithConvolutionNoAlloc` -/

/-- C11: for every non-empty image and every non-empty pre-allocated result
whose width and height are at most twice those of the image,
`DoubleSizeWithConvolutionNoAlloc` (with either group loop) returns, so every
read of the image and of the patch and every write of the result is inside its
bounds, and the result pixels at which the inner loop outputs a sample are the
pixels of the result, each of them exactly once: no write falls outside the
result. -/
theorem DoubleSizeWithConvolutionNoAlloc_crops {T : Type} [CommRing T] [PixelDiv T]
    [DecidableEq T] (masked : Bool) (NUM_CHANNELS : Nat) (image result : Image T)
    (hr : 0 < image.rows) (hc : 0 < image.cols)
    (hrows : 0 < result.rows) (hcols : 0 < result.cols)
    (hwidth : result.cols ≤ 2 * image.cols) (hheight : result.rows ≤ 2 * image.rows) :
    (∃ out, DoubleSizeWithConvolutionNoAlloc masked NUM_CHANNELS BiLinearKernelGroup image
        result = some out ∧ out.rows = result.rows ∧ out.cols = result.cols) ∧
    ∃ vs, DoubleSizeWithConvolutionNoAlloc.visits (BiLinearKernelGroup : KernelGroup T)
        image result = some vs ∧
      vs.Nodup ∧ ∀ p : Ptr, p ∈ vs ↔ result.inside p.r p.c := by
  constructor
  · obtain ⟨out, hrun, h1, h2, _⟩ :=
      DoubleSizeWithConvolutionNoAlloc_spec masked NUM_CHANNELS image result hr hc hrows.le
        hcols.le (Or.inl hwidth)
    exact ⟨out, hrun, h1, h2⟩
  · obtain ⟨vs, hrun, hnd, hmem⟩ := visits_spec image result hr hc hrows.le hcols.le
    refine ⟨vs, hrun, hnd, ?_⟩
    intro p
    rw [hmem p]
    unfold Image.inside
    constructor
    · rintro ⟨h1, h2, h3, h4⟩
      exact ⟨h1, by omega, h3, by omega⟩
    · rintro ⟨h1, h2, h3, h4⟩
      exact ⟨h1, by omega, h3, by omega⟩

/-- Witness of C11: the 3 x 5 sample image and a 3 x 5 result, of odd width
and smaller than twice the image. -/
theorem DoubleSizeWithConvolutionNoAlloc_crops_witness :
    (0 < sampleImage.rows ∧ 0 < sampleImage.cols ∧ 0 < oddResult.rows ∧ 0 < oddResult.cols ∧
      oddResult.cols ≤ 2 * sampleImage.cols ∧ oddResult.rows ≤ 2 * sampleImage.rows) ∧
    (∃ out, DoubleSizeWithConvolutionNoAlloc true 1 BiLinearKernelGroup sampleImage
        oddResult = some out ∧ out.rows = oddResult.rows ∧ out.cols = oddResult.cols) ∧
    ∃ vs, DoubleSizeWithConvolutionNoAlloc.visits (BiLinearKernelGroup : KernelGroup Int)
        sampleImage oddResult = some vs ∧
      vs.Nodup ∧ ∀ p : Ptr, p ∈ vs ↔ oddResult.inside p.r p.c :=
  ⟨by decide, DoubleSizeWithConvolutionNoAlloc_crops true 1 sampleImage oddResult (by decide)
    (by decide) (by decide) (by decide) (by decide) (by decide)⟩

end ImageDiffuse

namespace Calibration

/-! ## Claims on `Calibrate` and `CalibrateOptions` -/

/-- C15, as stated, fails: on the calibrated rig, `setCameraSize` with another
frame size and `setHomography` with other homographies change the camera size
and the homographies, and the stored remap tables are still there, the very
tables computed before. -/
theorem setters_keep_stale_remap_tables :
    ((calibratedRig.setCameraSize (Size.mk 640 480)).camera_size_ ≠ calibratedRig.camera_size_ ∧
      (calibratedRig.setCameraSize (Size.mk 640 480)).mapx_ = [40, 41, 42, 43] ∧
      (calibratedRig.setCameraSize (Size.mk 640 480)).mapy_ = [50, 51, 52, 53]) ∧
    ((calibratedRig.setHomography [14, 15, 16, 17]).homography_matrixs_ ≠
        calibratedRig.homography_matrixs_ ∧
      (calibratedRig.setHomography [14, 15, 16, 17]).mapx_ = [40, 41, 42, 43] ∧
      (calibratedRig.setHomography [14, 15, 16, 17]).mapy_ = [50, 51, 52, 53]) := by
  decide

/-- C15, amended: after `setCameraSize` changes the camera frame size, or
`setHomography` changes a homography, the stored remap tables `mapx_` and
`mapy_` of the object are left exactly as they were: the setter stores its
argument in `camera_size_` or `homography_matrixs_` and neither invalidates
nor recomputes the tables. -/
theorem setters_leave_remap_tables {Mat : Type} (self : Calibrate Mat) (camera_size : Size)
    (h : List Mat) :
    ((self.setCameraSize camera_size).camera_size_ = camera_size ∧
      (self.setCameraSize camera_size).mapx_ = self.mapx_ ∧
      (self.setCameraSize camera_size).mapy_ = self.mapy_) ∧
    ((self.setHomography h).homography_matrixs_ = h ∧
      (self.setHomography h).mapx_ = self.mapx_ ∧
      (self.setHomography h).mapy_ = self.mapy_) :=
  ⟨⟨rfl, rfl, rfl⟩, ⟨rfl, rfl, rfl⟩⟩

/-- C16, as stated, fails: the calibrated rig has one entry per camera in all
its per-camera vectors (four), and after `setRemapX` with a vector of three
tables it has not: the vectors have no common length any more. -/
theorem setRemapX_breaks_per_camera :
    calibratedRig.perCamera 4 ∧
    ¬ ∃ n, (calibratedRig.setRemapX [40, 41, 42]).perCamera n := by
  refine ⟨by decide, ?_⟩
  rintro ⟨n, h⟩
  unfold Calibrate.perCamera at h
  obtain ⟨h1, _, _, h4, _⟩ := h
  have e1 : (calibratedRig.setRemapX [40, 41, 42]).homography_matrixs_.length = 4 := rfl
  have e4 : (calibratedRig.setRemapX [40, 41, 42]).mapx_.length = 3 := rfl
  omega

/-- The invariant `perCamera n` says that each of the per-camera vectors has
the length `n`. -/
theorem perCamera_iff {Mat : Type} (self : Calibrate Mat) (n : Nat) :
    self.perCamera n ↔ ∀ l ∈ self.perCameraVectors, l.length = n := by
  simp [Calibrate.perCamera, Calibrate.perCameraVectors]

/-- C16, amended: each of `setRemapX`, `setRemapY`, `setHomography`, `setR` and
`setT` replaces one per-camera vector by its argument, whatever its length,
and leaves the other per-camera vectors unchanged; when the argument has one
entry per camera position, the invariant that all per-camera vectors have that
length is preserved. -/
theorem setters_preserve_per_camera {Mat : Type} (self : Calibrate Mat) (n : Nat)
    (v : List Mat) :
    ((self.setRemapX v).perCameraVectors =
        [self.homography_matrixs_, self.rotation_vectors_, self.translation_vectors_, v,
          self.mapy_, self.k_, self.dist_coeffs_] ∧
      (self.setRemapY v).perCameraVectors =
        [self.homography_matrixs_, self.rotation_vectors_, self.translation_vectors_,
          self.mapx_, v, self.k_, self.dist_coeffs_] ∧
      (self.setHomography v).perCameraVectors =
        [v, self.rotation_vectors_, self.translation_vectors_, self.mapx_, self.mapy_,
          self.k_, self.dist_coeffs_] ∧
      (self.setR v).perCameraVectors =
        [self.homography_matrixs_, v, self.translation_vectors_, self.mapx_, self.mapy_,
          self.k_, self.dist_coeffs_] ∧
      (self.setT v).perCameraVectors =
        [self.homography_matrixs_, self.rotation_vectors_, v, self.mapx_, self.mapy_,
          self.k_, self.dist_coeffs_]) ∧
    (self.perCamera n → v.length = n →
      (self.setRemapX v).perCamera n ∧ (self.setRemapY v).perCamera n ∧
      (self.setHomography v).perCamera n ∧ (self.setR v).perCamera n ∧
      (self.setT v).perCamera n) := by
  refine ⟨⟨rfl, rfl, rfl, rfl, rfl⟩, ?_⟩
  intro hself hv
  obtain ⟨h1, h2, h3, h4, h5, h6, h7⟩ := hself
  exact ⟨⟨h1, h2, h3, hv, h5, h6, h7⟩, ⟨h1, h2, h3, h4, hv, h6, h7⟩,
    ⟨hv, h2, h3, h4, h5, h6, h7⟩, ⟨h1, hv, h3, h4, h5, h6, h7⟩,
    ⟨h1, h2, hv, h4, h5, h6, h7⟩⟩

/-- Witness of the amended C16 on the calibrated rig. -/
theorem setters_preserve_per_camera_witness :
    (calibratedRig.perCamera 4 ∧ [90, 91, 92, 93].length = 4) ∧
    ((calibratedRig.setRemapX [90, 91, 92, 93]).perCameraVectors =
        [[10, 11, 12, 13], [70, 71, 72, 73], [80, 81, 82, 83], [90, 91, 92, 93],
          [50, 51, 52, 53], [20, 21, 22, 23], [30, 31, 32, 33]] ∧
      (calibratedRig.setRemapX [90, 91, 92, 93]).perCamera 4 ∧
      (calibratedRig.setRemapY [90, 91, 92, 93]).perCamera 4 ∧
      (calibratedRig.setHomography [90, 91, 92, 93]).perCamera 4 ∧
      (calibratedRig.setR [90, 91, 92, 93]).perCamera 4 ∧
      (calibratedRig.setT [90, 91, 92, 93]).perCamera 4) :=
  ⟨by decide,
    (setters_preserve_per_camera calibratedRig 4 [90, 91, 92, 93]).1.1,
    (setters_preserve_per_camera calibratedRig 4 [90, 91, 92, 93]).2 (by decide) (by decide)⟩

/-- C17: a default-constructed `CalibrateOptions` has the output size
600 x 600. -/
theorem default_output_size :
    CalibrateOptions.new.output_size = Size.mk 600 600 ∧
    CalibrateOptions.new.output_size.width = 600 ∧
    CalibrateOptions.new.output_size.height = 600 :=
  ⟨rfl, rfl, rfl⟩

/-- C18, as stated, fails: the default chessboard size does not have 6 rows
and 4 columns (the rows are the `height`, the columns the `width` of a
`cv::Size`). -/
theorem default_chessboard_not_six_rows :
    ¬ (CalibrateOptions.new.chessboard_size.height = 6 ∧
      CalibrateOptions.new.chessboard_size.width = 4) := by
  decide

/-- C18, amended: a default-constructed `CalibrateOptions` has the chessboard
size `cv::Size(6, 4)`: width 6 and height 4, that is 4 rows and 6 columns. -/
theorem default_chessboard_size :
    CalibrateOptions.new.chessboard_size = Size.mk 6 4 ∧
    CalibrateOptions.new.chessboard_size.width = 6 ∧
    CalibrateOptions.new.chessboard_size.height = 4 :=
  ⟨rfl, rfl, rfl⟩

/-! ## Claim on `backprojectSymmetric` -/

theorem bisectTheta_converged (distortion : ℚ → ℚ) (tolerance radius : ℚ) :
    ∀ (iterations : Nat) (lo hi theta : ℚ),
      bisectTheta distortion tolerance radius iterations lo hi = Except.ok theta →
      |distortion theta - radius| ≤ tolerance := by
  intro iterations
  induction iterations with
  | zero =>
    intro lo hi theta h
    simp [bisectTheta] at h
  | succ n ih =>
    intro lo hi theta h
    unfold bisectTheta at h
    simp only at h
    split_ifs at h with h1 h2
    · have : (lo + hi) / 2 = theta := by
        injection h
      rw [← this]
      exact h1
    · exact ih _ _ _ h
    · exact ih _ _ _ h

theorem bisectTheta_error (distortion : ℚ → ℚ) (tolerance radius : ℚ) :
    ∀ (iterations : Nat) (lo hi : ℚ) (e : Failure),
      bisectTheta distortion tolerance radius iterations lo hi = Except.error e →
      e = Failure.GeometryFailure := by
  intro iterations
  induction iterations with
  | zero =>
    intro lo hi e h
    simp only [bisectTheta] at h
    injection h with h
    exact h.symm
  | succ n ih =>
    intro lo hi e h
    unfold bisectTheta at h
    simp only at h
    split_ifs at h with h1 h2
    · exact ih _ _ _ h
    · exact ih _ _ _ h

/-- C20: `backprojectSymmetric` never returns an unrefined value: for every
pixel, either the call returns angles whose `theta` has converged, its
distorted radius being within the tolerance of the observed radius, or it
signals `GeometryFailure`; and with no iteration allowed it signals the
failure. -/
theorem backprojectSymmetric_converged_or_failure (distortion : ℚ → ℚ)
    (norm atan2 : ℚ × ℚ → ℚ) (tolerance : ℚ) (max_iterations : Nat) (theta_max : ℚ)
    (p_u : ℚ × ℚ) :
    ((∃ theta, backprojectSymmetric distortion norm atan2 tolerance max_iterations theta_max
          p_u = Except.ok (theta, atan2 p_u) ∧
        |distortion theta - norm p_u| ≤ tolerance) ∨
      backprojectSymmetric distortion norm atan2 tolerance max_iterations theta_max p_u =
        Except.error Failure.GeometryFailure) ∧
    backprojectSymmetric distortion norm atan2 tolerance 0 theta_max p_u =
      Except.error Failure.GeometryFailure := by
  refine ⟨?_, rfl⟩
  unfold backprojectSymmetric
  cases h : bisectTheta distortion tolerance (norm p_u) max_iterations 0 theta_max with
  | ok theta =>
    exact Or.inl ⟨theta, rfl, bisectTheta_converged distortion tolerance (norm p_u) _ _ _ _ h⟩
  | error e =>
    have := bisectTheta_error distortion tolerance (norm p_u) _ _ _ _ h
    rw [this]
    exact Or.inr rfl

/-! ## Claims on `generateHomography` and on the residuals of the optimizer -/

/-- The test `collinearPoints` holds exactly for the lists of points that are
on one line. -/
theorem collinearPoints_iff (points : List Point2f) :
    collinearPoints points = true ↔ collinear points := by
  unfold collinearPoints collinear
  simp only [List.all_eq_true, decide_eq_true_eq]
  constructor
  · intro hall
    by_cases h : ∃ p ∈ points, ∃ q ∈ points, p ≠ q
    · obtain ⟨p, hp, q, hq, hpq⟩ := h
      refine ⟨q.y - p.y, p.x - q.x, -((q.y - p.y) * p.x + (p.x - q.x) * p.y), ?_, ?_⟩
      · by_contra hzero
        push_neg at hzero
        apply hpq
        cases p
        cases q
        simp only [Point2f.mk.injEq] at hzero ⊢
        constructor <;> linarith [hzero.1, hzero.2]
      · intro r hr
        have := hall p hp q hq r hr
        unfold cross at this
        linear_combination (-1 : ℚ) * this
    · push_neg at h
      cases points with
      | nil => exact ⟨1, 0, 0, Or.inl one_ne_zero, by simp⟩
      | cons p0 rest =>
        refine ⟨1, 0, -p0.x, Or.inl one_ne_zero, ?_⟩
        intro r hr
        rw [h r hr p0 (List.mem_cons_self _ _)]
        ring
  · rintro ⟨a, b, c, hab, hline⟩ p hp q hq r hr
    have e1 := hline p hp
    have e2 := hline q hq
    have e3 := hline r hr
    have ha : a * cross p q r = 0 := by
      unfold cross
      linear_combination (r.y - p.y) * (e2 - e1) - (q.y - p.y) * (e3 - e1)
    have hb : b * cross p q r = 0 := by
      unfold cross
      linear_combination (q.x - p.x) * (e3 - e1) - (r.x - p.x) * (e2 - e1)
    rcases hab with h | h
    · exact (mul_eq_zero.mp ha).resolve_left h
    · exact (mul_eq_zero.mp hb).resolve_left h

/-- C21: for every corner set with fewer than 4 points or with collinear
points, `generateHomography` fails with `GeometryFailure` and neither produces
a homography (the matrix behind `H` is as it was) nor stores one (the object
is as it was). -/
theorem generateHomography_rejects_degenerate {Mat : Type}
    (solve : List Point2f → List Point2f → Option Mat) (self : Calibrate Mat)
    (image_points projected_points : List Point2f) (pos : Nat) (H : Mat)
    (h : image_points.length < 4 ∨ collinear image_points) :
    (self.generateHomography solve image_points projected_points pos H).status =
        Except.error Failure.GeometryFailure ∧
    (self.generateHomography solve image_points projected_points pos H).self = self ∧
    (self.generateHomography solve image_points projected_points pos H).H = H := by
  unfold Calibrate.generateHomography
  by_cases hlen : image_points.length < 4
  · rw [if_pos hlen]
    exact ⟨rfl, rfl, rfl⟩
  · rw [if_neg hlen]
    have hcol : collinearPoints image_points = true :=
      (collinearPoints_iff image_points).mpr (h.resolve_left hlen)
    rw [if_pos hcol]
    exact ⟨rfl, rfl, rfl⟩

/-- Witness of C21: five corners on the line `y = 2 x + 1`. -/
theorem generateHomography_rejects_degenerate_witness :
    (fiveCollinear.length < 4 ∨ collinear fiveCollinear) ∧
    (calibratedRig.generateHomography sampleSolve fiveCollinear squareCorners 1 7).status =
        Except.error Failure.GeometryFailure ∧
    (calibratedRig.generateHomography sampleSolve fiveCollinear squareCorners 1 7).self =
        calibratedRig ∧
    (calibratedRig.generateHomography sampleSolve fiveCollinear squareCorners 1 7).H = 7 :=
  ⟨Or.inr ⟨2, -1, 1, Or.inl (by norm_num), by decide!⟩,
    generateHomography_rejects_degenerate sampleSolve calibratedRig fiveCollinear squareCorners
      1 7 (Or.inr ⟨2, -1, 1, Or.inl (by norm_num), by decide!⟩)⟩

/-- The three collinear corners of scenario C are rejected, and the four
corners of a square are accepted: the homography found is returned and kept as
that of the camera. -/
theorem generateHomography_scenarios :
    (calibratedRig.generateHomography sampleSolve threeCollinear threeCollinear 1 7).H = 7 ∧
    (calibratedRig.generateHomography sampleSolve threeCollinear threeCollinear 1
      7).self.homography_matrixs_ = [10, 11, 12, 13] ∧
    (calibratedRig.generateHomography sampleSolve squareCorners squareCorners 1 7).H = 99 ∧
    (calibratedRig.generateHomography sampleSolve squareCorners squareCorners 1
      7).self.homography_matrixs_ = [10, 99, 12, 13] := by
  decide!

/-- C22: the residual of `HomographyCost` depends only on the homography and
on the stored pair; for every 3 x 3 homography and every stored corner and
target it is the homography applied to the corner, with the perspective
division, minus the target ground point, and it is zero exactly when the
homography maps the corner onto the target. -/
theorem HomographyCost_residual (M : Matrix (Fin 3) (Fin 3) ℚ) (x y px py : ℚ) :
    (HomographyCost.Create x y px py).call (rowMajor M) =
        (applyHomography M px py).map (fun q => (q.1 - x, q.2 - y)) ∧
    ((HomographyCost.Create x y px py).call (rowMajor M) = some (0, 0) ↔
        applyHomography M px py = some (x, y)) := by
  have e : ∀ i j : Fin 3, rowMajor M (3 * i.val + j.val) = M i j := by
    intro i j
    fin_cases i <;> fin_cases j <;> rfl
  have hv : ∀ i : Fin 3, (M.mulVec ![px, py, 1]) i = M i 0 * px + M i 1 * py + M i 2 := by
    intro i
    simp [Matrix.mulVec, Matrix.dotProduct, Fin.sum_univ_three]
  have h0 := e 0 0
  have h1 := e 0 1
  have h2 := e 0 2
  have h3 := e 1 0
  have h4 := e 1 1
  have h5 := e 1 2
  have h6 := e 2 0
  have h7 := e 2 1
  have h8 := e 2 2
  simp only [Fin.val_zero, Fin.val_one, Fin.val_two, mul_zero, mul_one, zero_add,
    Nat.reduceMul, Nat.reduceAdd] at h0 h1 h2 h3 h4 h5 h6 h7 h8
  unfold HomographyCost.call HomographyCost.Create applyHomography
  simp only [h0, h1, h2, h3, h4, h5, h6, h7, h8, hv]
  by_cases hw : M 2 0 * px + M 2 1 * py + M 2 2 = 0
  · simp [hw]
  · simp only [hw, if_false, Option.map_some', Option.some.injEq, Prod.mk.injEq, true_and]
    constructor
    · rintro ⟨ha, hb⟩
      exact ⟨by linarith, by linarith⟩
    · rintro ⟨ha, hb⟩
      exact ⟨by linarith, by linarith⟩

/-- C23: for every intrinsics `K`, pose `H`, object point and observed pixel,
`ExtrinsicCost` created with `K` as the intrinsics of its camera position
evaluates at `H` to the residual of `CameraCost` at `(K, H)` for the same
point, pixel and camera position. -/
theorem ExtrinsicCost_eq_CameraCost {Mat : Type}
    (project : (Nat → ℚ) → (Nat → ℚ) → Point3f → Int → Option Point2f)
    (intrinsics : Mat → Nat → ℚ) (k_matrix : List Mat) (K : Mat) (sp : Point3f)
    (ip : Point2f) (pos : Int) (H : Nat → ℚ)
    (hpos : 0 ≤ pos) (hK : k_matrix[pos.toNat]? = some K) :
    (ExtrinsicCost.Create k_matrix sp ip pos).call project intrinsics H =
      (CameraCost.Create sp ip pos).call project (intrinsics K) H := by
  unfold ExtrinsicCost.call ExtrinsicCost.Create CameraCost.call CameraCost.Create
  simp only [hpos, if_true, hK, Option.some_bind]

/-- Witness of C23: the pinhole projection, four cameras, the camera at the
position 2. -/
theorem ExtrinsicCost_eq_CameraCost_witness :
    ((0 : Int) ≤ 2 ∧ [500, 600, 700, 800][(2 : Int).toNat]? = some 700) ∧
    (ExtrinsicCost.Create [500, 600, 700, 800] ⟨1, 2, 4⟩ ⟨100, 200⟩ 2).call pinhole
        sampleIntrinsics (fun _ => 1) =
      (CameraCost.Create ⟨1, 2, 4⟩ ⟨100, 200⟩ 2).call pinhole (sampleIntrinsics 700)
        (fun _ => 1) :=
  ⟨⟨by decide, rfl⟩,
    ExtrinsicCost_eq_CameraCost pinhole sampleIntrinsics [500, 600, 700, 800] 700 ⟨1, 2, 4⟩
      ⟨100, 200⟩ 2 (fun _ => 1) (by decide) rfl⟩

end Calibration
